import Mathlib

/-!
Skipping and indexing Avro binary data (`lang/c/src/datum_skip.c`).

A shallow embedding of `avro_skip_data` and `avro_map_data` together with their
static helpers `skip_array`, `skip_map`, `skip_union` and `skip_record`.

* A C function that returns an `int` status and advances the reader becomes a
  function returning the status together with the reader it leaves behind.
* The recursion of `avro_skip_data` / `avro_map_data` and the `while` loop over
  blocks are bounded by a fuel argument; `none` means that the fuel ran out.
* `int64_t` values are integers; the one place where the source can overflow
  (`block_count * -1`) is wrapped explicitly.
-/

namespace Avro

/-! ## Schemas, readers and datums -/

/-- The schema variants `avro_typeof` distinguishes.  A link names its target by
an index into an environment of schemas, so that recursive schemas can be
written down. -/
inductive avro_schema_t where
  | null
  | boolean
  | string
  | int32
  | int64
  | float
  | double
  | bytes
  | fixed (size : Nat)
  | enum (symbols : List String)
  | array (items : avro_schema_t)
  | map (values : avro_schema_t)
  | union (branches : List avro_schema_t)
  | record (fields : List (String × avro_schema_t))
  | link (target : Nat)

/-- Modelled from the spec: the reader (`avro_reader_t`, declared outside the
sources at hand).  It is a forward-only byte source: `pos` is the number of
bytes consumed so far, which is what `position()` reports, and `rest` holds the
bytes still to come.  A byte is a natural number; decoders look at its low
eight bits only. -/
structure avro_reader_t where
  pos : Nat
  rest : List Nat
deriving DecidableEq, Repr

/-- Modelled from the spec: the datums `avro_map_data` builds (`avro_int64`,
`avro_array`, `avro_record` of the absent `datum.c`): a long, an array of datums,
and a record, an ordered mapping from field names to datums.  A record datum
also carries the schema it was created with, of which the field names are
kept. -/
inductive avro_datum_t where
  | int64 (v : Int)
  | array (items : List avro_datum_t)
  | record (schema_fields : List String) (fields : List (String × avro_datum_t))

mutual

/-- Deciding equality of datums, written out by hand because the type is nested. -/
def avro_datum_t.decEq : (a b : avro_datum_t) → Decidable (a = b)
  | .int64 v, .int64 w =>
    if h : v = w then isTrue (by rw [h]) else isFalse (by intro e; cases e; exact h rfl)
  | .array l, .array m =>
    match avro_datum_t.decEqList l m with
    | isTrue h => isTrue (by rw [h])
    | isFalse h => isFalse (by intro e; cases e; exact h rfl)
  | .record n f, .record m g =>
    if hn : n = m then
      match avro_datum_t.decEqFields f g with
      | isTrue h => isTrue (by rw [hn, h])
      | isFalse h => isFalse (by intro e; cases e; exact h rfl)
    else isFalse (by intro e; cases e; exact hn rfl)
  | .int64 _, .array _ => isFalse (by intro e; cases e)
  | .int64 _, .record _ _ => isFalse (by intro e; cases e)
  | .array _, .int64 _ => isFalse (by intro e; cases e)
  | .array _, .record _ _ => isFalse (by intro e; cases e)
  | .record _ _, .int64 _ => isFalse (by intro e; cases e)
  | .record _ _, .array _ => isFalse (by intro e; cases e)

def avro_datum_t.decEqList : (a b : List avro_datum_t) → Decidable (a = b)
  | [], [] => isTrue rfl
  | [], _ :: _ => isFalse (by intro e; cases e)
  | _ :: _, [] => isFalse (by intro e; cases e)
  | x :: xs, y :: ys =>
    match avro_datum_t.decEq x y, avro_datum_t.decEqList xs ys with
    | isTrue h, isTrue h2 => isTrue (by rw [h, h2])
    | isFalse h, _ => isFalse (by intro e; cases e; exact h rfl)
    | _, isFalse h => isFalse (by intro e; cases e; exact h rfl)

def avro_datum_t.decEqFields : (a b : List (String × avro_datum_t)) → Decidable (a = b)
  | [], [] => isTrue rfl
  | [], _ :: _ => isFalse (by intro e; cases e)
  | _ :: _, [] => isFalse (by intro e; cases e)
  | (k, x) :: xs, (k2, y) :: ys =>
    if hk : k = k2 then
      match avro_datum_t.decEq x y, avro_datum_t.decEqFields xs ys with
      | isTrue h, isTrue h2 => isTrue (by rw [hk, h, h2])
      | isFalse h, _ => isFalse (by intro e; cases e; exact h rfl)
      | _, isFalse h => isFalse (by intro e; cases e; exact h rfl)
    else isFalse (by intro e; cases e; exact hk rfl)

end

instance : DecidableEq avro_datum_t := avro_datum_t.decEq

def EINVAL : Int := 22
def ENOSPC : Int := 28
def EILSEQ : Int := 84

def DEFAULT_CHUNK_SIZE : Int := 512

/-- The value an `int64_t` holds after an arithmetic result `x` is stored in it
(two's complement wrap-around). -/
def wrap64 (x : Int) : Int :=
  (x + 9223372036854775808) % 18446744073709551616 - 9223372036854775808

/-! ## Decoder primitives -/

/-- Modelled from the spec: `position()`, in the source
`avro_reader_file_ftell(reader)`. -/
def avro_reader_file_ftell (reader : avro_reader_t) : Int :=
  (reader.pos : Int)

/-- Modelled from the spec: `skip(n)`, in the source `avro_skip(reader, n)`: it
consumes `n` raw bytes and fails when fewer are left. -/
def avro_skip (reader : avro_reader_t) (len : Nat) : Int × avro_reader_t :=
  if reader.rest.length < len then (ENOSPC, reader)
  else (0, ⟨reader.pos + len, reader.rest.drop len⟩)

/-- The loop of the variable-length integer decoder: at most `left` further
bytes, seven payload bits each, least significant group first, the high bit of
a byte announcing another byte. -/
def read_varint : (left : Nat) → (offset : Nat) → (value : Nat) → avro_reader_t →
    Int × Nat × avro_reader_t
  | 0, _, value, reader => (EILSEQ, value, reader)
  | left + 1, offset, value, reader =>
    match reader.rest with
    | [] => (ENOSPC, value, reader)
    | b :: bs =>
      if b / 128 % 2 = 1 then
        read_varint left (offset + 1) (value + b % 128 * 128 ^ offset) ⟨reader.pos + 1, bs⟩
      else
        (0, value + b % 128 * 128 ^ offset, ⟨reader.pos + 1, bs⟩)

/-- The zigzag decoding of a 64-bit word: `(n >> 1) ^ -(n & 1)`. -/
def zigzag_decode (value : Nat) : Int :=
  let n := value % 18446744073709551616
  if n % 2 = 0 then ((n / 2 : Nat) : Int) else -((n / 2 : Nat) : Int) - 1

/-- Modelled from the spec: `read_long`, which decodes a zigzag variable-length
integer of at most ten bytes.  It returns the status, the decoded long and the
reader. -/
def read_long (reader : avro_reader_t) : Int × Int × avro_reader_t :=
  match read_varint 10 0 0 reader with
  | (rval, value, reader1) => (rval, zigzag_decode value, reader1)

/-- Modelled from the spec: `skip_long`, which consumes one variable-length
integer. -/
def skip_long (reader : avro_reader_t) : Int × avro_reader_t :=
  match read_varint 10 0 0 reader with
  | (rval, _, reader1) => (rval, reader1)

/-- Modelled from the spec: `skip_bytes`, which consumes a long length and then
that many bytes; a negative length is rejected. -/
def skip_bytes (reader : avro_reader_t) : Int × avro_reader_t :=
  match read_long reader with
  | (rval, len, reader1) =>
    if rval ≠ 0 then (rval, reader1)
    else if len < 0 then (EINVAL, reader1)
    else avro_skip reader1 len.toNat

/-- The table of decoder primitives the helpers receive as `enc`. -/
structure avro_encoding_t where
  read_long : avro_reader_t → Int × Int × avro_reader_t
  skip_null : avro_reader_t → Int × avro_reader_t
  skip_boolean : avro_reader_t → Int × avro_reader_t
  skip_int : avro_reader_t → Int × avro_reader_t
  skip_long : avro_reader_t → Int × avro_reader_t
  skip_float : avro_reader_t → Int × avro_reader_t
  skip_double : avro_reader_t → Int × avro_reader_t
  skip_string : avro_reader_t → Int × avro_reader_t
  skip_bytes : avro_reader_t → Int × avro_reader_t

/-- Modelled from the spec: the binary encoding's primitives
(`avro_binary_encoding` of the absent `encoding_binary.c`). -/
def avro_binary_encoding : avro_encoding_t where
  read_long := Avro.read_long
  skip_null := fun reader => (0, reader)
  skip_boolean := fun reader => avro_skip reader 1
  skip_int := Avro.skip_long
  skip_long := Avro.skip_long
  skip_float := fun reader => avro_skip reader 4
  skip_double := fun reader => avro_skip reader 8
  skip_string := Avro.skip_bytes
  skip_bytes := Avro.skip_bytes

/-! ## Datum constructors and updates -/

def avro_int64 (v : Int) : avro_datum_t := avro_datum_t.int64 v

/-- The empty array datum `avro_array(avro_schema_long())`. -/
def avro_array : avro_datum_t := avro_datum_t.array []

/-- The empty record datum `avro_record(avro_schema_record(...))`, created with
a record schema that has no field yet. -/
def avro_record : avro_datum_t := avro_datum_t.record [] []

/-- Modelled from the spec: `avro_schema_record_field_append` applied to
`avro_datum_get_schema(datum)`: it adds a field at the end of the schema the
record datum carries and leaves the fields of the datum alone.  The names it is
given are `"__offset"` and field names of the writer schema, which are
identifiers.  It does not look whether the schema already has a field of that
name (the library function appends unconditionally), so on a record datum its
status is 0; any datum other than a record is rejected. -/
def avro_schema_record_field_append (datum : avro_datum_t) (field_name : String) :
    Int × avro_datum_t :=
  match datum with
  | avro_datum_t.record schema_fields fields =>
    (0, avro_datum_t.record (schema_fields ++ [field_name]) fields)
  | d => (EINVAL, d)

/-- Modelled from the spec: `avro_array_append_datum`, which adds an element at
the end of an array datum and rejects any other datum. -/
def avro_array_append_datum (datum : avro_datum_t) (x : avro_datum_t) : Int × avro_datum_t :=
  match datum with
  | avro_datum_t.array items => (0, avro_datum_t.array (items ++ [x]))
  | d => (EINVAL, d)

/-- Binding `name` to `value` in an ordered mapping: a name already present
keeps its place and gets the new value, a new name goes to the end. -/
def record_put : List (String × avro_datum_t) → String → avro_datum_t →
    List (String × avro_datum_t)
  | [], name, value => [(name, value)]
  | (k, v) :: rest, name, value =>
    if k = name then (k, value) :: rest else (k, v) :: record_put rest name value

/-- Modelled from the spec: `avro_record_set`, which binds a field name to a
datum in a record datum (an ordered mapping from names to datums) and rejects
any other datum. -/
def avro_record_set (datum : avro_datum_t) (field_name : String) (value : avro_datum_t) :
    Int × avro_datum_t :=
  match datum with
  | avro_datum_t.record schema_fields fields =>
    (0, avro_datum_t.record schema_fields (record_put fields field_name value))
  | d => (EINVAL, d)

/-- Modelled from the spec: `avro_record_get`, the datum bound to a field name. -/
def avro_record_get (datum : avro_datum_t) (field_name : String) : Option avro_datum_t :=
  match datum with
  | avro_datum_t.record _ fields => (fields.find? (fun kv => kv.1 = field_name)).map Prod.snd
  | _ => none

/-- Modelled from the spec: `avro_schema_union_branch`, the branch a
discriminant selects, and no branch when it lies outside
`[0, branches.length)`. -/
def avro_schema_union_branch (branches : List avro_schema_t) (index : Int) :
    Option avro_schema_t :=
  if index < 0 then none else branches[index.toNat]?

/-! ## The traversal -/

/-- The statement `if (cond && mapped_datum) { ... }` that `skip_array` contains
twice: it appends `avro_int64(avro_reader_file_ftell(reader))` to the mapped
array.  The outcome is the status of the append and the mapped datum. -/
def append_position (cond : Bool) (reader : avro_reader_t)
    (mapped_datum : Option avro_datum_t) : Int × Option avro_datum_t :=
  match mapped_datum with
  | some datum =>
    if cond then
      match avro_array_append_datum datum (avro_int64 (avro_reader_file_ftell reader)) with
      | (rval, datum1) => (rval, some datum1)
    else (0, some datum)
  | none => (0, none)

/-- The statement `if (block_count < 0) { block_count = block_count * -1;
read_long(&block_size) }` at the head of a block, in `skip_array` and in
`skip_map`.  The outcome is the status, the item count and the reader; the
block size that was read is dropped. -/
def read_block_size (enc : avro_encoding_t) (block_count : Int) (reader : avro_reader_t) :
    Int × Int × avro_reader_t :=
  if block_count < 0 then
    match enc.read_long reader with
    | (rval, _block_size, reader1) => (rval, wrap64 (block_count * -1), reader1)
  else (0, block_count, reader)

/-- The `for` loop of `skip_array`: `n` iterations are left and `i` is the loop
variable; `chunk_size` is `DEFAULT_CHUNK_SIZE`.  `skip_data` stands for
`avro_skip_data` at the caller's depth. -/
def skip_array_items (skip_data : avro_schema_t → avro_reader_t → Option (Int × avro_reader_t))
    (items : avro_schema_t) :
    (n : Nat) → (i : Int) → avro_reader_t → Option avro_datum_t →
    Option (Int × avro_reader_t × Option avro_datum_t)
  | 0, _, reader, mapped_datum => some (0, reader, mapped_datum)
  | n + 1, i, reader, mapped_datum =>
    match append_position (decide (i.tmod DEFAULT_CHUNK_SIZE = 0)) reader mapped_datum with
    | (rval0, mapped1) =>
      if rval0 ≠ 0 then some (rval0, reader, mapped1)
      else
        match skip_data items reader with
        | none => none
        | some (rval, reader1) =>
          if rval ≠ 0 then some (rval, reader1, mapped1)
          else skip_array_items skip_data items n (i + 1) reader1 mapped1

/-- The `while (block_count != 0)` loop of `skip_array`, entered with the block
count just read. -/
def skip_array_blocks (enc : avro_encoding_t)
    (skip_data : avro_schema_t → avro_reader_t → Option (Int × avro_reader_t))
    (items : avro_schema_t) :
    (fuel : Nat) → (block_count : Int) → avro_reader_t → Option avro_datum_t →
    Option (Int × avro_reader_t × Option avro_datum_t)
  | 0, block_count, reader, mapped_datum =>
    if block_count = 0 then some (0, reader, mapped_datum) else none
  | fuel + 1, block_count, reader, mapped_datum =>
    if block_count = 0 then some (0, reader, mapped_datum)
    else
      match read_block_size enc block_count reader with
      | (rval0, count, reader1) =>
        if rval0 ≠ 0 then some (rval0, reader1, mapped_datum)
        else
          match skip_array_items skip_data items count.toNat 0 reader1 mapped_datum with
          | none => none
          | some (rval, reader2, mapped2) =>
            if rval ≠ 0 then some (rval, reader2, mapped2)
            else
              match append_position (decide (count.tmod DEFAULT_CHUNK_SIZE ≠ 0)) reader2
                  mapped2 with
              | (rval1, mapped3) =>
                if rval1 ≠ 0 then some (rval1, reader2, mapped3)
                else
                  match enc.read_long reader2 with
                  | (rval3, next_count, reader3) =>
                    if rval3 ≠ 0 then some (rval3, reader3, mapped3)
                    else skip_array_blocks enc skip_data items fuel next_count reader3 mapped3

def skip_array (enc : avro_encoding_t)
    (skip_data : avro_schema_t → avro_reader_t → Option (Int × avro_reader_t))
    (fuel : Nat) (items : avro_schema_t) (reader : avro_reader_t)
    (mapped_datum : Option avro_datum_t) :
    Option (Int × avro_reader_t × Option avro_datum_t) :=
  match enc.read_long reader with
  | (rval, block_count, reader1) =>
    if rval ≠ 0 then some (rval, reader1, mapped_datum)
    else skip_array_blocks enc skip_data items fuel block_count reader1 mapped_datum

/-- The `for` loop of `skip_map`: a string key, then a value, `n` times. -/
def skip_map_items (enc : avro_encoding_t)
    (skip_data : avro_schema_t → avro_reader_t → Option (Int × avro_reader_t))
    (values : avro_schema_t) : (n : Nat) → avro_reader_t → Option (Int × avro_reader_t)
  | 0, reader => some (0, reader)
  | n + 1, reader =>
    match enc.skip_string reader with
    | (rval, reader1) =>
      if rval ≠ 0 then some (rval, reader1)
      else
        match skip_data values reader1 with
        | none => none
        | some (rval2, reader2) =>
          if rval2 ≠ 0 then some (rval2, reader2)
          else skip_map_items enc skip_data values n reader2

/-- The `while (block_count != 0)` loop of `skip_map`. -/
def skip_map_blocks (enc : avro_encoding_t)
    (skip_data : avro_schema_t → avro_reader_t → Option (Int × avro_reader_t))
    (values : avro_schema_t) :
    (fuel : Nat) → (block_count : Int) → avro_reader_t → Option (Int × avro_reader_t)
  | 0, block_count, reader =>
    if block_count = 0 then some (0, reader) else none
  | fuel + 1, block_count, reader =>
    if block_count = 0 then some (0, reader)
    else
      match read_block_size enc block_count reader with
      | (rval0, count, reader1) =>
        if rval0 ≠ 0 then some (rval0, reader1)
        else
          match skip_map_items enc skip_data values count.toNat reader1 with
          | none => none
          | some (rval, reader2) =>
            if rval ≠ 0 then some (rval, reader2)
            else
              match enc.read_long reader2 with
              | (rval3, next_count, reader3) =>
                if rval3 ≠ 0 then some (rval3, reader3)
                else skip_map_blocks enc skip_data values fuel next_count reader3

def skip_map (enc : avro_encoding_t)
    (skip_data : avro_schema_t → avro_reader_t → Option (Int × avro_reader_t))
    (fuel : Nat) (values : avro_schema_t) (reader : avro_reader_t) :
    Option (Int × avro_reader_t) :=
  match enc.read_long reader with
  | (rval, block_count, reader1) =>
    if rval ≠ 0 then some (rval, reader1)
    else skip_map_blocks enc skip_data values fuel block_count reader1

def skip_union (enc : avro_encoding_t)
    (skip_data : avro_schema_t → avro_reader_t → Option (Int × avro_reader_t))
    (branches : List avro_schema_t) (reader : avro_reader_t) : Option (Int × avro_reader_t) :=
  match enc.read_long reader with
  | (rval, index, reader1) =>
    if rval ≠ 0 then some (rval, reader1)
    else
      match avro_schema_union_branch branches index with
      | none => some (EILSEQ, reader1)
      | some branch_schema => skip_data branch_schema reader1

/-- The loop of `skip_record` over the fields still to do.  `map_data` stands
for `avro_map_data` at the caller's depth; it is called with a fresh
`mapped_field_datum = NULL`. -/
def skip_record
    (skip_data : avro_schema_t → avro_reader_t → Option (Int × avro_reader_t))
    (map_data : avro_schema_t → avro_reader_t → Option avro_datum_t →
      Option (Int × avro_reader_t × Option avro_datum_t)) :
    List (String × avro_schema_t) → avro_reader_t → Option avro_datum_t →
    Option (Int × avro_reader_t × Option avro_datum_t)
  | [], reader, mapped_datum => some (0, reader, mapped_datum)
  | (field_name, field_schema) :: fields, reader, mapped_datum =>
    match mapped_datum with
    | some datum =>
      match map_data field_schema reader none with
      | none => none
      | some (rval, reader1, mapped_field_datum) =>
        if rval ≠ 0 then some (rval, reader1, some datum)
        else
          match mapped_field_datum with
          | some field_datum =>
            match avro_schema_record_field_append datum field_name with
            | (rval1, datum1) =>
              if rval1 ≠ 0 then some (rval1, reader1, some datum1)
              else
                match avro_record_set datum1 field_name field_datum with
                | (rval2, datum2) =>
                  if rval2 ≠ 0 then some (rval2, reader1, some datum2)
                  else skip_record skip_data map_data fields reader1 (some datum2)
          | none => skip_record skip_data map_data fields reader1 (some datum)
    | none =>
      match skip_data field_schema reader with
      | none => none
      | some (rval, reader1) =>
        if rval ≠ 0 then some (rval, reader1, none)
        else skip_record skip_data map_data fields reader1 none

/-- Forgetting the datum of a helper's outcome. -/
def drop_datum (res : Option (Int × avro_reader_t × Option avro_datum_t)) :
    Option (Int × avro_reader_t) :=
  res.map (fun x => (x.1, x.2.1))

mutual

/-- The function `avro_map_data(reader, writers_schema, mapped_datum)`.  The last
argument is what `*mapped_datum` holds on entry; the outcome is the status, the
reader and what `*mapped_datum` holds on return. -/
def avro_map_data (env : Nat → avro_schema_t) :
    Nat → avro_schema_t → avro_reader_t → Option avro_datum_t →
    Option (Int × avro_reader_t × Option avro_datum_t)
  | 0, _, _, _ => none
  | fuel + 1, writers_schema, reader, mapped_datum =>
    match writers_schema with
    | avro_schema_t.array items =>
      skip_array avro_binary_encoding (avro_skip_data env fuel) fuel items reader
        (some avro_array)
    | avro_schema_t.record fields =>
      match avro_schema_record_field_append avro_record "__offset" with
      | (rval0, datum0) =>
        if rval0 ≠ 0 then some (rval0, reader, some datum0)
        else
          match avro_record_set datum0 "__offset"
              (avro_int64 (avro_reader_file_ftell reader)) with
          | (rval, datum) =>
            if rval ≠ 0 then some (rval, reader, some datum)
            else skip_record (avro_skip_data env fuel) (avro_map_data env fuel) fields reader
              (some datum)
    | s =>
      match avro_skip_data env fuel s reader with
      | none => none
      | some (rval, reader1) => some (rval, reader1, mapped_datum)

/-- The function `avro_skip_data(reader, writers_schema)`. -/
def avro_skip_data (env : Nat → avro_schema_t) :
    Nat → avro_schema_t → avro_reader_t → Option (Int × avro_reader_t)
  | 0, _, _ => none
  | fuel + 1, writers_schema, reader =>
    match writers_schema with
    | avro_schema_t.null => some (avro_binary_encoding.skip_null reader)
    | avro_schema_t.boolean => some (avro_binary_encoding.skip_boolean reader)
    | avro_schema_t.string => some (avro_binary_encoding.skip_string reader)
    | avro_schema_t.int32 => some (avro_binary_encoding.skip_int reader)
    | avro_schema_t.int64 => some (avro_binary_encoding.skip_long reader)
    | avro_schema_t.float => some (avro_binary_encoding.skip_float reader)
    | avro_schema_t.double => some (avro_binary_encoding.skip_double reader)
    | avro_schema_t.bytes => some (avro_binary_encoding.skip_bytes reader)
    | avro_schema_t.fixed size => some (avro_skip reader size)
    | avro_schema_t.enum _ => some (avro_binary_encoding.skip_long reader)
    | avro_schema_t.array items =>
      drop_datum (skip_array avro_binary_encoding (avro_skip_data env fuel) fuel items reader none)
    | avro_schema_t.map values =>
      skip_map avro_binary_encoding (avro_skip_data env fuel) fuel values reader
    | avro_schema_t.union branches =>
      skip_union avro_binary_encoding (avro_skip_data env fuel) branches reader
    | avro_schema_t.record fields =>
      drop_datum (skip_record (avro_skip_data env fuel) (avro_map_data env fuel) fields reader none)
    | avro_schema_t.link target => avro_skip_data env fuel (env target) reader

end

/-! ## Values and their binary encodings

The encoding relation follows the binary format the traversal reads: what a
writer may emit for a value of a schema, with arrays and maps split into blocks
in any way. -/

/-- The range of an `int64_t`. -/
def in_int64 (v : Int) : Prop := -9223372036854775808 ≤ v ∧ v < 9223372036854775808

instance (v : Int) : Decidable (in_int64 v) := by unfold in_int64; infer_instance

/-- The zigzag encoding `(l << 1) ^ (l >> 63)` of a long. -/
def zigzag_encode (v : Int) : Nat :=
  if 0 ≤ v then (2 * v).toNat else (-2 * v - 1).toNat

/-- The variable-length encoding: seven bits per byte, least significant group
first, the high bit set on every byte but the last; `k` bounds the number of
further bytes. -/
def encode_varint : Nat → Nat → List Nat
  | 0, n => [n]
  | k + 1, n => if n < 128 then [n] else (n % 128 + 128) :: encode_varint k (n / 128)

/-- The binary encoding of a long. -/
def encode_long (v : Int) : List Nat := encode_varint 9 (zigzag_encode v)

/-- The values of the data model. -/
inductive avro_value where
  | null
  | boolean (b : Bool)
  | int (v : Int)
  | long (v : Int)
  | float (raw : List Nat)
  | double (raw : List Nat)
  | string (chars : List Nat)
  | bytes (raw : List Nat)
  | fixed (raw : List Nat)
  | enum (ordinal : Nat)
  | array (items : List avro_value)
  | map (entries : List (List Nat × avro_value))
  | union (branch : Nat) (value : avro_value)
  | record (fields : List avro_value)

/-- One block of an encoded array: its elements, each with the bytes that encode
it, and the byte-size hint when the block is size-prefixed. -/
structure array_block where
  size_hint : Option Int
  elems : List (avro_value × List Nat)

/-- One block of an encoded map: its entries, each a key, a value and the bytes
that encode the value, and the byte-size hint when the block is size-prefixed. -/
structure map_block where
  size_hint : Option Int
  entries : List (List Nat × avro_value × List Nat)

/-- The framing in front of a block of `n` items: the count, or the negated
count followed by the byte-size hint. -/
def block_header (size_hint : Option Int) (n : Nat) : List Nat :=
  match size_hint with
  | none => encode_long (n : Int)
  | some h => encode_long (-(n : Int)) ++ encode_long h

/-- The bytes of the elements of an array block, one after the other. -/
def array_block_body (b : array_block) : List Nat :=
  (b.elems.map Prod.snd).flatten

/-- The bytes of one map entry: the key as a string, then the value. -/
def encode_map_entry (x : List Nat × avro_value × List Nat) : List Nat :=
  encode_long (x.1.length : Int) ++ x.1 ++ x.2.2

/-- The bytes of the entries of a map block, one after the other. -/
def map_block_body (b : map_block) : List Nat :=
  (b.entries.map encode_map_entry).flatten

/-- The blocks of an array one after the other, closed by a zero count. -/
def encode_array_blocks : List array_block → List Nat
  | [] => encode_long 0
  | b :: bs => block_header b.size_hint b.elems.length ++ array_block_body b ++
      encode_array_blocks bs

/-- The blocks of a map one after the other, closed by a zero count. -/
def encode_map_blocks : List map_block → List Nat
  | [] => encode_long 0
  | b :: bs => block_header b.size_hint b.entries.length ++ map_block_body b ++
      encode_map_blocks bs

/-- A block holds at least one item, its count fits a positive long, and its
size hint, if any, is a long.  The hint is not required to be the true byte
size, so what holds of these encodings holds in particular of those whose hints
are accurate. -/
def block_ok (size_hint : Option Int) (n : Nat) : Prop :=
  1 ≤ n ∧ n < 9223372036854775808 ∧ ∀ h, size_hint = some h → in_int64 h

/-- The relation `Encodes env s v bytes`: `bytes` is a binary encoding of the
value `v` of schema `s`. -/
inductive Encodes (env : Nat → avro_schema_t) : avro_schema_t → avro_value → List Nat → Prop
  | null : Encodes env avro_schema_t.null avro_value.null []
  | boolean (b : Bool) :
      Encodes env avro_schema_t.boolean (avro_value.boolean b) [if b then 1 else 0]
  | int32 (v : Int) : -2147483648 ≤ v → v < 2147483648 →
      Encodes env avro_schema_t.int32 (avro_value.int v) (encode_long v)
  | int64 (v : Int) : in_int64 v →
      Encodes env avro_schema_t.int64 (avro_value.long v) (encode_long v)
  | float (raw : List Nat) : raw.length = 4 →
      Encodes env avro_schema_t.float (avro_value.float raw) raw
  | double (raw : List Nat) : raw.length = 8 →
      Encodes env avro_schema_t.double (avro_value.double raw) raw
  | string (chars : List Nat) : chars.length < 9223372036854775808 →
      Encodes env avro_schema_t.string (avro_value.string chars)
        (encode_long (chars.length : Int) ++ chars)
  | bytes (raw : List Nat) : raw.length < 9223372036854775808 →
      Encodes env avro_schema_t.bytes (avro_value.bytes raw)
        (encode_long (raw.length : Int) ++ raw)
  | fixed (size : Nat) (raw : List Nat) : raw.length = size →
      Encodes env (avro_schema_t.fixed size) (avro_value.fixed raw) raw
  | enum (symbols : List String) (ordinal : Nat) :
      ordinal < symbols.length → ordinal < 2147483648 →
      Encodes env (avro_schema_t.enum symbols) (avro_value.enum ordinal)
        (encode_long (ordinal : Int))
  | array (items : avro_schema_t) (blocks : List array_block) :
      (∀ b ∈ blocks, block_ok b.size_hint b.elems.length) →
      (∀ b ∈ blocks, ∀ x ∈ b.elems, Encodes env items x.1 x.2) →
      Encodes env (avro_schema_t.array items)
        (avro_value.array (blocks.flatMap (fun b => b.elems.map Prod.fst)))
        (encode_array_blocks blocks)
  | map (values : avro_schema_t) (blocks : List map_block) :
      (∀ b ∈ blocks, block_ok b.size_hint b.entries.length) →
      (∀ b ∈ blocks, ∀ x ∈ b.entries, x.1.length < 9223372036854775808) →
      (∀ b ∈ blocks, ∀ x ∈ b.entries, Encodes env values x.2.1 x.2.2) →
      Encodes env (avro_schema_t.map values)
        (avro_value.map (blocks.flatMap (fun b => b.entries.map (fun x => (x.1, x.2.1)))))
        (encode_map_blocks blocks)
  | union (branches : List avro_schema_t) (index : Nat) (branch : avro_schema_t)
      (v : avro_value) (bytes : List Nat) :
      branches[index]? = some branch → index < 9223372036854775808 →
      Encodes env branch v bytes →
      Encodes env (avro_schema_t.union branches) (avro_value.union index v)
        (encode_long (index : Int) ++ bytes)
  | record (parts : List ((String × avro_schema_t) × avro_value × List Nat)) :
      (∀ x ∈ parts, Encodes env x.1.2 x.2.1 x.2.2) →
      Encodes env (avro_schema_t.record (parts.map (fun x => x.1)))
        (avro_value.record (parts.map (fun x => x.2.1)))
        (parts.map (fun x => x.2.2)).flatten
  | link (target : Nat) (v : avro_value) (bytes : List Nat) :
      Encodes env (env target) v bytes →
      Encodes env (avro_schema_t.link target) v bytes

/-! ## The offsets an array contributes, stated on the encoding -/

/-- Whether `mapped_datum` is `NULL` or points to an array datum, the two ways
`skip_array` is called. -/
def null_or_array : Option avro_datum_t → Prop
  | none => True
  | some (avro_datum_t.array _) => True
  | some _ => False

/-- The datum `avro_int64(avro_reader_file_ftell(reader))` records at position `m`. -/
def offset_datum (m : Nat) : avro_datum_t := avro_int64 (Int.ofNat m)

/-- Appending stream positions to the array datum `mapped_datum` points to. -/
def append_offsets (marks : List Nat) : Option avro_datum_t → Option avro_datum_t
  | some (avro_datum_t.array items) =>
    some (avro_datum_t.array (items ++ marks.map offset_datum))
  | md => md

/-- The positions in front of the elements whose index is a multiple of
`chunk`, for elements of byte lengths `lens` laid out from position `p`, the
first of them having index `i`. -/
def item_marks (chunk : Nat) : Nat → Nat → List Nat → List Nat
  | _, _, [] => []
  | i, p, len :: lens =>
    (if i % chunk = 0 then [p] else []) ++ item_marks chunk (i + 1) (p + len) lens

/-- The offsets one block contributes when its first element starts at `start`
and its elements have byte lengths `lens`: the position in front of every
element whose index in the block is a multiple of 512, in order, and then, if
the number of elements is not a multiple of 512, the position after the last
element. -/
def block_offsets (start : Nat) (lens : List Nat) : List Nat :=
  ((List.range lens.length).filter (fun k => k % 512 = 0)).map
      (fun k => start + (lens.take k).sum) ++
    (if lens.length % 512 = 0 then [] else [start + lens.sum])

/-- The byte lengths of the elements of a block. -/
def array_block_lens (b : array_block) : List Nat :=
  b.elems.map (fun x => x.2.length)

/-- The offsets the blocks of an array contribute when the count of the first
block starts at position `p`: those of each block, in block order. -/
def blocks_offsets : Nat → List array_block → List Nat
  | _, [] => []
  | p, b :: bs =>
    block_offsets (p + (block_header b.size_hint b.elems.length).length) (array_block_lens b) ++
      blocks_offsets
        (p + (block_header b.size_hint b.elems.length).length + (array_block_body b).length) bs

/-- What both traversals do on an encoding `E`, from fuel `fuel` on: they succeed
and leave the reader right after `E`. -/
def consumes (env : Nat → avro_schema_t) (s : avro_schema_t) (E : List Nat) (fuel : Nat) :
    Prop :=
  ∀ (p : Nat) (R : List Nat),
    avro_skip_data env fuel s ⟨p, E ++ R⟩ = some (0, ⟨p + E.length, R⟩) ∧
    ∀ md0, ∃ md, avro_map_data env fuel s ⟨p, E ++ R⟩ md0 = some (0, ⟨p + E.length, R⟩, md)

/-! ## Moving a reader along the stream -/

/-- The same remaining bytes, `d` positions further along. -/
def shift_reader (d : Nat) (reader : avro_reader_t) : avro_reader_t :=
  ⟨reader.pos + d, reader.rest⟩

/-- A recorded position moved by `d`. -/
def shift_datum (d : Nat) : avro_datum_t → avro_datum_t
  | avro_datum_t.int64 v => avro_datum_t.int64 (v + Int.ofNat d)
  | x => x

/-- The mapped array with its entries from index `k` on moved by `d`. -/
def shift_offsets_from (d k : Nat) : Option avro_datum_t → Option avro_datum_t
  | some (avro_datum_t.array items) =>
    some (avro_datum_t.array (items.take k ++ (items.drop k).map (shift_datum d)))
  | md => md

/-- The mapped datum is `NULL`, or an array with at least `k` entries. -/
def offsets_from_ok (k : Nat) : Option avro_datum_t → Prop
  | none => True
  | some (avro_datum_t.array items) => k ≤ items.length
  | some _ => False

/-- A traversal step commutes with moving the reader by `d`. -/
def shift_invariant (d : Nat)
    (skip_data : avro_schema_t → avro_reader_t → Option (Int × avro_reader_t)) : Prop :=
  ∀ (s : avro_schema_t) (reader : avro_reader_t),
    skip_data s (shift_reader d reader) =
      (skip_data s reader).map (fun x => (x.1, shift_reader d x.2))

/-! ## The entries of a record index -/

/-- The relation `field_entries map_data fields reader entries reader1`: mapping
the fields `fields` one after the other from `reader` succeeds and ends at
`reader1`, and `entries` lists, in field order, the name and the datum of every
field for which `map_data` handed back a datum. -/
inductive field_entries
    (map_data : avro_schema_t → avro_reader_t → Option avro_datum_t →
      Option (Int × avro_reader_t × Option avro_datum_t)) :
    List (String × avro_schema_t) → avro_reader_t → List (String × avro_datum_t) →
    avro_reader_t → Prop
  | done (reader : avro_reader_t) : field_entries map_data [] reader [] reader
  | indexed (field_name : String) (field_schema : avro_schema_t)
      (fields : List (String × avro_schema_t)) (reader reader1 reader2 : avro_reader_t)
      (node : avro_datum_t) (entries : List (String × avro_datum_t)) :
      map_data field_schema reader none = some (0, reader1, some node) →
      field_entries map_data fields reader1 entries reader2 →
      field_entries map_data ((field_name, field_schema) :: fields) reader
        ((field_name, node) :: entries) reader2
  | plain (field_name : String) (field_schema : avro_schema_t)
      (fields : List (String × avro_schema_t)) (reader reader1 reader2 : avro_reader_t)
      (entries : List (String × avro_datum_t)) :
      map_data field_schema reader none = some (0, reader1, none) →
      field_entries map_data fields reader1 entries reader2 →
      field_entries map_data ((field_name, field_schema) :: fields) reader entries reader2

/-! ## Readers further along the same stream -/

/-- The reader `reader1` is `reader` after some of its remaining bytes have been
consumed. -/
def advanced (reader reader1 : avro_reader_t) : Prop :=
  ∃ k, k ≤ reader.rest.length ∧ reader1 = ⟨reader.pos + k, reader.rest.drop k⟩

/-- The mapped datum is an array of stream positions that do not decrease, all
of them between `start` and the position of `reader`. -/
def offsets_ordered (start : Nat) (reader : avro_reader_t) (md : Option avro_datum_t) : Prop :=
  start ≤ reader.pos ∧
    ∃ ms : List Nat, md = some (avro_datum_t.array (ms.map offset_datum)) ∧
      ms.Pairwise (fun a b => a ≤ b) ∧ ∀ m ∈ ms, start ≤ m ∧ m ≤ reader.pos

/-! ## The block loops as the spec words them -/

/-- The spec's wording of a block loop, "it skips `items` per element": `n`
skips one after the other, the first failure ending the loop.  It is compared
with the `for` loops of `skip_array` and `skip_map`. -/
def spec_skips (step : avro_reader_t → Option (Int × avro_reader_t)) :
    Nat → avro_reader_t → Option (Int × avro_reader_t)
  | 0, reader => some (0, reader)
  | n + 1, reader =>
    match step reader with
    | none => none
    | some (rval, reader1) =>
      if rval ≠ 0 then some (rval, reader1) else spec_skips step n reader1

/-- The spec's wording of one map entry, "it skips a string key then `values`
per entry". -/
def spec_entry_skip (enc : avro_encoding_t)
    (skip_data : avro_schema_t → avro_reader_t → Option (Int × avro_reader_t))
    (values : avro_schema_t) (reader : avro_reader_t) : Option (Int × avro_reader_t) :=
  match enc.skip_string reader with
  | (rval, reader1) => if rval ≠ 0 then some (rval, reader1) else skip_data values reader1

/-! ## Truncated streams -/

/-- The bytes `P` are `E` cut short: a strict prefix of `E`. -/
def truncated (E P : List Nat) : Prop := ∃ T, T ≠ [] ∧ E = P ++ T

/-- Both traversals fail on a reader that holds exactly `P`: with fuel `fuel`
they return a status other than 0. -/
def rejects (env : Nat → avro_schema_t) (s : avro_schema_t) (P : List Nat) (fuel : Nat) :
    Prop :=
  ∀ (p : Nat),
    (∃ rval reader1, avro_skip_data env fuel s ⟨p, P⟩ = some (rval, reader1) ∧ rval ≠ 0) ∧
    ∀ md0, ∃ rval reader1 md,
      avro_map_data env fuel s ⟨p, P⟩ md0 = some (rval, reader1, md) ∧ rval ≠ 0

/-! ## Guarded recursion -/

/-- The relation `resolves_unguarded env s`: the traversal of `s` reaches, before
it reads anything for an array, a map or a union, only finitely many schemas.
Arrays, maps and unions read a long first, so they end the chain; a record
passes to its fields and a link to its target without reading. -/
inductive resolves_unguarded (env : Nat → avro_schema_t) : avro_schema_t → Prop
  | null : resolves_unguarded env avro_schema_t.null
  | boolean : resolves_unguarded env avro_schema_t.boolean
  | string : resolves_unguarded env avro_schema_t.string
  | int32 : resolves_unguarded env avro_schema_t.int32
  | int64 : resolves_unguarded env avro_schema_t.int64
  | float : resolves_unguarded env avro_schema_t.float
  | double : resolves_unguarded env avro_schema_t.double
  | bytes : resolves_unguarded env avro_schema_t.bytes
  | fixed (size : Nat) : resolves_unguarded env (avro_schema_t.fixed size)
  | enum (symbols : List String) : resolves_unguarded env (avro_schema_t.enum symbols)
  | array (items : avro_schema_t) : resolves_unguarded env (avro_schema_t.array items)
  | map (values : avro_schema_t) : resolves_unguarded env (avro_schema_t.map values)
  | union (branches : List avro_schema_t) :
      resolves_unguarded env (avro_schema_t.union branches)
  | record (fields : List (String × avro_schema_t)) :
      (∀ f ∈ fields, resolves_unguarded env f.2) →
      resolves_unguarded env (avro_schema_t.record fields)
  | link (target : Nat) : resolves_unguarded env (env target) →
      resolves_unguarded env (avro_schema_t.link target)

/-- The relation `reachable env s x`: the traversal of `s` can come to `x`, through
array items, map values, union branches, record fields and link targets. -/
inductive reachable (env : Nat → avro_schema_t) (s : avro_schema_t) : avro_schema_t → Prop
  | start : reachable env s s
  | items (x : avro_schema_t) : reachable env s (avro_schema_t.array x) → reachable env s x
  | values (x : avro_schema_t) : reachable env s (avro_schema_t.map x) → reachable env s x
  | branch (branches : List avro_schema_t) (x : avro_schema_t) :
      reachable env s (avro_schema_t.union branches) → x ∈ branches → reachable env s x
  | field (fields : List (String × avro_schema_t)) (f : String × avro_schema_t) :
      reachable env s (avro_schema_t.record fields) → f ∈ fields → reachable env s f.2
  | target (t : Nat) : reachable env s (avro_schema_t.link t) → reachable env s (env t)

/-- Every cycle through a link that the traversal of `s` can run into passes
through an array, a map or a union: every schema reachable from `s` resolves. -/
def guarded (env : Nat → avro_schema_t) (s : avro_schema_t) : Prop :=
  ∀ x, reachable env s x → resolves_unguarded env x

/-- The target of every link resolves: a condition on the links alone under
which every schema is guarded. -/
def links_resolve (env : Nat → avro_schema_t) : Prop :=
  ∀ target, resolves_unguarded env (env target)

/-! ## The decoder primitives on encoded input -/

theorem read_varint_encode (k : Nat) : ∀ (left offset acc n p : Nat) (R : List Nat),
    n < 128 ^ (k + 1) → k < left →
    read_varint left offset acc ⟨p, encode_varint k n ++ R⟩ =
      (0, acc + n * 128 ^ offset, ⟨p + (encode_varint k n).length, R⟩) := by
  induction k with
  | zero =>
    intro left offset acc n p R hn hl
    obtain ⟨left, rfl⟩ : ∃ m, left = m + 1 := ⟨left - 1, by omega⟩
    have h1 : n / 128 % 2 ≠ 1 := by omega
    have h2 : n % 128 = n := by omega
    simp [read_varint, encode_varint, h1, h2]
  | succ k ih =>
    intro left offset acc n p R hn hl
    obtain ⟨left, rfl⟩ : ∃ m, left = m + 1 := ⟨left - 1, by omega⟩
    by_cases hlt : n < 128
    · have h1 : n / 128 % 2 ≠ 1 := by omega
      have h2 : n % 128 = n := by omega
      simp [read_varint, encode_varint, hlt, h1, h2]
    · have h1 : (n % 128 + 128) / 128 % 2 = 1 := by omega
      have h2 : (n % 128 + 128) % 128 = n % 128 := by omega
      have h3 : n / 128 < 128 ^ (k + 1) := by
        rw [Nat.div_lt_iff_lt_mul (by norm_num)]
        calc n < 128 ^ (k + 1 + 1) := hn
          _ = 128 ^ (k + 1) * 128 := by rw [pow_succ]
      have h4 : n % 128 * 128 ^ offset + n / 128 * 128 ^ (offset + 1) = n * 128 ^ offset := by
        have := Nat.div_add_mod n 128
        calc n % 128 * 128 ^ offset + n / 128 * 128 ^ (offset + 1)
            = (128 * (n / 128) + n % 128) * 128 ^ offset := by ring
          _ = n * 128 ^ offset := by rw [this]
      simp only [read_varint, encode_varint, hlt, if_false, List.cons_append, h1, h2, if_true,
        List.length_cons]
      rw [ih left (offset + 1) _ (n / 128) (p + 1) R h3 (by omega)]
      simp only [Prod.mk.injEq, avro_reader_t.mk.injEq, and_true, true_and]
      constructor
      · omega
      · omega

theorem zigzag_encode_lt (v : Int) (hv : in_int64 v) :
    zigzag_encode v < 18446744073709551616 := by
  unfold in_int64 at hv
  unfold zigzag_encode
  split <;> omega

theorem zigzag_decode_encode (v : Int) (hv : in_int64 v) :
    zigzag_decode (zigzag_encode v) = v := by
  unfold in_int64 at hv
  unfold zigzag_decode zigzag_encode
  simp only
  split <;> split <;> omega

theorem read_long_encode (v : Int) (hv : in_int64 v) (p : Nat) (R : List Nat) :
    read_long ⟨p, encode_long v ++ R⟩ = (0, v, ⟨p + (encode_long v).length, R⟩) := by
  have hlt := zigzag_encode_lt v hv
  have h := read_varint_encode 9 10 0 0 (zigzag_encode v) p R
    (lt_of_lt_of_le hlt (by norm_num)) (by norm_num)
  unfold read_long encode_long
  rw [h]
  simp [zigzag_decode_encode v hv]

theorem skip_long_encode (v : Int) (hv : in_int64 v) (p : Nat) (R : List Nat) :
    skip_long ⟨p, encode_long v ++ R⟩ = (0, ⟨p + (encode_long v).length, R⟩) := by
  have hlt := zigzag_encode_lt v hv
  have h := read_varint_encode 9 10 0 0 (zigzag_encode v) p R
    (lt_of_lt_of_le hlt (by norm_num)) (by norm_num)
  unfold skip_long encode_long
  rw [h]

theorem avro_skip_append (raw : List Nat) (p : Nat) (R : List Nat) :
    avro_skip ⟨p, raw ++ R⟩ raw.length = (0, ⟨p + raw.length, R⟩) := by
  simp [avro_skip]

theorem skip_bytes_encode (s : List Nat) (hs : s.length < 9223372036854775808) (p : Nat)
    (R : List Nat) :
    skip_bytes ⟨p, encode_long s.length ++ s ++ R⟩ =
      (0, ⟨p + (encode_long s.length ++ s).length, R⟩) := by
  have hv : in_int64 (s.length : Int) := by unfold in_int64; omega
  unfold skip_bytes
  rw [List.append_assoc, read_long_encode _ hv]
  simp only [ne_eq, not_true_eq_false, if_false]
  have h0 : ¬ ((s.length : Int) < 0) := by omega
  simp only [h0, if_false, Int.toNat_ofNat]
  rw [avro_skip_append]
  simp [Nat.add_assoc]

/-! ## The loops of `skip_array` on encoded input -/

theorem tmod_chunk (i : Nat) : ((i : Int).tmod DEFAULT_CHUNK_SIZE = 0) ↔ i % 512 = 0 := by
  unfold DEFAULT_CHUNK_SIZE
  rw [Int.tmod_eq_emod (by omega) (by norm_num)]
  omega

theorem append_offsets_nil (md : Option avro_datum_t) : append_offsets [] md = md := by
  match md with
  | none => rfl
  | some (avro_datum_t.array l) => simp [append_offsets]
  | some (avro_datum_t.int64 _) => rfl
  | some (avro_datum_t.record _ _) => rfl

theorem append_offsets_append (a b : List Nat) (md : Option avro_datum_t) :
    append_offsets b (append_offsets a md) = append_offsets (a ++ b) md := by
  match md with
  | none => rfl
  | some (avro_datum_t.array l) => simp [append_offsets]
  | some (avro_datum_t.int64 _) => rfl
  | some (avro_datum_t.record _ _) => rfl

theorem null_or_array_append (a : List Nat) (md : Option avro_datum_t) (h : null_or_array md) :
    null_or_array (append_offsets a md) := by
  match md, h with
  | none, _ => trivial
  | some (avro_datum_t.array l), _ => trivial

theorem append_position_eq (cond : Bool) (reader : avro_reader_t) (md : Option avro_datum_t)
    (hmd : null_or_array md) :
    append_position cond reader md =
      (0, append_offsets (if cond then [reader.pos] else []) md) := by
  match md, hmd with
  | none, _ => rfl
  | some (avro_datum_t.array l), _ =>
    cases cond
    · simp [append_position, append_offsets]
    · simp [append_position, append_offsets, avro_array_append_datum, offset_datum,
        avro_reader_file_ftell]

/-- The `for` loop of `skip_array` over elements that `skip_data` consumes
exactly: it ends after the last of them and records the chunk marks. -/
theorem skip_array_items_encoded
    (skip_data : avro_schema_t → avro_reader_t → Option (Int × avro_reader_t))
    (items : avro_schema_t) (encs : List (List Nat))
    (hskip : ∀ e ∈ encs, ∀ p R, skip_data items ⟨p, e ++ R⟩ = some (0, ⟨p + e.length, R⟩)) :
    ∀ (i p : Nat) (R : List Nat) (md : Option avro_datum_t), null_or_array md →
      skip_array_items skip_data items encs.length (i : Int)
          ⟨p, encs.flatten ++ R⟩ md =
        some (0, ⟨p + encs.flatten.length, R⟩,
          append_offsets (item_marks 512 i p (encs.map List.length)) md) := by
  induction encs with
  | nil =>
    intro i p R md _
    simp [skip_array_items, item_marks, append_offsets_nil]
  | cons e encs ih =>
    intro i p R md hmd
    have he := hskip e (List.mem_cons_self _ _) p (encs.flatten ++ R)
    have ih2 := ih (fun e2 h2 => hskip e2 (List.mem_cons_of_mem _ h2)) (i + 1) (p + e.length) R
    have hcast : ((i : Int) + 1) = ((i + 1 : Nat) : Int) := by push_cast; rfl
    simp only [List.length_cons, List.flatten_cons, List.append_assoc, List.map_cons,
      List.length_append, item_marks]
    unfold skip_array_items
    rw [append_position_eq _ _ _ hmd]
    simp only [ne_eq, not_true_eq_false, if_false, he, hcast]
    rw [ih2 _ (null_or_array_append _ _ hmd), append_offsets_append]
    by_cases hi : i % 512 = 0
    · have hi2 := (tmod_chunk i).mpr hi
      simp [hi, hi2, Nat.add_assoc]
    · have hi2 : ¬ ((i : Int).tmod DEFAULT_CHUNK_SIZE = 0) := fun h => hi ((tmod_chunk i).mp h)
      simp [hi, hi2, Nat.add_assoc]

theorem read_long_binary (reader : avro_reader_t) :
    avro_binary_encoding.read_long reader = read_long reader := rfl

theorem wrap64_neg_neg (n : Nat) (h : n < 9223372036854775808) :
    wrap64 (-(n : Int) * -1) = (n : Int) := by
  unfold wrap64
  omega

theorem item_marks_eq_filter (lens : List Nat) : ∀ (i p : Nat),
    item_marks 512 i p lens =
      ((List.range lens.length).filter (fun k => (i + k) % 512 = 0)).map
        (fun k => p + (lens.take k).sum) := by
  induction lens with
  | nil => intro i p; simp [item_marks]
  | cons len lens ih =>
    intro i p
    have hf : ((fun k => decide ((i + k) % 512 = 0)) ∘ Nat.succ) =
        (fun k => decide ((i + 1 + k) % 512 = 0)) := by
      funext k
      simp only [Function.comp, Nat.succ_eq_add_one]
      congr 2
      omega
    simp only [item_marks, List.length_cons, List.range_succ_eq_map, List.filter_cons,
      Nat.add_zero, List.filter_map, hf]
    rw [ih (i + 1) (p + len)]
    by_cases hi : i % 512 = 0
    · simp [hi, List.map_map, Function.comp, Nat.add_assoc]
    · simp [hi, List.map_map, Function.comp, Nat.add_assoc]

theorem block_offsets_eq (start : Nat) (lens : List Nat) :
    block_offsets start lens =
      item_marks 512 0 start lens ++
        (if lens.length % 512 = 0 then [] else [start + lens.sum]) := by
  unfold block_offsets
  rw [item_marks_eq_filter]
  simp

theorem tmod_chunk_ne (n : Nat) : ((n : Int).tmod DEFAULT_CHUNK_SIZE ≠ 0) ↔ n % 512 ≠ 0 :=
  not_congr (tmod_chunk n)

/-- One round of the `while` loop of `skip_array`, for a block that `skip_data`
consumes element by element: afterwards the loop is where `skip_array` starts. -/
theorem skip_array_blocks_block
    (skip_data : avro_schema_t → avro_reader_t → Option (Int × avro_reader_t))
    (items : avro_schema_t) (b : array_block)
    (hok : block_ok b.size_hint b.elems.length)
    (hskip : ∀ x ∈ b.elems, ∀ p R,
      skip_data items ⟨p, x.2 ++ R⟩ = some (0, ⟨p + x.2.length, R⟩))
    (fuel p : Nat) (R : List Nat) (md : Option avro_datum_t) (hmd : null_or_array md) :
    skip_array avro_binary_encoding skip_data (fuel + 1) items
        ⟨p, block_header b.size_hint b.elems.length ++ array_block_body b ++ R⟩ md =
      skip_array avro_binary_encoding skip_data fuel items
        ⟨p + (block_header b.size_hint b.elems.length).length + (array_block_body b).length, R⟩
        (append_offsets (block_offsets (p + (block_header b.size_hint b.elems.length).length)
          (array_block_lens b)) md) := by
  obtain ⟨h1, h2, h3⟩ := hok
  have hitems := skip_array_items_encoded skip_data items (b.elems.map Prod.snd)
    (by
      intro e he p R
      obtain ⟨x, hx, rfl⟩ := List.mem_map.mp he
      exact hskip x hx p R) 0
  have hlen : (b.elems.map Prod.snd).length = b.elems.length := by simp
  have hlens : (b.elems.map Prod.snd).map List.length = array_block_lens b := by
    simp [array_block_lens, Function.comp]
  have hbody : (b.elems.map Prod.snd).flatten = array_block_body b := rfl
  have hsum : (array_block_lens b).sum = (array_block_body b).length := by
    simp only [array_block_body, array_block_lens, List.length_flatten, List.map_map]
    rfl
  have hlens_len : (array_block_lens b).length = b.elems.length := by simp [array_block_lens]
  rw [hlen, hlens, hbody] at hitems
  have hn_ne : ((b.elems.length : Nat) : Int) ≠ 0 := by omega
  have hnn_ne : -((b.elems.length : Nat) : Int) ≠ 0 := by omega
  have hneg : ¬ ((b.elems.length : Int) < 0) := by omega
  have hneg2 : (-(b.elems.length : Int) < 0) := by omega
  rw [block_offsets_eq, ← append_offsets_append, hlens_len, hsum]
  -- the state after the header, whatever its form
  have key : ∀ (q : Nat),
      skip_array_blocks avro_binary_encoding skip_data items (fuel + 1)
          (match b.size_hint with
            | none => (b.elems.length : Int)
            | some _ => -(b.elems.length : Int))
          ⟨q, (match b.size_hint with
            | none => []
            | some h => encode_long h) ++ array_block_body b ++ R⟩ md =
        skip_array avro_binary_encoding skip_data fuel items
          ⟨q + (match b.size_hint with
            | none => 0
            | some h => (encode_long h).length) + (array_block_body b).length, R⟩
          (append_offsets (if b.elems.length % 512 = 0 then [] else
              [q + (match b.size_hint with
                | none => 0
                | some h => (encode_long h).length) + (array_block_body b).length])
            (append_offsets (item_marks 512 0 (q + (match b.size_hint with
                | none => 0
                | some h => (encode_long h).length)) (array_block_lens b)) md)) := by
    intro q
    have hm : (decide (((b.elems.length : Nat) : Int).tmod DEFAULT_CHUNK_SIZE ≠ 0)) =
        decide (¬ b.elems.length % 512 = 0) := by
      rw [decide_eq_decide]
      exact tmod_chunk_ne _
    have hmd1 := null_or_array_append
      (item_marks 512 0 (q + (match b.size_hint with
        | none => 0
        | some h => (encode_long h).length)) (array_block_lens b)) md hmd
    rw [skip_array_blocks]
    cases hsz : b.size_hint with
    | none =>
      simp only [hn_ne, if_false, read_block_size, hneg, Int.toNat_ofNat, ne_eq,
        not_true_eq_false, List.nil_append, Nat.add_zero]
      have hi := hitems q R md hmd
      simp only [Nat.cast_zero] at hi
      rw [hi]
      simp only [hsz, Nat.add_zero] at hmd1
      simp only [ne_eq, not_true_eq_false, if_false, hm, append_position_eq _ _ _ hmd1]
      by_cases hmm : b.elems.length % 512 = 0 <;> simp [hmm, skip_array]
    | some h =>
      have hh := h3 h hsz
      simp only [hnn_ne, if_false, read_block_size, hneg2, if_true, read_long_binary,
        List.append_assoc, read_long_encode h hh, wrap64_neg_neg _ h2, Int.toNat_ofNat, ne_eq,
        not_true_eq_false]
      have hi := hitems (q + (encode_long h).length) R md hmd
      simp only [Nat.cast_zero] at hi
      rw [hi]
      simp only [hsz] at hmd1
      simp only [ne_eq, not_true_eq_false, if_false, hm, append_position_eq _ _ _ hmd1]
      by_cases hmm : b.elems.length % 512 = 0 <;> simp [hmm, skip_array, read_long_binary]
  cases hsz : b.size_hint with
  | none =>
    have hv : in_int64 (b.elems.length : Int) := by unfold in_int64; omega
    have k := key (p + (encode_long (b.elems.length : Int)).length)
    simp only [hsz, List.nil_append, Nat.add_zero] at k
    conv => lhs; unfold skip_array
    simp only [block_header, List.append_assoc,
      read_long_binary, read_long_encode _ hv, ne_eq, not_true_eq_false, if_false]
    rw [k]
  | some h =>
    have hv : in_int64 (-(b.elems.length : Int)) := by unfold in_int64; omega
    have k := key (p + (encode_long (-(b.elems.length : Int))).length)
    simp only [hsz] at k
    conv => lhs; unfold skip_array
    simp only [block_header, List.append_assoc,
      read_long_binary, read_long_encode _ hv, ne_eq, not_true_eq_false, if_false]
    rw [List.append_assoc] at k
    rw [k]
    simp only [List.length_append, Nat.add_assoc]

/-- The function `skip_array` on the encoded blocks of an array whose elements
`skip_data` consumes exactly: it succeeds, ends after the closing zero count and
has recorded the offsets of every block in turn. -/
theorem skip_array_encoded
    (skip_data : avro_schema_t → avro_reader_t → Option (Int × avro_reader_t))
    (items : avro_schema_t) (blocks : List array_block)
    (hok : ∀ b ∈ blocks, block_ok b.size_hint b.elems.length)
    (hskip : ∀ b ∈ blocks, ∀ x ∈ b.elems, ∀ p R,
      skip_data items ⟨p, x.2 ++ R⟩ = some (0, ⟨p + x.2.length, R⟩)) :
    ∀ (fuel p : Nat) (R : List Nat) (md : Option avro_datum_t),
      blocks.length ≤ fuel → null_or_array md →
      skip_array avro_binary_encoding skip_data fuel items
          ⟨p, encode_array_blocks blocks ++ R⟩ md =
        some (0, ⟨p + (encode_array_blocks blocks).length, R⟩,
          append_offsets (blocks_offsets p blocks) md) := by
  induction blocks with
  | nil =>
    intro fuel p R md _ _
    have h0 : in_int64 0 := by unfold in_int64; omega
    simp only [skip_array, encode_array_blocks, read_long_binary, read_long_encode 0 h0,
      blocks_offsets, append_offsets_nil]
    cases fuel <;> simp [skip_array_blocks]
  | cons b bs ih =>
    intro fuel p R md hfuel hmd
    obtain ⟨fuel, rfl⟩ : ∃ m, fuel = m + 1 := ⟨fuel - 1, by simp at hfuel; omega⟩
    have hb := hok b (List.mem_cons_self _ _)
    have ih2 := ih (fun b2 hb2 => hok b2 (List.mem_cons_of_mem _ hb2))
      (fun b2 hb2 => hskip b2 (List.mem_cons_of_mem _ hb2)) fuel
    have hstep := skip_array_blocks_block skip_data items b hb
      (hskip b (List.mem_cons_self _ _)) fuel p (encode_array_blocks bs ++ R) md hmd
    simp only [encode_array_blocks, List.append_assoc] at hstep ⊢
    rw [hstep, ih2 _ _ _ (by simpa using hfuel) (null_or_array_append _ _ hmd)]
    simp only [blocks_offsets, append_offsets_append, List.length_append, Nat.add_assoc]

/-! ## The loops of `skip_map` and `skip_record` on encoded input -/

theorem skip_string_binary (reader : avro_reader_t) :
    avro_binary_encoding.skip_string reader = skip_bytes reader := rfl

/-- The `for` loop of `skip_map` over entries whose values `skip_data` consumes
exactly: every entry is consumed as a string key followed by a value. -/
theorem skip_map_items_encoded
    (skip_data : avro_schema_t → avro_reader_t → Option (Int × avro_reader_t))
    (values : avro_schema_t) (entries : List (List Nat × avro_value × List Nat))
    (hkeys : ∀ x ∈ entries, x.1.length < 9223372036854775808)
    (hskip : ∀ x ∈ entries, ∀ p R,
      skip_data values ⟨p, x.2.2 ++ R⟩ = some (0, ⟨p + x.2.2.length, R⟩)) :
    ∀ (p : Nat) (R : List Nat),
      skip_map_items avro_binary_encoding skip_data values entries.length
          ⟨p, (entries.map encode_map_entry).flatten ++ R⟩ =
        some (0, ⟨p + (entries.map encode_map_entry).flatten.length, R⟩) := by
  induction entries with
  | nil => intro p R; simp [skip_map_items]
  | cons x xs ih =>
    intro p R
    have hk := hkeys x (List.mem_cons_self _ _)
    have hx := hskip x (List.mem_cons_self _ _)
    have ih2 := ih (fun y hy => hkeys y (List.mem_cons_of_mem _ hy))
      (fun y hy => hskip y (List.mem_cons_of_mem _ hy))
    have hkey := skip_bytes_encode x.1 hk p (x.2.2 ++ ((xs.map encode_map_entry).flatten ++ R))
    simp only [List.length_cons, List.map_cons, List.flatten_cons, encode_map_entry,
      List.append_assoc, skip_map_items, skip_string_binary] at hkey ⊢
    rw [hkey]
    simp only [ne_eq, not_true_eq_false, if_false, hx]
    rw [ih2]
    simp [encode_map_entry, Nat.add_assoc]

/-- One round of the `while` loop of `skip_map`, for a block whose values
`skip_data` consumes exactly. -/
theorem skip_map_blocks_block
    (skip_data : avro_schema_t → avro_reader_t → Option (Int × avro_reader_t))
    (values : avro_schema_t) (b : map_block)
    (hok : block_ok b.size_hint b.entries.length)
    (hkeys : ∀ x ∈ b.entries, x.1.length < 9223372036854775808)
    (hskip : ∀ x ∈ b.entries, ∀ p R,
      skip_data values ⟨p, x.2.2 ++ R⟩ = some (0, ⟨p + x.2.2.length, R⟩))
    (fuel p : Nat) (R : List Nat) :
    skip_map avro_binary_encoding skip_data (fuel + 1) values
        ⟨p, block_header b.size_hint b.entries.length ++ map_block_body b ++ R⟩ =
      skip_map avro_binary_encoding skip_data fuel values
        ⟨p + (block_header b.size_hint b.entries.length).length + (map_block_body b).length,
          R⟩ := by
  obtain ⟨h1, h2, h3⟩ := hok
  have hitems := skip_map_items_encoded skip_data values b.entries hkeys hskip
  have hn_ne : ((b.entries.length : Nat) : Int) ≠ 0 := by omega
  have hnn_ne : -((b.entries.length : Nat) : Int) ≠ 0 := by omega
  have hneg : ¬ ((b.entries.length : Int) < 0) := by omega
  have hneg2 : (-(b.entries.length : Int) < 0) := by omega
  cases hsz : b.size_hint with
  | none =>
    have hv : in_int64 (b.entries.length : Int) := by unfold in_int64; omega
    conv => lhs; unfold skip_map
    simp only [block_header, List.append_assoc, read_long_binary, read_long_encode _ hv,
      ne_eq, not_true_eq_false, if_false]
    rw [skip_map_blocks]
    simp only [hn_ne, if_false, read_block_size, hneg, Int.toNat_ofNat, ne_eq, not_true_eq_false,
      map_block_body]
    rw [hitems]
    simp only [ne_eq, not_true_eq_false, if_false, Nat.add_assoc]
    rfl
  | some h =>
    have hh := h3 h hsz
    have hv : in_int64 (-(b.entries.length : Int)) := by unfold in_int64; omega
    conv => lhs; unfold skip_map
    simp only [block_header, List.append_assoc, read_long_binary, read_long_encode _ hv,
      ne_eq, not_true_eq_false, if_false]
    rw [skip_map_blocks]
    simp only [hnn_ne, if_false, read_block_size, hneg2, if_true, read_long_binary,
      read_long_encode h hh, wrap64_neg_neg _ h2, Int.toNat_ofNat, ne_eq, not_true_eq_false,
      map_block_body]
    rw [hitems]
    simp only [ne_eq, not_true_eq_false, if_false, Nat.add_assoc, List.length_append]
    rfl

/-- The function `skip_map` on the encoded blocks of a map whose values
`skip_data` consumes exactly. -/
theorem skip_map_encoded
    (skip_data : avro_schema_t → avro_reader_t → Option (Int × avro_reader_t))
    (values : avro_schema_t) (blocks : List map_block)
    (hok : ∀ b ∈ blocks, block_ok b.size_hint b.entries.length)
    (hkeys : ∀ b ∈ blocks, ∀ x ∈ b.entries, x.1.length < 9223372036854775808)
    (hskip : ∀ b ∈ blocks, ∀ x ∈ b.entries, ∀ p R,
      skip_data values ⟨p, x.2.2 ++ R⟩ = some (0, ⟨p + x.2.2.length, R⟩)) :
    ∀ (fuel p : Nat) (R : List Nat), blocks.length ≤ fuel →
      skip_map avro_binary_encoding skip_data fuel values
          ⟨p, encode_map_blocks blocks ++ R⟩ =
        some (0, ⟨p + (encode_map_blocks blocks).length, R⟩) := by
  induction blocks with
  | nil =>
    intro fuel p R _
    have h0 : in_int64 0 := by unfold in_int64; omega
    simp only [skip_map, encode_map_blocks, read_long_binary, read_long_encode 0 h0]
    cases fuel <;> simp [skip_map_blocks]
  | cons b bs ih =>
    intro fuel p R hfuel
    obtain ⟨fuel, rfl⟩ : ∃ m, fuel = m + 1 := ⟨fuel - 1, by simp at hfuel; omega⟩
    have ih2 := ih (fun b2 hb2 => hok b2 (List.mem_cons_of_mem _ hb2))
      (fun b2 hb2 => hkeys b2 (List.mem_cons_of_mem _ hb2))
      (fun b2 hb2 => hskip b2 (List.mem_cons_of_mem _ hb2)) fuel
    have hstep := skip_map_blocks_block skip_data values b (hok b (List.mem_cons_self _ _))
      (hkeys b (List.mem_cons_self _ _)) (hskip b (List.mem_cons_self _ _)) fuel p
      (encode_map_blocks bs ++ R)
    simp only [encode_map_blocks, List.append_assoc] at hstep ⊢
    rw [hstep, ih2 _ _ (by simpa using hfuel)]
    simp only [List.length_append, Nat.add_assoc]

/-- The loop of `skip_record` without a mapped datum, over fields that
`skip_data` consumes exactly. -/
theorem skip_record_encoded_skip
    (skip_data : avro_schema_t → avro_reader_t → Option (Int × avro_reader_t))
    (map_data : avro_schema_t → avro_reader_t → Option avro_datum_t →
      Option (Int × avro_reader_t × Option avro_datum_t))
    (parts : List ((String × avro_schema_t) × avro_value × List Nat))
    (hskip : ∀ x ∈ parts, ∀ p R,
      skip_data x.1.2 ⟨p, x.2.2 ++ R⟩ = some (0, ⟨p + x.2.2.length, R⟩)) :
    ∀ (p : Nat) (R : List Nat),
      skip_record skip_data map_data (parts.map (fun x => x.1))
          ⟨p, (parts.map (fun x => x.2.2)).flatten ++ R⟩ none =
        some (0, ⟨p + (parts.map (fun x => x.2.2)).flatten.length, R⟩, none) := by
  induction parts with
  | nil => intro p R; simp [skip_record]
  | cons x xs ih =>
    intro p R
    have hx := hskip x (List.mem_cons_self _ _)
    have ih2 := ih (fun y hy => hskip y (List.mem_cons_of_mem _ hy))
    obtain ⟨⟨name, s⟩, v, e⟩ := x
    simp only [List.map_cons, List.flatten_cons, List.append_assoc, skip_record] at hx ⊢
    rw [hx]
    simp only [ne_eq, not_true_eq_false, if_false]
    rw [ih2]
    simp [Nat.add_assoc]

/-- The loop of `skip_record` with a mapped record datum, over fields that
`map_data` consumes exactly: it succeeds and leaves a record datum. -/
theorem skip_record_encoded_map
    (skip_data : avro_schema_t → avro_reader_t → Option (Int × avro_reader_t))
    (map_data : avro_schema_t → avro_reader_t → Option avro_datum_t →
      Option (Int × avro_reader_t × Option avro_datum_t))
    (parts : List ((String × avro_schema_t) × avro_value × List Nat))
    (hmap : ∀ x ∈ parts, ∀ p R, ∃ md,
      map_data x.1.2 ⟨p, x.2.2 ++ R⟩ none = some (0, ⟨p + x.2.2.length, R⟩, md)) :
    ∀ (p : Nat) (R : List Nat) (names : List String) (fields : List (String × avro_datum_t)),
      ∃ names1 fields1,
      skip_record skip_data map_data (parts.map (fun x => x.1))
          ⟨p, (parts.map (fun x => x.2.2)).flatten ++ R⟩
          (some (avro_datum_t.record names fields)) =
        some (0, ⟨p + (parts.map (fun x => x.2.2)).flatten.length, R⟩,
          some (avro_datum_t.record names1 fields1)) := by
  induction parts with
  | nil => intro p R names fields; exact ⟨names, fields, by simp [skip_record]⟩
  | cons x xs ih =>
    intro p R names fields
    have ih2 := ih (fun y hy => hmap y (List.mem_cons_of_mem _ hy))
    obtain ⟨md, hx⟩ := hmap x (List.mem_cons_self _ _) p
      ((xs.map (fun x => x.2.2)).flatten ++ R)
    obtain ⟨⟨name, s⟩, v, e⟩ := x
    simp only [List.map_cons, List.flatten_cons, List.append_assoc, skip_record] at hx ⊢
    rw [hx]
    simp only [ne_eq, not_true_eq_false, if_false]
    cases md with
    | none =>
      obtain ⟨n1, f1, h1⟩ := ih2 (p + e.length) R names fields
      exact ⟨n1, f1, by simp only [h1, List.length_append, Nat.add_assoc]⟩
    | some fd =>
      obtain ⟨n1, f1, h1⟩ := ih2 (p + e.length) R (names ++ [name]) (record_put fields name fd)
      exact ⟨n1, f1, by
        simp only [avro_schema_record_field_append, avro_record_set, ne_eq, not_true_eq_false,
          if_false, h1, List.length_append, Nat.add_assoc]⟩

theorem exists_uniform_fuel {α : Type} (l : List α) (Q : α → Nat → Prop)
    (h : ∀ x ∈ l, ∃ n, ∀ fuel, n ≤ fuel → Q x fuel) :
    ∃ n, ∀ fuel, n ≤ fuel → ∀ x ∈ l, Q x fuel := by
  induction l with
  | nil => exact ⟨0, fun _ _ x hx => absurd hx (List.not_mem_nil x)⟩
  | cons a l ih =>
    obtain ⟨n1, h1⟩ := h a (List.mem_cons_self _ _)
    obtain ⟨n2, h2⟩ := ih (fun x hx => h x (List.mem_cons_of_mem _ hx))
    refine ⟨max n1 n2, fun fuel hf x hx => ?_⟩
    rcases List.mem_cons.mp hx with rfl | hx
    · exact h1 fuel (le_trans (le_max_left _ _) hf)
    · exact h2 fuel (le_trans (le_max_right _ _) hf) x hx

/-! ## Skipping and mapping a valid encoding -/

theorem consumes_of_skip (env : Nat → avro_schema_t) (s : avro_schema_t) (E : List Nat)
    (hs : ∀ items, s ≠ avro_schema_t.array items) (hr : ∀ fields, s ≠ avro_schema_t.record fields)
    (n : Nat)
    (h : ∀ fuel, n ≤ fuel → ∀ (p : Nat) (R : List Nat),
      avro_skip_data env fuel s ⟨p, E ++ R⟩ = some (0, ⟨p + E.length, R⟩)) :
    ∃ n, ∀ fuel, n ≤ fuel → consumes env s E fuel := by
  refine ⟨n + 1, fun fuel hf p R => ⟨h fuel (by omega) p R, fun md0 => ?_⟩⟩
  obtain ⟨fuel, rfl⟩ : ∃ m, fuel = m + 1 := ⟨fuel - 1, by omega⟩
  have h1 := h fuel (by omega) p R
  refine ⟨md0, ?_⟩
  cases s <;> first
    | exact absurd rfl (hs _)
    | exact absurd rfl (hr _)
    | simp only [avro_map_data, h1]

theorem encodes_consumes (env : Nat → avro_schema_t) (s : avro_schema_t) (v : avro_value)
    (E : List Nat) (h : Encodes env s v E) :
    ∃ n, ∀ fuel, n ≤ fuel → consumes env s E fuel := by
  induction h with
  | null =>
    refine consumes_of_skip env _ _ (by simp) (by simp) 1 (fun fuel hf p R => ?_)
    obtain ⟨fuel, rfl⟩ : ∃ m, fuel = m + 1 := ⟨fuel - 1, by omega⟩
    simp [avro_skip_data, avro_binary_encoding]
  | boolean b =>
    refine consumes_of_skip env _ _ (by simp) (by simp) 1 (fun fuel hf p R => ?_)
    obtain ⟨fuel, rfl⟩ : ∃ m, fuel = m + 1 := ⟨fuel - 1, by omega⟩
    simp [avro_skip_data, avro_binary_encoding, avro_skip]
  | int32 v h1 h2 =>
    refine consumes_of_skip env _ _ (by simp) (by simp) 1 (fun fuel hf p R => ?_)
    obtain ⟨fuel, rfl⟩ : ∃ m, fuel = m + 1 := ⟨fuel - 1, by omega⟩
    have hv : in_int64 v := by unfold in_int64; omega
    simp [avro_skip_data, avro_binary_encoding, skip_long_encode v hv]
  | int64 v hv =>
    refine consumes_of_skip env _ _ (by simp) (by simp) 1 (fun fuel hf p R => ?_)
    obtain ⟨fuel, rfl⟩ : ∃ m, fuel = m + 1 := ⟨fuel - 1, by omega⟩
    simp [avro_skip_data, avro_binary_encoding, skip_long_encode v hv]
  | float raw h4 =>
    refine consumes_of_skip env _ _ (by simp) (by simp) 1 (fun fuel hf p R => ?_)
    obtain ⟨fuel, rfl⟩ : ∃ m, fuel = m + 1 := ⟨fuel - 1, by omega⟩
    have := avro_skip_append raw p R
    rw [h4] at this
    simp [avro_skip_data, avro_binary_encoding, this, h4]
  | double raw h8 =>
    refine consumes_of_skip env _ _ (by simp) (by simp) 1 (fun fuel hf p R => ?_)
    obtain ⟨fuel, rfl⟩ : ∃ m, fuel = m + 1 := ⟨fuel - 1, by omega⟩
    have := avro_skip_append raw p R
    rw [h8] at this
    simp [avro_skip_data, avro_binary_encoding, this, h8]
  | string chars hlen =>
    refine consumes_of_skip env _ _ (by simp) (by simp) 1 (fun fuel hf p R => ?_)
    obtain ⟨fuel, rfl⟩ : ∃ m, fuel = m + 1 := ⟨fuel - 1, by omega⟩
    simp only [avro_skip_data, avro_binary_encoding, skip_bytes_encode chars hlen]
  | bytes raw hlen =>
    refine consumes_of_skip env _ _ (by simp) (by simp) 1 (fun fuel hf p R => ?_)
    obtain ⟨fuel, rfl⟩ : ∃ m, fuel = m + 1 := ⟨fuel - 1, by omega⟩
    simp only [avro_skip_data, avro_binary_encoding, skip_bytes_encode raw hlen]
  | fixed size raw hsize =>
    refine consumes_of_skip env _ _ (by simp) (by simp) 1 (fun fuel hf p R => ?_)
    obtain ⟨fuel, rfl⟩ : ∃ m, fuel = m + 1 := ⟨fuel - 1, by omega⟩
    have := avro_skip_append raw p R
    rw [hsize] at this
    simp [avro_skip_data, this, hsize]
  | enum symbols ordinal h1 h2 =>
    refine consumes_of_skip env _ _ (by simp) (by simp) 1 (fun fuel hf p R => ?_)
    obtain ⟨fuel, rfl⟩ : ∃ m, fuel = m + 1 := ⟨fuel - 1, by omega⟩
    have hv : in_int64 (ordinal : Int) := by unfold in_int64; omega
    simp [avro_skip_data, avro_binary_encoding, skip_long_encode _ hv]
  | array items blocks hok _ ih =>
    obtain ⟨N, hN⟩ := exists_uniform_fuel blocks
      (fun b fuel => ∀ x ∈ b.elems, consumes env items x.2 fuel)
      (fun b hb => exists_uniform_fuel b.elems (fun x fuel => consumes env items x.2 fuel)
        (fun x hx => ih b hb x hx))
    refine ⟨max N blocks.length + 1, fun fuel hf p R => ?_⟩
    obtain ⟨fuel, rfl⟩ : ∃ m, fuel = m + 1 := ⟨fuel - 1, by omega⟩
    have hfN : N ≤ fuel := by have := le_max_left N blocks.length; omega
    have hfl : blocks.length ≤ fuel := by have := le_max_right N blocks.length; omega
    have hsk := skip_array_encoded (avro_skip_data env fuel) items blocks hok
      (fun b hb x hx p R => (hN fuel hfN b hb x hx p R).1) fuel p R
    constructor
    · simp only [avro_skip_data, hsk none hfl trivial, drop_datum, Option.map_some']
    · intro md0
      exact ⟨_, by simp only [avro_map_data]; exact hsk (some avro_array) hfl trivial⟩
  | map values blocks hok hkeys _ ih =>
    obtain ⟨N, hN⟩ := exists_uniform_fuel blocks
      (fun b fuel => ∀ x ∈ b.entries, consumes env values x.2.2 fuel)
      (fun b hb => exists_uniform_fuel b.entries (fun x fuel => consumes env values x.2.2 fuel)
        (fun x hx => ih b hb x hx))
    refine consumes_of_skip env _ _ (by simp) (by simp) (max N blocks.length + 1)
      (fun fuel hf p R => ?_)
    obtain ⟨fuel, rfl⟩ : ∃ m, fuel = m + 1 := ⟨fuel - 1, by omega⟩
    have hfN : N ≤ fuel := by have := le_max_left N blocks.length; omega
    have hfl : blocks.length ≤ fuel := by have := le_max_right N blocks.length; omega
    have hsk := skip_map_encoded (avro_skip_data env fuel) values blocks hok hkeys
      (fun b hb x hx p R => (hN fuel hfN b hb x hx p R).1) fuel p R hfl
    simp only [avro_skip_data, hsk]
  | union branches index branch v bytes hbr hidx _ ih =>
    obtain ⟨N, hN⟩ := ih
    refine consumes_of_skip env _ _ (by simp) (by simp) (N + 1) (fun fuel hf p R => ?_)
    obtain ⟨fuel, rfl⟩ : ∃ m, fuel = m + 1 := ⟨fuel - 1, by omega⟩
    have hv : in_int64 (index : Int) := by unfold in_int64; omega
    have hneg : ¬ ((index : Int) < 0) := by omega
    have hb := (hN fuel (by omega) (p + (encode_long (index : Int)).length) R).1
    simp only [avro_skip_data, skip_union, List.append_assoc, read_long_binary,
      read_long_encode _ hv, ne_eq, not_true_eq_false, if_false, avro_schema_union_branch, hneg,
      Int.toNat_ofNat, hbr, hb, List.length_append, Nat.add_assoc]
  | record parts _ ih =>
    obtain ⟨N, hN⟩ := exists_uniform_fuel parts
      (fun x fuel => consumes env x.1.2 x.2.2 fuel) ih
    refine ⟨N + 1, fun fuel hf p R => ?_⟩
    obtain ⟨fuel, rfl⟩ : ∃ m, fuel = m + 1 := ⟨fuel - 1, by omega⟩
    have hfN : N ≤ fuel := by omega
    constructor
    · have hsk := skip_record_encoded_skip (avro_skip_data env fuel) (avro_map_data env fuel)
        parts (fun x hx p R => (hN fuel hfN x hx p R).1) p R
      simp only [avro_skip_data, hsk, drop_datum, Option.map_some']
    · intro md0
      obtain ⟨n1, f1, hmp⟩ := skip_record_encoded_map (avro_skip_data env fuel)
        (avro_map_data env fuel) parts (fun x hx p R => (hN fuel hfN x hx p R).2 none) p R
        ([] ++ ["__offset"])
        (record_put [] "__offset" (avro_int64 (avro_reader_file_ftell
          ⟨p, (parts.map (fun x => x.2.2)).flatten ++ R⟩)))
      exact ⟨_, by
        simp only [avro_map_data, avro_schema_record_field_append, avro_record_set, avro_record,
          ne_eq, not_true_eq_false, if_false]
        exact hmp⟩
  | link target v bytes _ ih =>
    obtain ⟨N, hN⟩ := ih
    refine consumes_of_skip env _ _ (by simp) (by simp) (N + 1) (fun fuel hf p R => ?_)
    obtain ⟨fuel, rfl⟩ : ∃ m, fuel = m + 1 := ⟨fuel - 1, by omega⟩
    simp only [avro_skip_data, (hN fuel (by omega) p R).1]

/-! ## Which calls leave a datum behind -/

theorem append_position_isSome (cond : Bool) (reader : avro_reader_t)
    (md : Option avro_datum_t) :
    (append_position cond reader md).2.isSome = md.isSome := by
  cases md with
  | none => rfl
  | some d => cases cond <;> rfl

theorem skip_array_items_isSome
    (skip_data : avro_schema_t → avro_reader_t → Option (Int × avro_reader_t))
    (items : avro_schema_t) :
    ∀ (n : Nat) (i : Int) (reader : avro_reader_t) (md : Option avro_datum_t)
      (res : Int × avro_reader_t × Option avro_datum_t),
      skip_array_items skip_data items n i reader md = some res →
      res.2.2.isSome = md.isSome := by
  intro n
  induction n with
  | zero =>
    intro i reader md res h
    simp only [skip_array_items, Option.some.injEq] at h
    subst h; rfl
  | succ n ih =>
    intro i reader md res h
    unfold skip_array_items at h
    have hap := append_position_isSome (decide (i.tmod DEFAULT_CHUNK_SIZE = 0)) reader md
    rcases happ : append_position (decide (i.tmod DEFAULT_CHUNK_SIZE = 0)) reader md
      with ⟨rval0, mapped1⟩
    rw [happ] at h hap
    simp only at h hap
    by_cases h0 : rval0 = 0
    · simp only [h0, ne_eq, not_true_eq_false, if_false] at h
      cases hs : skip_data items reader with
      | none => simp [hs] at h
      | some x =>
        obtain ⟨rval, reader1⟩ := x
        simp only [hs] at h
        by_cases hr : rval = 0
        · simp only [hr, ne_eq, not_true_eq_false, if_false] at h
          exact (ih _ _ _ _ h).trans hap
        · simp only [hr, ne_eq, not_false_eq_true, if_true, Option.some.injEq] at h
          subst h; exact hap
    · simp only [h0, ne_eq, not_false_eq_true, if_true, Option.some.injEq] at h
      subst h; exact hap

theorem skip_array_blocks_isSome (enc : avro_encoding_t)
    (skip_data : avro_schema_t → avro_reader_t → Option (Int × avro_reader_t))
    (items : avro_schema_t) :
    ∀ (fuel : Nat) (c : Int) (reader : avro_reader_t) (md : Option avro_datum_t)
      (res : Int × avro_reader_t × Option avro_datum_t),
      skip_array_blocks enc skip_data items fuel c reader md = some res →
      res.2.2.isSome = md.isSome := by
  intro fuel
  induction fuel with
  | zero =>
    intro c reader md res h
    unfold skip_array_blocks at h
    by_cases hc : c = 0
    · simp only [hc, if_true, Option.some.injEq] at h
      subst h; rfl
    · simp [hc] at h
  | succ fuel ih =>
    intro c reader md res h
    unfold skip_array_blocks at h
    by_cases hc : c = 0
    · simp only [hc, if_true, Option.some.injEq] at h
      subst h; rfl
    · simp only [hc, if_false] at h
      rcases hrb : read_block_size enc c reader with ⟨rval0, count, reader1⟩
      rw [hrb] at h
      simp only at h
      by_cases h0 : rval0 = 0
      · simp only [h0, ne_eq, not_true_eq_false, if_false] at h
        cases hit : skip_array_items skip_data items count.toNat 0 reader1 md with
        | none => simp [hit] at h
        | some x =>
          obtain ⟨rval, reader2, mapped2⟩ := x
          have hm2 := skip_array_items_isSome skip_data items _ _ _ _ _ hit
          simp only [hit] at h hm2
          by_cases hr : rval = 0
          · simp only [hr, ne_eq, not_true_eq_false, if_false] at h
            have hap := append_position_isSome
              (decide (count.tmod DEFAULT_CHUNK_SIZE ≠ 0)) reader2 mapped2
            rcases happ : append_position (decide (count.tmod DEFAULT_CHUNK_SIZE ≠ 0)) reader2
              mapped2 with ⟨rval1, mapped3⟩
            rw [happ] at hap
            simp only [ne_eq] at happ
            simp only [happ] at h hap
            by_cases h1 : rval1 = 0
            · simp only [h1, not_true_eq_false, if_false] at h
              split at h
              · simp only [Option.some.injEq] at h
                subst h; exact hap.trans hm2
              · exact (ih _ _ _ _ h).trans (hap.trans hm2)
            · simp only [h1, not_false_eq_true, if_true, Option.some.injEq] at h
              subst h; exact hap.trans hm2
          · simp only [hr, ne_eq, not_false_eq_true, if_true, Option.some.injEq] at h
            subst h; exact hm2
      · simp only [h0, ne_eq, not_false_eq_true, if_true, Option.some.injEq] at h
        subst h; rfl

theorem skip_array_isSome (enc : avro_encoding_t)
    (skip_data : avro_schema_t → avro_reader_t → Option (Int × avro_reader_t))
    (items : avro_schema_t) (fuel : Nat) (reader : avro_reader_t) (md : Option avro_datum_t)
    (res : Int × avro_reader_t × Option avro_datum_t)
    (h : skip_array enc skip_data fuel items reader md = some res) :
    res.2.2.isSome = md.isSome := by
  unfold skip_array at h
  rcases hrl : enc.read_long reader with ⟨rval, block_count, reader1⟩
  rw [hrl] at h
  simp only at h
  by_cases hr : rval = 0
  · simp only [hr, ne_eq, not_true_eq_false, if_false] at h
    exact skip_array_blocks_isSome enc skip_data items _ _ _ _ _ h
  · simp only [hr, ne_eq, not_false_eq_true, if_true, Option.some.injEq] at h
    subst h; rfl

theorem skip_record_isSome
    (skip_data : avro_schema_t → avro_reader_t → Option (Int × avro_reader_t))
    (map_data : avro_schema_t → avro_reader_t → Option avro_datum_t →
      Option (Int × avro_reader_t × Option avro_datum_t)) :
    ∀ (fields : List (String × avro_schema_t)) (reader : avro_reader_t)
      (md : Option avro_datum_t) (res : Int × avro_reader_t × Option avro_datum_t),
      skip_record skip_data map_data fields reader md = some res →
      res.2.2.isSome = md.isSome := by
  intro fields
  induction fields with
  | nil =>
    intro reader md res h
    simp only [skip_record, Option.some.injEq] at h
    subst h; rfl
  | cons f fields ih =>
    intro reader md res h
    obtain ⟨field_name, field_schema⟩ := f
    cases md with
    | none =>
      simp only [skip_record] at h
      cases hs : skip_data field_schema reader with
      | none => simp [hs] at h
      | some x =>
        obtain ⟨rval, reader1⟩ := x
        simp only [hs] at h
        by_cases hr : rval = 0
        · simp only [hr, ne_eq, not_true_eq_false, if_false] at h
          exact ih _ _ _ h
        · simp only [hr, ne_eq, not_false_eq_true, if_true, Option.some.injEq] at h
          subst h; rfl
    | some datum =>
      simp only [skip_record] at h
      cases hs : map_data field_schema reader none with
      | none => simp [hs] at h
      | some x =>
        obtain ⟨rval, reader1, mfd⟩ := x
        simp only [hs] at h
        by_cases hr : rval = 0
        · simp only [hr, ne_eq, not_true_eq_false, if_false] at h
          cases mfd with
          | none => exact ih _ _ _ h
          | some fd =>
            simp only at h
            by_cases h1 : (avro_schema_record_field_append datum field_name).1 = 0
            · simp only [h1, not_true_eq_false, if_false] at h
              by_cases h2 : (avro_record_set (avro_schema_record_field_append datum
                  field_name).2 field_name fd).1 = 0
              · simp only [h2, not_true_eq_false, if_false] at h
                exact (ih _ _ _ h).trans rfl
              · simp only [h2, not_false_eq_true, if_true, Option.some.injEq] at h
                subst h; rfl
            · simp only [h1, not_false_eq_true, if_true, Option.some.injEq] at h
              subst h; rfl
        · simp only [hr, ne_eq, not_false_eq_true, if_true, Option.some.injEq] at h
          subst h; rfl

/-- Whether a schema is an array or a record, the two variants `avro_map_data`
has a case for. -/
theorem avro_map_data_isSome (env : Nat → avro_schema_t) (fuel : Nat) (s : avro_schema_t)
    (reader : avro_reader_t) (md0 : Option avro_datum_t)
    (res : Int × avro_reader_t × Option avro_datum_t)
    (h : avro_map_data env fuel s reader md0 = some res) :
    ((∃ items, s = avro_schema_t.array items) ∨ (∃ fields, s = avro_schema_t.record fields)) ∧
        res.2.2.isSome = true ∨
      (¬ ((∃ items, s = avro_schema_t.array items) ∨
          (∃ fields, s = avro_schema_t.record fields))) ∧ res.2.2 = md0 := by
  cases fuel with
  | zero => simp [avro_map_data] at h
  | succ fuel =>
    cases s with
    | array items =>
      simp only [avro_map_data] at h
      exact Or.inl ⟨Or.inl ⟨items, rfl⟩, skip_array_isSome _ _ _ _ _ _ _ h⟩
    | record fields =>
      simp only [avro_map_data, avro_schema_record_field_append, avro_record_set, avro_record,
        ne_eq, not_true_eq_false, if_false] at h
      exact Or.inl ⟨Or.inr ⟨fields, rfl⟩, skip_record_isSome _ _ _ _ _ _ h⟩
    | _ =>
      simp only [avro_map_data] at h
      right
      constructor
      · rintro (⟨_, hh⟩ | ⟨_, hh⟩) <;> cases hh
      · split at h
        · exact absurd h (by simp)
        · simp only [Option.some.injEq] at h
          subst h; rfl

/-! ## The traversal does not depend on where the reader stands -/

theorem read_varint_shift (d : Nat) : ∀ (left offset value : Nat) (reader : avro_reader_t),
    read_varint left offset value (shift_reader d reader) =
      ((read_varint left offset value reader).1, (read_varint left offset value reader).2.1,
        shift_reader d (read_varint left offset value reader).2.2) := by
  intro left
  induction left with
  | zero => intro offset value reader; rfl
  | succ left ih =>
    intro offset value reader
    obtain ⟨p, rest⟩ := reader
    cases rest with
    | nil => rfl
    | cons b bs =>
      simp only [read_varint, shift_reader]
      by_cases hb : b / 128 % 2 = 1
      · simp only [hb, if_true]
        have := ih (offset + 1) (value + b % 128 * 128 ^ offset) ⟨p + 1, bs⟩
        simp only [shift_reader] at this
        rw [show p + d + 1 = p + 1 + d by omega, this]
      · simp only [hb, if_false, avro_reader_t.mk.injEq, Prod.mk.injEq, true_and, and_true]
        omega

theorem read_long_shift (d : Nat) (reader : avro_reader_t) :
    read_long (shift_reader d reader) =
      ((read_long reader).1, (read_long reader).2.1, shift_reader d (read_long reader).2.2) := by
  simp only [read_long, read_varint_shift]

theorem skip_long_shift (d : Nat) (reader : avro_reader_t) :
    skip_long (shift_reader d reader) =
      ((skip_long reader).1, shift_reader d (skip_long reader).2) := by
  simp only [skip_long, read_varint_shift]

theorem avro_skip_shift (d : Nat) (reader : avro_reader_t) (len : Nat) :
    avro_skip (shift_reader d reader) len =
      ((avro_skip reader len).1, shift_reader d (avro_skip reader len).2) := by
  simp only [avro_skip, shift_reader]
  split
  · rfl
  · simp only [avro_reader_t.mk.injEq, Prod.mk.injEq, true_and, and_true]
    omega

theorem skip_bytes_shift (d : Nat) (reader : avro_reader_t) :
    skip_bytes (shift_reader d reader) =
      ((skip_bytes reader).1, shift_reader d (skip_bytes reader).2) := by
  simp only [skip_bytes, read_long_shift]
  split
  · rfl
  · split
    · rfl
    · exact avro_skip_shift d _ _

theorem read_block_size_shift (d : Nat) (c : Int) (reader : avro_reader_t) :
    read_block_size avro_binary_encoding c (shift_reader d reader) =
      ((read_block_size avro_binary_encoding c reader).1,
        (read_block_size avro_binary_encoding c reader).2.1,
        shift_reader d (read_block_size avro_binary_encoding c reader).2.2) := by
  simp only [read_block_size, read_long_binary, read_long_shift]
  split <;> rfl

theorem offsets_from_ok_append_position (k : Nat) (cond : Bool) (reader : avro_reader_t)
    (md : Option avro_datum_t) (hmd : offsets_from_ok k md) :
    offsets_from_ok k (append_position cond reader md).2 := by
  match md, hmd with
  | none, _ => trivial
  | some (avro_datum_t.array l), hl =>
    cases cond
    · exact hl
    · simp only [append_position, avro_array_append_datum, if_true, offsets_from_ok,
        List.length_append, List.length_singleton]
      exact Nat.le_succ_of_le hl

theorem append_position_shift (d k : Nat) (cond : Bool) (reader : avro_reader_t)
    (md : Option avro_datum_t) (hmd : offsets_from_ok k md) :
    append_position cond (shift_reader d reader) (shift_offsets_from d k md) =
      ((append_position cond reader md).1,
        shift_offsets_from d k (append_position cond reader md).2) := by
  match md, hmd with
  | none, _ => rfl
  | some (avro_datum_t.array l), hl =>
    cases cond
    · rfl
    · have hl' : k ≤ l.length := hl
      simp only [append_position, shift_offsets_from, avro_array_append_datum, if_true,
        Prod.mk.injEq, true_and, Option.some.injEq, avro_datum_t.array.injEq]
      rw [List.take_append_of_le_length hl', List.drop_append_of_le_length hl']
      simp only [List.map_append, List.map_cons, List.map_nil, List.append_assoc,
        List.append_cancel_left_eq, List.cons.injEq, and_true]
      simp only [avro_int64, avro_reader_file_ftell, shift_reader, shift_datum,
        avro_datum_t.int64.injEq]
      push_cast
      rfl

theorem skip_array_items_inv (P : Option avro_datum_t → Prop)
    (hP : ∀ cond reader md, P md → P (append_position cond reader md).2)
    (skip_data : avro_schema_t → avro_reader_t → Option (Int × avro_reader_t))
    (items : avro_schema_t) :
    ∀ (n : Nat) (i : Int) (reader : avro_reader_t) (md : Option avro_datum_t)
      (res : Int × avro_reader_t × Option avro_datum_t), P md →
      skip_array_items skip_data items n i reader md = some res → P res.2.2 := by
  intro n
  induction n with
  | zero =>
    intro i reader md res hmd h
    simp only [skip_array_items, Option.some.injEq] at h
    subst h; exact hmd
  | succ n ih =>
    intro i reader md res hmd h
    unfold skip_array_items at h
    have hap := hP (decide (i.tmod DEFAULT_CHUNK_SIZE = 0)) reader md hmd
    rcases happ : append_position (decide (i.tmod DEFAULT_CHUNK_SIZE = 0)) reader md
      with ⟨rval0, mapped1⟩
    rw [happ] at h hap
    simp only at h hap
    by_cases h0 : rval0 = 0
    · simp only [h0, ne_eq, not_true_eq_false, if_false] at h
      cases hs : skip_data items reader with
      | none => simp [hs] at h
      | some x =>
        obtain ⟨rval, reader1⟩ := x
        simp only [hs] at h
        by_cases hr : rval = 0
        · simp only [hr, ne_eq, not_true_eq_false, if_false] at h
          exact ih _ _ _ _ hap h
        · simp only [hr, ne_eq, not_false_eq_true, if_true, Option.some.injEq] at h
          subst h; exact hap
    · simp only [h0, ne_eq, not_false_eq_true, if_true, Option.some.injEq] at h
      subst h; exact hap

theorem skip_array_items_shift (d k : Nat)
    (skip_data : avro_schema_t → avro_reader_t → Option (Int × avro_reader_t))
    (hs : shift_invariant d skip_data) (items : avro_schema_t) :
    ∀ (n : Nat) (i : Int) (reader : avro_reader_t) (md : Option avro_datum_t),
      offsets_from_ok k md →
      skip_array_items skip_data items n i (shift_reader d reader) (shift_offsets_from d k md) =
        (skip_array_items skip_data items n i reader md).map
          (fun x => (x.1, shift_reader d x.2.1, shift_offsets_from d k x.2.2)) := by
  intro n
  induction n with
  | zero => intro i reader md _; rfl
  | succ n ih =>
    intro i reader md hmd
    unfold skip_array_items
    rw [append_position_shift d k _ _ _ hmd]
    have hok1 := offsets_from_ok_append_position k
      (decide (i.tmod DEFAULT_CHUNK_SIZE = 0)) reader md hmd
    rcases happ : append_position (decide (i.tmod DEFAULT_CHUNK_SIZE = 0)) reader md
      with ⟨rval0, mapped1⟩
    rw [happ] at hok1
    simp only at hok1 ⊢
    by_cases h0 : rval0 = 0
    · simp only [h0, ne_eq, not_true_eq_false, if_false]
      rw [hs items reader]
      cases hsk : skip_data items reader with
      | none => rfl
      | some x =>
        obtain ⟨rval, reader1⟩ := x
        simp only [Option.map_some']
        by_cases hr : rval = 0
        · simp only [hr, ne_eq, not_true_eq_false, if_false]
          exact ih _ _ _ hok1
        · simp only [hr, ne_eq, not_false_eq_true, if_true, Option.map_some']
    · simp only [h0, ne_eq, not_false_eq_true, if_true, Option.map_some']

/-- One round of the `while` loop of `skip_array` from two readers that, after
the head of the block, hold the same bytes `d` positions apart. -/
theorem skip_array_blocks_step_shift (d k : Nat)
    (skip_data : avro_schema_t → avro_reader_t → Option (Int × avro_reader_t))
    (hs : shift_invariant d skip_data) (items : avro_schema_t) (fuel : Nat)
    (ih : ∀ (c : Int) (reader : avro_reader_t) (md : Option avro_datum_t),
      offsets_from_ok k md →
      skip_array_blocks avro_binary_encoding skip_data items fuel c (shift_reader d reader)
          (shift_offsets_from d k md) =
        (skip_array_blocks avro_binary_encoding skip_data items fuel c reader md).map
          (fun x => (x.1, shift_reader d x.2.1, shift_offsets_from d k x.2.2)))
    (c : Int) (reader reader' reader1 : avro_reader_t) (rval0 count : Int)
    (md : Option avro_datum_t) (hmd : offsets_from_ok k md)
    (hrb : read_block_size avro_binary_encoding c reader = (rval0, count, reader1))
    (hrb' : read_block_size avro_binary_encoding c reader' =
      (rval0, count, shift_reader d reader1)) :
    skip_array_blocks avro_binary_encoding skip_data items (fuel + 1) c reader'
        (shift_offsets_from d k md) =
      (skip_array_blocks avro_binary_encoding skip_data items (fuel + 1) c reader md).map
        (fun x => (x.1, shift_reader d x.2.1, shift_offsets_from d k x.2.2)) := by
  unfold skip_array_blocks
  by_cases hc : c = 0
  · subst hc
    simp only [read_block_size, lt_self_iff_false, if_false, Prod.mk.injEq] at hrb hrb'
    obtain ⟨_, _, rfl⟩ := hrb
    obtain ⟨_, _, rfl⟩ := hrb'
    rfl
  · simp only [hc, if_false, hrb, hrb']
    by_cases h0 : rval0 = 0
    · simp only [h0, ne_eq, not_true_eq_false, if_false]
      rw [skip_array_items_shift d k skip_data hs items _ _ _ _ hmd]
      cases hit : skip_array_items skip_data items count.toNat 0 reader1 md with
      | none => rfl
      | some x =>
        obtain ⟨rval, reader2, mapped2⟩ := x
        have hok2 : offsets_from_ok k mapped2 :=
          skip_array_items_inv (offsets_from_ok k)
            (fun cond r m hm => offsets_from_ok_append_position k cond r m hm)
            skip_data items _ _ _ _ _ hmd hit
        simp only [Option.map_some']
        by_cases hr : rval = 0
        · simp only [hr, ne_eq, not_true_eq_false, if_false]
          rw [append_position_shift d k _ _ _ hok2]
          have hok3 := offsets_from_ok_append_position k
            (decide ¬ count.tmod DEFAULT_CHUNK_SIZE = 0) reader2 mapped2 hok2
          rcases happ : append_position (decide ¬ count.tmod DEFAULT_CHUNK_SIZE = 0) reader2
            mapped2 with ⟨rval1, mapped3⟩
          rw [happ] at hok3
          simp only at hok3 ⊢
          by_cases h1 : rval1 = 0
          · simp only [h1, not_true_eq_false, if_false, read_long_binary, read_long_shift]
            rcases hrl : read_long reader2 with ⟨rval3, next_count, reader3⟩
            simp only
            by_cases h3 : rval3 = 0
            · simp only [h3, not_true_eq_false, if_false]
              exact ih _ _ _ hok3
            · simp only [h3, not_false_eq_true, if_true, Option.map_some']
          · simp only [h1, not_false_eq_true, if_true, Option.map_some']
        · simp only [hr, ne_eq, not_false_eq_true, if_true, Option.map_some']
    · simp only [h0, ne_eq, not_false_eq_true, if_true, Option.map_some']

theorem skip_array_blocks_shift (d k : Nat)
    (skip_data : avro_schema_t → avro_reader_t → Option (Int × avro_reader_t))
    (hs : shift_invariant d skip_data) (items : avro_schema_t) :
    ∀ (fuel : Nat) (c : Int) (reader : avro_reader_t) (md : Option avro_datum_t),
      offsets_from_ok k md →
      skip_array_blocks avro_binary_encoding skip_data items fuel c (shift_reader d reader)
          (shift_offsets_from d k md) =
        (skip_array_blocks avro_binary_encoding skip_data items fuel c reader md).map
          (fun x => (x.1, shift_reader d x.2.1, shift_offsets_from d k x.2.2)) := by
  intro fuel
  induction fuel with
  | zero =>
    intro c reader md _
    unfold skip_array_blocks
    by_cases hc : c = 0 <;> simp [hc]
  | succ fuel ih =>
    intro c reader md hmd
    exact skip_array_blocks_step_shift d k skip_data hs items fuel ih c reader
      (shift_reader d reader) _ _ _ md hmd rfl (read_block_size_shift d c reader)

theorem skip_array_shift (d k : Nat)
    (skip_data : avro_schema_t → avro_reader_t → Option (Int × avro_reader_t))
    (hs : shift_invariant d skip_data) (items : avro_schema_t) (fuel : Nat)
    (reader : avro_reader_t) (md : Option avro_datum_t) (hmd : offsets_from_ok k md) :
    skip_array avro_binary_encoding skip_data fuel items (shift_reader d reader)
        (shift_offsets_from d k md) =
      (skip_array avro_binary_encoding skip_data fuel items reader md).map
        (fun x => (x.1, shift_reader d x.2.1, shift_offsets_from d k x.2.2)) := by
  unfold skip_array
  simp only [read_long_binary, read_long_shift]
  rcases hrl : read_long reader with ⟨rval, block_count, reader1⟩
  simp only
  by_cases hr : rval = 0
  · simp only [hr, ne_eq, not_true_eq_false, if_false]
    exact skip_array_blocks_shift d k skip_data hs items _ _ _ _ hmd
  · simp only [hr, ne_eq, not_false_eq_true, if_true, Option.map_some']

theorem skip_map_items_shift (d : Nat)
    (skip_data : avro_schema_t → avro_reader_t → Option (Int × avro_reader_t))
    (hs : shift_invariant d skip_data) (values : avro_schema_t) :
    ∀ (n : Nat) (reader : avro_reader_t),
      skip_map_items avro_binary_encoding skip_data values n (shift_reader d reader) =
        (skip_map_items avro_binary_encoding skip_data values n reader).map
          (fun x => (x.1, shift_reader d x.2)) := by
  intro n
  induction n with
  | zero => intro reader; rfl
  | succ n ih =>
    intro reader
    unfold skip_map_items
    simp only [skip_string_binary, skip_bytes_shift]
    rcases hk : skip_bytes reader with ⟨rval, reader1⟩
    simp only
    by_cases hr : rval = 0
    · simp only [hr, ne_eq, not_true_eq_false, if_false]
      rw [hs values reader1]
      cases hsk : skip_data values reader1 with
      | none => rfl
      | some x =>
        obtain ⟨rval2, reader2⟩ := x
        simp only [Option.map_some']
        by_cases hr2 : rval2 = 0
        · simp only [hr2, ne_eq, not_true_eq_false, if_false]
          exact ih _
        · simp only [hr2, ne_eq, not_false_eq_true, if_true, Option.map_some']
    · simp only [hr, ne_eq, not_false_eq_true, if_true, Option.map_some']

/-- One round of the `while` loop of `skip_map` from two readers that, after the
head of the block, hold the same bytes `d` positions apart. -/
theorem skip_map_blocks_step_shift (d : Nat)
    (skip_data : avro_schema_t → avro_reader_t → Option (Int × avro_reader_t))
    (hs : shift_invariant d skip_data) (values : avro_schema_t) (fuel : Nat)
    (ih : ∀ (c : Int) (reader : avro_reader_t),
      skip_map_blocks avro_binary_encoding skip_data values fuel c (shift_reader d reader) =
        (skip_map_blocks avro_binary_encoding skip_data values fuel c reader).map
          (fun x => (x.1, shift_reader d x.2)))
    (c : Int) (reader reader' reader1 : avro_reader_t) (rval0 count : Int)
    (hrb : read_block_size avro_binary_encoding c reader = (rval0, count, reader1))
    (hrb' : read_block_size avro_binary_encoding c reader' =
      (rval0, count, shift_reader d reader1)) :
    skip_map_blocks avro_binary_encoding skip_data values (fuel + 1) c reader' =
      (skip_map_blocks avro_binary_encoding skip_data values (fuel + 1) c reader).map
        (fun x => (x.1, shift_reader d x.2)) := by
  unfold skip_map_blocks
  by_cases hc : c = 0
  · subst hc
    simp only [read_block_size, lt_self_iff_false, if_false, Prod.mk.injEq] at hrb hrb'
    obtain ⟨_, _, rfl⟩ := hrb
    obtain ⟨_, _, rfl⟩ := hrb'
    rfl
  · simp only [hc, if_false, hrb, hrb']
    by_cases h0 : rval0 = 0
    · simp only [h0, ne_eq, not_true_eq_false, if_false]
      rw [skip_map_items_shift d skip_data hs values]
      cases hit : skip_map_items avro_binary_encoding skip_data values count.toNat reader1 with
      | none => rfl
      | some x =>
        obtain ⟨rval, reader2⟩ := x
        simp only [Option.map_some']
        by_cases hr : rval = 0
        · simp only [hr, ne_eq, not_true_eq_false, if_false, read_long_binary, read_long_shift]
          rcases hrl : read_long reader2 with ⟨rval3, next_count, reader3⟩
          simp only
          by_cases h3 : rval3 = 0
          · simp only [h3, not_true_eq_false, if_false]
            exact ih _ _
          · simp only [h3, not_false_eq_true, if_true, Option.map_some']
        · simp only [hr, ne_eq, not_false_eq_true, if_true, Option.map_some']
    · simp only [h0, ne_eq, not_false_eq_true, if_true, Option.map_some']

theorem skip_map_blocks_shift (d : Nat)
    (skip_data : avro_schema_t → avro_reader_t → Option (Int × avro_reader_t))
    (hs : shift_invariant d skip_data) (values : avro_schema_t) :
    ∀ (fuel : Nat) (c : Int) (reader : avro_reader_t),
      skip_map_blocks avro_binary_encoding skip_data values fuel c (shift_reader d reader) =
        (skip_map_blocks avro_binary_encoding skip_data values fuel c reader).map
          (fun x => (x.1, shift_reader d x.2)) := by
  intro fuel
  induction fuel with
  | zero =>
    intro c reader
    unfold skip_map_blocks
    by_cases hc : c = 0 <;> simp [hc]
  | succ fuel ih =>
    intro c reader
    exact skip_map_blocks_step_shift d skip_data hs values fuel ih c reader
      (shift_reader d reader) _ _ _ rfl (read_block_size_shift d c reader)

theorem skip_map_shift (d : Nat)
    (skip_data : avro_schema_t → avro_reader_t → Option (Int × avro_reader_t))
    (hs : shift_invariant d skip_data) (values : avro_schema_t) (fuel : Nat)
    (reader : avro_reader_t) :
    skip_map avro_binary_encoding skip_data fuel values (shift_reader d reader) =
      (skip_map avro_binary_encoding skip_data fuel values reader).map
        (fun x => (x.1, shift_reader d x.2)) := by
  unfold skip_map
  simp only [read_long_binary, read_long_shift]
  rcases hrl : read_long reader with ⟨rval, block_count, reader1⟩
  simp only
  by_cases hr : rval = 0
  · simp only [hr, ne_eq, not_true_eq_false, if_false]
    exact skip_map_blocks_shift d skip_data hs values _ _ _
  · simp only [hr, ne_eq, not_false_eq_true, if_true, Option.map_some']

theorem skip_union_shift (d : Nat)
    (skip_data : avro_schema_t → avro_reader_t → Option (Int × avro_reader_t))
    (hs : shift_invariant d skip_data) (branches : List avro_schema_t)
    (reader : avro_reader_t) :
    skip_union avro_binary_encoding skip_data branches (shift_reader d reader) =
      (skip_union avro_binary_encoding skip_data branches reader).map
        (fun x => (x.1, shift_reader d x.2)) := by
  unfold skip_union
  simp only [read_long_binary, read_long_shift]
  rcases hrl : read_long reader with ⟨rval, index, reader1⟩
  simp only
  by_cases hr : rval = 0
  · simp only [hr, ne_eq, not_true_eq_false, if_false]
    cases avro_schema_union_branch branches index with
    | none => rfl
    | some branch => exact hs branch reader1
  · simp only [hr, ne_eq, not_false_eq_true, if_true, Option.map_some']

theorem skip_record_shift (d : Nat)
    (skip_data : avro_schema_t → avro_reader_t → Option (Int × avro_reader_t))
    (hs : shift_invariant d skip_data)
    (map_data : avro_schema_t → avro_reader_t → Option avro_datum_t →
      Option (Int × avro_reader_t × Option avro_datum_t)) :
    ∀ (fields : List (String × avro_schema_t)) (reader : avro_reader_t),
      skip_record skip_data map_data fields (shift_reader d reader) none =
        (skip_record skip_data map_data fields reader none).map
          (fun x => (x.1, shift_reader d x.2.1, x.2.2)) := by
  intro fields
  induction fields with
  | nil => intro reader; rfl
  | cons f fields ih =>
    intro reader
    obtain ⟨field_name, field_schema⟩ := f
    simp only [skip_record]
    rw [hs field_schema reader]
    cases hsk : skip_data field_schema reader with
    | none => rfl
    | some x =>
      obtain ⟨rval, reader1⟩ := x
      simp only [Option.map_some']
      by_cases hr : rval = 0
      · simp only [hr, ne_eq, not_true_eq_false, if_false]
        exact ih _
      · simp only [hr, ne_eq, not_false_eq_true, if_true, Option.map_some']

theorem shift_offsets_from_none (d k : Nat) : shift_offsets_from d k none = none := rfl

/-- Moving the reader along the stream changes nothing in what `avro_skip_data`
does, except that the reader it leaves is moved by as much. -/
theorem avro_skip_data_shift (env : Nat → avro_schema_t) (d : Nat) :
    ∀ (fuel : Nat), shift_invariant d (avro_skip_data env fuel) := by
  intro fuel
  induction fuel with
  | zero => intro s reader; rfl
  | succ fuel ih =>
    intro s reader
    cases s with
    | null => rfl
    | boolean => simp only [avro_skip_data, avro_binary_encoding, avro_skip_shift, Option.map_some']
    | string => simp only [avro_skip_data, avro_binary_encoding, skip_bytes_shift, Option.map_some']
    | int32 => simp only [avro_skip_data, avro_binary_encoding, skip_long_shift, Option.map_some']
    | int64 => simp only [avro_skip_data, avro_binary_encoding, skip_long_shift, Option.map_some']
    | float => simp only [avro_skip_data, avro_binary_encoding, avro_skip_shift, Option.map_some']
    | double => simp only [avro_skip_data, avro_binary_encoding, avro_skip_shift, Option.map_some']
    | bytes => simp only [avro_skip_data, avro_binary_encoding, skip_bytes_shift, Option.map_some']
    | fixed size => simp only [avro_skip_data, avro_skip_shift, Option.map_some']
    | enum symbols =>
      simp only [avro_skip_data, avro_binary_encoding, skip_long_shift, Option.map_some']
    | array items =>
      have h := skip_array_shift d 0 (avro_skip_data env fuel) ih items fuel reader none trivial
      rw [shift_offsets_from_none] at h
      simp only [avro_skip_data, h, drop_datum, Option.map_map]
      rfl
    | map values =>
      simp only [avro_skip_data]
      exact skip_map_shift d _ ih values fuel reader
    | union branches =>
      simp only [avro_skip_data]
      exact skip_union_shift d _ ih branches reader
    | record fields =>
      simp only [avro_skip_data, skip_record_shift d _ ih, drop_datum, Option.map_map]
      rfl
    | link target =>
      simp only [avro_skip_data]
      exact ih (env target) reader

/-! ## The record index when no field is named like the offset entry -/

theorem record_put_fresh (fields : List (String × avro_datum_t)) (name : String)
    (value : avro_datum_t) (h : name ∉ fields.map Prod.fst) :
    record_put fields name value = fields ++ [(name, value)] := by
  induction fields with
  | nil => rfl
  | cons kv rest ih =>
    obtain ⟨k, v⟩ := kv
    simp only [List.map_cons, List.mem_cons, not_or] at h
    have hk : ¬ k = name := fun e => h.1 e.symm
    simp only [record_put, hk, if_false, List.cons_append, ih h.2]

/-- The loop of `skip_record` with a mapped record, when the entries to attach
have pairwise distinct names that the record does not hold yet: the entries are
added at the end, in field order. -/
theorem skip_record_entries
    (skip_data : avro_schema_t → avro_reader_t → Option (Int × avro_reader_t))
    (map_data : avro_schema_t → avro_reader_t → Option avro_datum_t →
      Option (Int × avro_reader_t × Option avro_datum_t))
    (fields : List (String × avro_schema_t)) (reader reader1 : avro_reader_t)
    (entries : List (String × avro_datum_t))
    (h : field_entries map_data fields reader entries reader1) :
    ∀ (names : List String) (present : List (String × avro_datum_t)),
      (entries.map Prod.fst).Nodup →
      (∀ e ∈ entries, e.1 ∉ present.map Prod.fst) →
      skip_record skip_data map_data fields reader (some (avro_datum_t.record names present)) =
        some (0, reader1, some (avro_datum_t.record (names ++ entries.map Prod.fst)
          (present ++ entries))) := by
  induction h with
  | done reader =>
    intro names present _ _
    simp [skip_record]
  | indexed field_name field_schema fields reader reader1 reader2 node entries hmap _ ih =>
    intro names present hnd hfresh
    simp only [List.map_cons, List.nodup_cons] at hnd
    have hf := hfresh (field_name, node) (List.mem_cons_self _ _)
    have ih2 := ih (names ++ [field_name]) (present ++ [(field_name, node)]) hnd.2
      (by
        intro e he hmem
        simp only [List.map_append, List.map_cons, List.map_nil, List.mem_append,
          List.mem_singleton] at hmem
        rcases hmem with hmem | hmem
        · exact hfresh e (List.mem_cons_of_mem _ he) hmem
        · exact hnd.1 (hmem ▸ List.mem_map_of_mem Prod.fst he))
    simp only [skip_record, hmap, ne_eq, not_true_eq_false, if_false,
      avro_schema_record_field_append, avro_record_set, record_put_fresh present field_name node hf,
      ih2, List.map_cons, List.append_assoc, List.singleton_append]
  | plain field_name field_schema fields reader reader1 reader2 entries hmap _ ih =>
    intro names present hnd hfresh
    simp only [skip_record, hmap, ne_eq, not_true_eq_false, if_false, ih names present hnd hfresh]

/-- The record index when the fields that get an entry have pairwise distinct
names, none of them `"__offset"`: the offset entry holds the position at which
`avro_map_data` was called, and the field entries follow it in field order. -/
theorem avro_map_data_record_entries (env : Nat → avro_schema_t) (fuel : Nat)
    (fields : List (String × avro_schema_t)) (reader reader1 : avro_reader_t)
    (entries : List (String × avro_datum_t)) (md0 : Option avro_datum_t)
    (h : field_entries (avro_map_data env fuel) fields reader entries reader1)
    (hnd : (entries.map Prod.fst).Nodup) (hoff : "__offset" ∉ entries.map Prod.fst) :
    avro_map_data env (fuel + 1) (avro_schema_t.record fields) reader md0 =
      some (0, reader1, some (avro_datum_t.record ("__offset" :: entries.map Prod.fst)
        (("__offset", avro_int64 (avro_reader_file_ftell reader)) :: entries))) := by
  have hs := skip_record_entries (avro_skip_data env fuel) (avro_map_data env fuel) fields reader
    reader1 entries h ["__offset"] [("__offset", avro_int64 (avro_reader_file_ftell reader))]
    hnd
    (by
      intro e he hmem
      simp only [List.map_cons, List.map_nil, List.mem_singleton] at hmem
      exact hoff (hmem ▸ List.mem_map_of_mem Prod.fst he))
  simp only [avro_map_data, avro_schema_record_field_append, avro_record, avro_record_set,
    record_put, ne_eq, not_true_eq_false, if_false, List.nil_append]
  exact hs

/-! ## The reader only moves forward -/

theorem advanced_refl (reader : avro_reader_t) : advanced reader reader :=
  ⟨0, Nat.zero_le _, by simp⟩

theorem advanced_trans {a b c : avro_reader_t} (h1 : advanced a b) (h2 : advanced b c) :
    advanced a c := by
  obtain ⟨k1, hk1, rfl⟩ := h1
  obtain ⟨k2, hk2, rfl⟩ := h2
  simp only [List.length_drop] at hk2
  exact ⟨k1 + k2, by omega, by simp [List.drop_drop, Nat.add_assoc, Nat.add_comm k2 k1]⟩

theorem advanced_pos {a b : avro_reader_t} (h : advanced a b) : a.pos ≤ b.pos := by
  obtain ⟨k, _, rfl⟩ := h
  exact Nat.le_add_right _ _

theorem advanced_length {a b : avro_reader_t} (h : advanced a b) :
    b.rest.length ≤ a.rest.length := by
  obtain ⟨k, _, rfl⟩ := h
  simp

theorem advanced_one (p : Nat) (b : Nat) (bs : List Nat) : advanced ⟨p, b :: bs⟩ ⟨p + 1, bs⟩ :=
  ⟨1, by simp, by simp⟩

theorem read_varint_advanced : ∀ (left offset value : Nat) (reader : avro_reader_t),
    advanced reader (read_varint left offset value reader).2.2 ∧
      ((read_varint left offset value reader).1 = 0 →
        (read_varint left offset value reader).2.2.rest.length < reader.rest.length) := by
  intro left
  induction left with
  | zero =>
    intro offset value reader
    exact ⟨advanced_refl _, fun h => by simp [read_varint, EILSEQ] at h⟩
  | succ left ih =>
    intro offset value reader
    obtain ⟨p, rest⟩ := reader
    cases rest with
    | nil => exact ⟨advanced_refl _, fun h => by simp [read_varint, ENOSPC] at h⟩
    | cons b bs =>
      simp only [read_varint]
      by_cases hb : b / 128 % 2 = 1
      · simp only [hb, if_true]
        obtain ⟨h1, h2⟩ := ih (offset + 1) (value + b % 128 * 128 ^ offset) ⟨p + 1, bs⟩
        refine ⟨advanced_trans (advanced_one p b bs) h1, fun h => ?_⟩
        have := h2 h
        simp only [List.length_cons] at this ⊢
        omega
      · simp only [hb, if_false]
        exact ⟨advanced_one p b bs, fun _ => by simp⟩

theorem read_long_advanced (reader : avro_reader_t) :
    advanced reader (read_long reader).2.2 ∧
      ((read_long reader).1 = 0 → (read_long reader).2.2.rest.length < reader.rest.length) := by
  simp only [read_long]
  exact read_varint_advanced 10 0 0 reader

theorem skip_long_advanced (reader : avro_reader_t) : advanced reader (skip_long reader).2 := by
  simp only [skip_long]
  exact (read_varint_advanced 10 0 0 reader).1

theorem avro_skip_advanced (reader : avro_reader_t) (len : Nat) :
    advanced reader (avro_skip reader len).2 := by
  simp only [avro_skip]
  split
  · exact advanced_refl _
  · exact ⟨len, by omega, rfl⟩

theorem skip_bytes_advanced (reader : avro_reader_t) : advanced reader (skip_bytes reader).2 := by
  simp only [skip_bytes]
  have h := (read_long_advanced reader).1
  split
  · exact h
  · split
    · exact h
    · exact advanced_trans h (avro_skip_advanced _ _)

theorem read_block_size_advanced (c : Int) (reader : avro_reader_t) :
    advanced reader (read_block_size avro_binary_encoding c reader).2.2 := by
  simp only [read_block_size, read_long_binary]
  split
  · exact (read_long_advanced reader).1
  · exact advanced_refl _

/-- The `for` loop of `skip_array` moves the reader forward and keeps what
holds of the reader and the mapped datum, provided appending a position and
moving the reader forward keep it. -/
theorem skip_array_items_track (P : avro_reader_t → Option avro_datum_t → Prop)
    (happ : ∀ cond reader md, P reader md → P reader (append_position cond reader md).2)
    (hadv : ∀ reader reader1 md, P reader md → advanced reader reader1 → P reader1 md)
    (skip_data : avro_schema_t → avro_reader_t → Option (Int × avro_reader_t))
    (items : avro_schema_t)
    (hs : ∀ reader res, skip_data items reader = some res → advanced reader res.2) :
    ∀ (n : Nat) (i : Int) (reader : avro_reader_t) (md : Option avro_datum_t)
      (res : Int × avro_reader_t × Option avro_datum_t), P reader md →
      skip_array_items skip_data items n i reader md = some res →
      advanced reader res.2.1 ∧ P res.2.1 res.2.2 := by
  intro n
  induction n with
  | zero =>
    intro i reader md res hmd h
    simp only [skip_array_items, Option.some.injEq] at h
    subst h; exact ⟨advanced_refl _, hmd⟩
  | succ n ih =>
    intro i reader md res hmd h
    unfold skip_array_items at h
    have hap := happ (decide (i.tmod DEFAULT_CHUNK_SIZE = 0)) reader md hmd
    rcases happ' : append_position (decide (i.tmod DEFAULT_CHUNK_SIZE = 0)) reader md
      with ⟨rval0, mapped1⟩
    rw [happ'] at h hap
    simp only at h hap
    by_cases h0 : rval0 = 0
    · simp only [h0, ne_eq, not_true_eq_false, if_false] at h
      cases hsk : skip_data items reader with
      | none => simp [hsk] at h
      | some x =>
        obtain ⟨rval, reader1⟩ := x
        have had := hs reader _ hsk
        simp only [hsk] at h had
        by_cases hr : rval = 0
        · simp only [hr, ne_eq, not_true_eq_false, if_false] at h
          obtain ⟨h1, h2⟩ := ih _ _ _ _ (hadv _ _ _ hap had) h
          exact ⟨advanced_trans had h1, h2⟩
        · simp only [hr, ne_eq, not_false_eq_true, if_true, Option.some.injEq] at h
          subst h; exact ⟨had, hadv _ _ _ hap had⟩
    · simp only [h0, ne_eq, not_false_eq_true, if_true, Option.some.injEq] at h
      subst h; exact ⟨advanced_refl _, hap⟩

/-- The `while` loop of `skip_array` moves the reader forward and keeps what
holds of the reader and the mapped datum. -/
theorem skip_array_blocks_track (P : avro_reader_t → Option avro_datum_t → Prop)
    (happ : ∀ cond reader md, P reader md → P reader (append_position cond reader md).2)
    (hadv : ∀ reader reader1 md, P reader md → advanced reader reader1 → P reader1 md)
    (skip_data : avro_schema_t → avro_reader_t → Option (Int × avro_reader_t))
    (items : avro_schema_t)
    (hs : ∀ reader res, skip_data items reader = some res → advanced reader res.2) :
    ∀ (fuel : Nat) (c : Int) (reader : avro_reader_t) (md : Option avro_datum_t)
      (res : Int × avro_reader_t × Option avro_datum_t), P reader md →
      skip_array_blocks avro_binary_encoding skip_data items fuel c reader md = some res →
      advanced reader res.2.1 ∧ P res.2.1 res.2.2 := by
  intro fuel
  induction fuel with
  | zero =>
    intro c reader md res hmd h
    unfold skip_array_blocks at h
    by_cases hc : c = 0
    · simp only [hc, if_true, Option.some.injEq] at h
      subst h; exact ⟨advanced_refl _, hmd⟩
    · simp [hc] at h
  | succ fuel ih =>
    intro c reader md res hmd h
    unfold skip_array_blocks at h
    by_cases hc : c = 0
    · simp only [hc, if_true, Option.some.injEq] at h
      subst h; exact ⟨advanced_refl _, hmd⟩
    · simp only [hc, if_false] at h
      have hrba := read_block_size_advanced c reader
      rcases hrb : read_block_size avro_binary_encoding c reader with ⟨rval0, count, reader1⟩
      rw [hrb] at h hrba
      simp only at h hrba
      have hP1 := hadv _ _ _ hmd hrba
      by_cases h0 : rval0 = 0
      · simp only [h0, ne_eq, not_true_eq_false, if_false] at h
        cases hit : skip_array_items skip_data items count.toNat 0 reader1 md with
        | none => simp [hit] at h
        | some x =>
          obtain ⟨rval, reader2, mapped2⟩ := x
          obtain ⟨ha2, hP2⟩ := skip_array_items_track P happ hadv skip_data items hs _ _ _ _ _
            hP1 hit
          simp only [hit] at h ha2 hP2
          by_cases hr : rval = 0
          · simp only [hr, ne_eq, not_true_eq_false, if_false] at h
            have hP3 := happ (decide (count.tmod DEFAULT_CHUNK_SIZE ≠ 0)) reader2 mapped2 hP2
            rcases happ' : append_position (decide (count.tmod DEFAULT_CHUNK_SIZE ≠ 0)) reader2
              mapped2 with ⟨rval1, mapped3⟩
            rw [happ'] at hP3
            simp only [ne_eq] at happ'
            simp only [happ'] at h hP3
            by_cases h1 : rval1 = 0
            · simp only [h1, not_true_eq_false, if_false, read_long_binary] at h
              have hrla := (read_long_advanced reader2).1
              rcases hrl : read_long reader2 with ⟨rval3, next_count, reader3⟩
              rw [hrl] at h hrla
              simp only at h hrla
              by_cases h3 : rval3 = 0
              · simp only [h3, not_true_eq_false, if_false] at h
                obtain ⟨ha4, hP4⟩ := ih _ _ _ _ (hadv _ _ _ hP3 hrla) h
                exact ⟨advanced_trans hrba (advanced_trans ha2 (advanced_trans hrla ha4)), hP4⟩
              · simp only [h3, not_false_eq_true, if_true, Option.some.injEq] at h
                subst h
                exact ⟨advanced_trans hrba (advanced_trans ha2 hrla), hadv _ _ _ hP3 hrla⟩
            · simp only [h1, not_false_eq_true, if_true, Option.some.injEq] at h
              subst h; exact ⟨advanced_trans hrba ha2, hP3⟩
          · simp only [hr, ne_eq, not_false_eq_true, if_true, Option.some.injEq] at h
            subst h; exact ⟨advanced_trans hrba ha2, hP2⟩
      · simp only [h0, ne_eq, not_false_eq_true, if_true, Option.some.injEq] at h
        subst h; exact ⟨hrba, hP1⟩

theorem skip_array_track (P : avro_reader_t → Option avro_datum_t → Prop)
    (happ : ∀ cond reader md, P reader md → P reader (append_position cond reader md).2)
    (hadv : ∀ reader reader1 md, P reader md → advanced reader reader1 → P reader1 md)
    (skip_data : avro_schema_t → avro_reader_t → Option (Int × avro_reader_t))
    (items : avro_schema_t)
    (hs : ∀ reader res, skip_data items reader = some res → advanced reader res.2)
    (fuel : Nat) (reader : avro_reader_t) (md : Option avro_datum_t)
    (res : Int × avro_reader_t × Option avro_datum_t) (hmd : P reader md)
    (h : skip_array avro_binary_encoding skip_data fuel items reader md = some res) :
    advanced reader res.2.1 ∧ P res.2.1 res.2.2 := by
  unfold skip_array at h
  simp only [read_long_binary] at h
  have hrla := (read_long_advanced reader).1
  rcases hrl : read_long reader with ⟨rval, block_count, reader1⟩
  rw [hrl] at h hrla
  simp only at h hrla
  by_cases hr : rval = 0
  · simp only [hr, ne_eq, not_true_eq_false, if_false] at h
    obtain ⟨h1, h2⟩ := skip_array_blocks_track P happ hadv skip_data items hs _ _ _ _ _
      (hadv _ _ _ hmd hrla) h
    exact ⟨advanced_trans hrla h1, h2⟩
  · simp only [hr, ne_eq, not_false_eq_true, if_true, Option.some.injEq] at h
    subst h; exact ⟨hrla, hadv _ _ _ hmd hrla⟩

theorem skip_map_items_advanced
    (skip_data : avro_schema_t → avro_reader_t → Option (Int × avro_reader_t))
    (values : avro_schema_t)
    (hs : ∀ reader res, skip_data values reader = some res → advanced reader res.2) :
    ∀ (n : Nat) (reader : avro_reader_t) (res : Int × avro_reader_t),
      skip_map_items avro_binary_encoding skip_data values n reader = some res →
      advanced reader res.2 := by
  intro n
  induction n with
  | zero =>
    intro reader res h
    simp only [skip_map_items, Option.some.injEq] at h
    subst h; exact advanced_refl _
  | succ n ih =>
    intro reader res h
    unfold skip_map_items at h
    simp only [skip_string_binary] at h
    have hka := skip_bytes_advanced reader
    rcases hk : skip_bytes reader with ⟨rval, reader1⟩
    rw [hk] at h hka
    simp only at h hka
    by_cases hr : rval = 0
    · simp only [hr, ne_eq, not_true_eq_false, if_false] at h
      cases hsk : skip_data values reader1 with
      | none => simp [hsk] at h
      | some x =>
        obtain ⟨rval2, reader2⟩ := x
        have had := hs reader1 _ hsk
        simp only [hsk] at h had
        by_cases hr2 : rval2 = 0
        · simp only [hr2, ne_eq, not_true_eq_false, if_false] at h
          exact advanced_trans hka (advanced_trans had (ih _ _ h))
        · simp only [hr2, ne_eq, not_false_eq_true, if_true, Option.some.injEq] at h
          subst h; exact advanced_trans hka had
    · simp only [hr, ne_eq, not_false_eq_true, if_true, Option.some.injEq] at h
      subst h; exact hka

theorem skip_map_blocks_advanced
    (skip_data : avro_schema_t → avro_reader_t → Option (Int × avro_reader_t))
    (values : avro_schema_t)
    (hs : ∀ reader res, skip_data values reader = some res → advanced reader res.2) :
    ∀ (fuel : Nat) (c : Int) (reader : avro_reader_t) (res : Int × avro_reader_t),
      skip_map_blocks avro_binary_encoding skip_data values fuel c reader = some res →
      advanced reader res.2 := by
  intro fuel
  induction fuel with
  | zero =>
    intro c reader res h
    unfold skip_map_blocks at h
    by_cases hc : c = 0
    · simp only [hc, if_true, Option.some.injEq] at h
      subst h; exact advanced_refl _
    · simp [hc] at h
  | succ fuel ih =>
    intro c reader res h
    unfold skip_map_blocks at h
    by_cases hc : c = 0
    · simp only [hc, if_true, Option.some.injEq] at h
      subst h; exact advanced_refl _
    · simp only [hc, if_false] at h
      have hrba := read_block_size_advanced c reader
      rcases hrb : read_block_size avro_binary_encoding c reader with ⟨rval0, count, reader1⟩
      rw [hrb] at h hrba
      simp only at h hrba
      by_cases h0 : rval0 = 0
      · simp only [h0, ne_eq, not_true_eq_false, if_false] at h
        cases hit : skip_map_items avro_binary_encoding skip_data values count.toNat reader1 with
        | none => simp [hit] at h
        | some x =>
          obtain ⟨rval, reader2⟩ := x
          have ha2 := skip_map_items_advanced skip_data values hs _ _ _ hit
          simp only [hit] at h ha2
          by_cases hr : rval = 0
          · simp only [hr, ne_eq, not_true_eq_false, if_false, read_long_binary] at h
            have hrla := (read_long_advanced reader2).1
            rcases hrl : read_long reader2 with ⟨rval3, next_count, reader3⟩
            rw [hrl] at h hrla
            simp only at h hrla
            by_cases h3 : rval3 = 0
            · simp only [h3, not_true_eq_false, if_false] at h
              exact advanced_trans hrba (advanced_trans ha2 (advanced_trans hrla (ih _ _ _ h)))
            · simp only [h3, not_false_eq_true, if_true, Option.some.injEq] at h
              subst h
              exact advanced_trans hrba (advanced_trans ha2 hrla)
          · simp only [hr, ne_eq, not_false_eq_true, if_true, Option.some.injEq] at h
            subst h; exact advanced_trans hrba ha2
      · simp only [h0, ne_eq, not_false_eq_true, if_true, Option.some.injEq] at h
        subst h; exact hrba

theorem skip_map_advanced
    (skip_data : avro_schema_t → avro_reader_t → Option (Int × avro_reader_t))
    (values : avro_schema_t)
    (hs : ∀ reader res, skip_data values reader = some res → advanced reader res.2)
    (fuel : Nat) (reader : avro_reader_t) (res : Int × avro_reader_t)
    (h : skip_map avro_binary_encoding skip_data fuel values reader = some res) :
    advanced reader res.2 := by
  unfold skip_map at h
  simp only [read_long_binary] at h
  have hrla := (read_long_advanced reader).1
  rcases hrl : read_long reader with ⟨rval, block_count, reader1⟩
  rw [hrl] at h hrla
  simp only at h hrla
  by_cases hr : rval = 0
  · simp only [hr, ne_eq, not_true_eq_false, if_false] at h
    exact advanced_trans hrla (skip_map_blocks_advanced skip_data values hs _ _ _ _ h)
  · simp only [hr, ne_eq, not_false_eq_true, if_true, Option.some.injEq] at h
    subst h; exact hrla

theorem skip_union_advanced
    (skip_data : avro_schema_t → avro_reader_t → Option (Int × avro_reader_t))
    (hs : ∀ s reader res, skip_data s reader = some res → advanced reader res.2)
    (branches : List avro_schema_t) (reader : avro_reader_t) (res : Int × avro_reader_t)
    (h : skip_union avro_binary_encoding skip_data branches reader = some res) :
    advanced reader res.2 := by
  unfold skip_union at h
  simp only [read_long_binary] at h
  have hrla := (read_long_advanced reader).1
  rcases hrl : read_long reader with ⟨rval, index, reader1⟩
  rw [hrl] at h hrla
  simp only at h hrla
  by_cases hr : rval = 0
  · simp only [hr, ne_eq, not_true_eq_false, if_false] at h
    cases hb : avro_schema_union_branch branches index with
    | none =>
      simp only [hb, Option.some.injEq] at h
      subst h; exact hrla
    | some branch =>
      simp only [hb] at h
      exact advanced_trans hrla (hs _ _ _ h)
  · simp only [hr, ne_eq, not_false_eq_true, if_true, Option.some.injEq] at h
    subst h; exact hrla

theorem skip_record_advanced
    (skip_data : avro_schema_t → avro_reader_t → Option (Int × avro_reader_t))
    (map_data : avro_schema_t → avro_reader_t → Option avro_datum_t →
      Option (Int × avro_reader_t × Option avro_datum_t))
    (hs : ∀ s reader res, skip_data s reader = some res → advanced reader res.2)
    (hm : ∀ s reader md res, map_data s reader md = some res → advanced reader res.2.1) :
    ∀ (fields : List (String × avro_schema_t)) (reader : avro_reader_t)
      (md : Option avro_datum_t) (res : Int × avro_reader_t × Option avro_datum_t),
      skip_record skip_data map_data fields reader md = some res →
      advanced reader res.2.1 := by
  intro fields
  induction fields with
  | nil =>
    intro reader md res h
    simp only [skip_record, Option.some.injEq] at h
    subst h; exact advanced_refl _
  | cons f fields ih =>
    intro reader md res h
    obtain ⟨field_name, field_schema⟩ := f
    cases md with
    | none =>
      simp only [skip_record] at h
      cases hsk : skip_data field_schema reader with
      | none => simp [hsk] at h
      | some x =>
        obtain ⟨rval, reader1⟩ := x
        have had := hs _ _ _ hsk
        simp only [hsk] at h had
        by_cases hr : rval = 0
        · simp only [hr, ne_eq, not_true_eq_false, if_false] at h
          exact advanced_trans had (ih _ _ _ h)
        · simp only [hr, ne_eq, not_false_eq_true, if_true, Option.some.injEq] at h
          subst h; exact had
    | some datum =>
      simp only [skip_record] at h
      cases hsk : map_data field_schema reader none with
      | none => simp [hsk] at h
      | some x =>
        obtain ⟨rval, reader1, mfd⟩ := x
        have had := hm _ _ _ _ hsk
        simp only [hsk] at h had
        by_cases hr : rval = 0
        · simp only [hr, ne_eq, not_true_eq_false, if_false] at h
          cases mfd with
          | none => exact advanced_trans had (ih _ _ _ h)
          | some fd =>
            simp only at h
            by_cases h1 : (avro_schema_record_field_append datum field_name).1 = 0
            · simp only [h1, not_true_eq_false, if_false] at h
              by_cases h2 : (avro_record_set (avro_schema_record_field_append datum
                  field_name).2 field_name fd).1 = 0
              · simp only [h2, not_true_eq_false, if_false] at h
                exact advanced_trans had (ih _ _ _ h)
              · simp only [h2, not_false_eq_true, if_true, Option.some.injEq] at h
                subst h; exact had
            · simp only [h1, not_false_eq_true, if_true, Option.some.injEq] at h
              subst h; exact had
        · simp only [hr, ne_eq, not_false_eq_true, if_true, Option.some.injEq] at h
          subst h; exact had

/-- Whatever their status, `avro_skip_data` and `avro_map_data` leave the reader
further along the same stream: the position does not decrease, and what remains
is what remained before without the bytes consumed. -/
theorem avro_data_advanced (env : Nat → avro_schema_t) : ∀ (fuel : Nat),
    (∀ s reader res, avro_skip_data env fuel s reader = some res → advanced reader res.2) ∧
    (∀ s reader md res, avro_map_data env fuel s reader md = some res →
      advanced reader res.2.1) := by
  intro fuel
  induction fuel with
  | zero =>
    exact ⟨fun s reader res h => by simp [avro_skip_data] at h,
      fun s reader md res h => by simp [avro_map_data] at h⟩
  | succ fuel ih =>
    obtain ⟨ihs, ihm⟩ := ih
    have hskip : ∀ s reader res, avro_skip_data env (fuel + 1) s reader = some res →
        advanced reader res.2 := by
      intro s reader res h
      cases s with
      | null =>
        simp only [avro_skip_data, avro_binary_encoding, Option.some.injEq] at h
        subst h; exact advanced_refl _
      | boolean =>
        simp only [avro_skip_data, avro_binary_encoding, Option.some.injEq] at h
        subst h; exact avro_skip_advanced _ _
      | string =>
        simp only [avro_skip_data, avro_binary_encoding, Option.some.injEq] at h
        subst h; exact skip_bytes_advanced _
      | int32 =>
        simp only [avro_skip_data, avro_binary_encoding, Option.some.injEq] at h
        subst h; exact skip_long_advanced _
      | int64 =>
        simp only [avro_skip_data, avro_binary_encoding, Option.some.injEq] at h
        subst h; exact skip_long_advanced _
      | float =>
        simp only [avro_skip_data, avro_binary_encoding, Option.some.injEq] at h
        subst h; exact avro_skip_advanced _ _
      | double =>
        simp only [avro_skip_data, avro_binary_encoding, Option.some.injEq] at h
        subst h; exact avro_skip_advanced _ _
      | bytes =>
        simp only [avro_skip_data, avro_binary_encoding, Option.some.injEq] at h
        subst h; exact skip_bytes_advanced _
      | fixed size =>
        simp only [avro_skip_data, Option.some.injEq] at h
        subst h; exact avro_skip_advanced _ _
      | enum symbols =>
        simp only [avro_skip_data, avro_binary_encoding, Option.some.injEq] at h
        subst h; exact skip_long_advanced _
      | array items =>
        simp only [avro_skip_data, drop_datum] at h
        cases hx : skip_array avro_binary_encoding (avro_skip_data env fuel) fuel items reader
          none with
        | none => simp [hx] at h
        | some x =>
          simp only [hx, Option.map_some', Option.some.injEq] at h
          subst h
          exact (skip_array_track (fun _ _ => True) (fun _ _ _ _ => trivial)
            (fun _ _ _ _ _ => trivial) _ items (fun r res hr => ihs items r res hr) fuel reader
            none x trivial hx).1
      | map values =>
        simp only [avro_skip_data] at h
        exact skip_map_advanced _ values (fun r res hr => ihs values r res hr) fuel reader res h
      | union branches =>
        simp only [avro_skip_data] at h
        exact skip_union_advanced _ ihs branches reader res h
      | record fields =>
        simp only [avro_skip_data, drop_datum] at h
        cases hx : skip_record (avro_skip_data env fuel) (avro_map_data env fuel) fields reader
          none with
        | none => simp [hx] at h
        | some x =>
          simp only [hx, Option.map_some', Option.some.injEq] at h
          subst h
          exact skip_record_advanced _ _ ihs ihm fields reader none x hx
      | link target =>
        simp only [avro_skip_data] at h
        exact ihs _ _ _ h
    refine ⟨hskip, ?_⟩
    intro s reader md res h
    cases s with
    | array items =>
      simp only [avro_map_data] at h
      exact (skip_array_track (fun _ _ => True) (fun _ _ _ _ => trivial)
        (fun _ _ _ _ _ => trivial) _ items (fun r res hr => ihs items r res hr) fuel reader
        _ res trivial h).1
    | record fields =>
      simp only [avro_map_data, avro_schema_record_field_append, avro_record_set, avro_record,
        ne_eq, not_true_eq_false, if_false] at h
      exact skip_record_advanced _ _ ihs ihm fields reader _ res h
    | _ =>
      simp only [avro_map_data] at h
      split at h
      · exact absurd h (by simp)
      · rename_i rval reader1 hsk
        simp only [Option.some.injEq] at h
        subst h
        exact ihs _ _ _ hsk
/-! ## The array index on any input and on valid encodings -/

theorem offsets_ordered_append (start : Nat) (cond : Bool) (reader : avro_reader_t)
    (md : Option avro_datum_t) (h : offsets_ordered start reader md) :
    offsets_ordered start reader (append_position cond reader md).2 := by
  obtain ⟨hs, ms, rfl, hp, hr⟩ := h
  cases cond
  · exact ⟨hs, ms, rfl, hp, hr⟩
  · refine ⟨hs, ms ++ [reader.pos], ?_, ?_, ?_⟩
    · simp [append_position, avro_array_append_datum, offset_datum, avro_reader_file_ftell]
    · rw [List.pairwise_append]
      refine ⟨hp, List.pairwise_singleton _ _, ?_⟩
      intro a ha b hb
      rw [List.mem_singleton] at hb
      subst hb
      exact (hr a ha).2
    · intro m hm
      rw [List.mem_append, List.mem_singleton] at hm
      rcases hm with hm | rfl
      · exact hr m hm
      · exact ⟨hs, le_refl _⟩

theorem offsets_ordered_advanced (start : Nat) (reader reader1 : avro_reader_t)
    (md : Option avro_datum_t) (h : offsets_ordered start reader md)
    (ha : advanced reader reader1) : offsets_ordered start reader1 md := by
  obtain ⟨hs, ms, rfl, hp, hr⟩ := h
  have hpos := advanced_pos ha
  exact ⟨le_trans hs hpos, ms, rfl, hp, fun m hm => ⟨(hr m hm).1, le_trans (hr m hm).2 hpos⟩⟩

/-- Whatever the input and the status, `avro_map_data` on an array schema hands
back an array of positions in non-decreasing order, all between the position at
which it was called and the position at which it returns. -/
theorem avro_map_data_array_ordered (env : Nat → avro_schema_t) (fuel : Nat)
    (items : avro_schema_t) (reader : avro_reader_t) (md0 : Option avro_datum_t)
    (res : Int × avro_reader_t × Option avro_datum_t)
    (h : avro_map_data env fuel (avro_schema_t.array items) reader md0 = some res) :
    advanced reader res.2.1 ∧ offsets_ordered reader.pos res.2.1 res.2.2 := by
  cases fuel with
  | zero => simp [avro_map_data] at h
  | succ fuel =>
    simp only [avro_map_data] at h
    exact skip_array_track (offsets_ordered reader.pos)
      (fun cond r md hP => offsets_ordered_append _ cond r md hP)
      (fun r r1 md hP ha => offsets_ordered_advanced _ r r1 md hP ha)
      _ items (fun r res hr => (avro_data_advanced env fuel).1 items r res hr) fuel reader
      _ res ⟨le_refl _, [], rfl, List.Pairwise.nil, fun m hm => absurd hm (List.not_mem_nil m)⟩ h

/-- On a valid encoding of an array, whatever its split into blocks,
`avro_map_data` returns 0, leaves the reader after the encoding and hands back
the offsets of the blocks. -/
theorem avro_map_data_array_encoded (env : Nat → avro_schema_t) (items : avro_schema_t)
    (blocks : List array_block)
    (hok : ∀ b ∈ blocks, block_ok b.size_hint b.elems.length)
    (henc : ∀ b ∈ blocks, ∀ x ∈ b.elems, Encodes env items x.1 x.2) :
    ∃ n, ∀ fuel, n ≤ fuel → ∀ (p : Nat) (R : List Nat) (md0 : Option avro_datum_t),
      avro_map_data env fuel (avro_schema_t.array items)
          ⟨p, encode_array_blocks blocks ++ R⟩ md0 =
        some (0, ⟨p + (encode_array_blocks blocks).length, R⟩,
          some (avro_datum_t.array ((blocks_offsets p blocks).map offset_datum))) := by
  obtain ⟨N, hN⟩ := exists_uniform_fuel blocks
    (fun b fuel => ∀ x ∈ b.elems, consumes env items x.2 fuel)
    (fun b hb => by
      obtain ⟨M, hM⟩ := exists_uniform_fuel b.elems (fun x fuel => consumes env items x.2 fuel)
        (fun x hx => encodes_consumes env items x.1 x.2 (henc b hb x hx))
      exact ⟨M, hM⟩)
  refine ⟨max N blocks.length + 1, fun fuel hf p R md0 => ?_⟩
  obtain ⟨fuel, rfl⟩ : ∃ m, fuel = m + 1 := ⟨fuel - 1, by omega⟩
  have hfN : N ≤ fuel := by have := le_max_left N blocks.length; omega
  have hf1 : blocks.length ≤ fuel := by have := le_max_right N blocks.length; omega
  have hsk := skip_array_encoded (avro_skip_data env fuel) items blocks hok
    (fun b hb x hx p R => (hN fuel hfN b hb x hx p R).1)
    fuel p R (some avro_array) hf1 trivial
  simp only [append_offsets, avro_array, List.nil_append] at hsk
  simp only [avro_map_data, avro_array]
  exact hsk

theorem block_offsets_ne_nil (start : Nat) (lens : List Nat) (h : lens ≠ []) :
    block_offsets start lens ≠ [] := by
  obtain ⟨n, hn⟩ : ∃ n, lens.length = n + 1 :=
    ⟨lens.length - 1, by have := List.length_pos.mpr h; omega⟩
  unfold block_offsets
  rw [hn, List.range_succ_eq_map]
  simp

/-- Blocks that hold at least one element each contribute no offset only when
there is no block. -/
theorem blocks_offsets_eq_nil (p : Nat) (blocks : List array_block)
    (hok : ∀ b ∈ blocks, block_ok b.size_hint b.elems.length)
    (h : blocks_offsets p blocks = []) : blocks = [] := by
  cases blocks with
  | nil => rfl
  | cons b bs =>
    exfalso
    simp only [blocks_offsets, List.append_eq_nil] at h
    refine block_offsets_ne_nil _ (array_block_lens b) ?_ h.1
    have h1 := (hok b (List.mem_cons_self _ _)).1
    intro hl
    have h2 : (array_block_lens b).length = 0 := by rw [hl]; rfl
    simp only [array_block_lens, List.length_map] at h2
    omega
/-! ## More fuel does not change a result -/

theorem skip_array_items_mono
    (skip_data skip_data1 : avro_schema_t → avro_reader_t → Option (Int × avro_reader_t))
    (items : avro_schema_t)
    (hs : ∀ reader res, skip_data items reader = some res → skip_data1 items reader = some res) :
    ∀ (n : Nat) (i : Int) (reader : avro_reader_t) (md : Option avro_datum_t)
      (res : Int × avro_reader_t × Option avro_datum_t),
      skip_array_items skip_data items n i reader md = some res →
      skip_array_items skip_data1 items n i reader md = some res := by
  intro n
  induction n with
  | zero =>
    intro i reader md res h
    simpa only [skip_array_items] using h
  | succ n ih =>
    intro i reader md res h
    unfold skip_array_items at h
    unfold skip_array_items
    rcases happ : append_position (decide (i.tmod DEFAULT_CHUNK_SIZE = 0)) reader md
      with ⟨rval0, mapped1⟩
    rw [happ] at h
    simp only at h ⊢
    by_cases h0 : rval0 = 0
    · simp only [h0, ne_eq, not_true_eq_false, if_false] at h ⊢
      cases hsk : skip_data items reader with
      | none => simp [hsk] at h
      | some x =>
        obtain ⟨rval, reader1⟩ := x
        rw [hs _ _ hsk]
        simp only [hsk] at h ⊢
        by_cases hr : rval = 0
        · simp only [hr, ne_eq, not_true_eq_false, if_false] at h ⊢
          exact ih _ _ _ _ h
        · simpa only [hr, ne_eq, not_false_eq_true, if_true] using h
    · simpa only [h0, ne_eq, not_false_eq_true, if_true] using h

theorem skip_array_blocks_mono (enc : avro_encoding_t)
    (skip_data skip_data1 : avro_schema_t → avro_reader_t → Option (Int × avro_reader_t))
    (items : avro_schema_t)
    (hs : ∀ reader res, skip_data items reader = some res → skip_data1 items reader = some res) :
    ∀ (fuel fuel1 : Nat) (c : Int) (reader : avro_reader_t) (md : Option avro_datum_t)
      (res : Int × avro_reader_t × Option avro_datum_t), fuel ≤ fuel1 →
      skip_array_blocks enc skip_data items fuel c reader md = some res →
      skip_array_blocks enc skip_data1 items fuel1 c reader md = some res := by
  intro fuel
  induction fuel with
  | zero =>
    intro fuel1 c reader md res _ h
    unfold skip_array_blocks at h
    by_cases hc : c = 0
    · simp only [hc, if_true] at h
      cases fuel1 <;> simpa only [skip_array_blocks, hc, if_true] using h
    · simp [hc] at h
  | succ fuel ih =>
    intro fuel1 c reader md res hle h
    obtain ⟨fuel1, rfl⟩ : ∃ m, fuel1 = m + 1 := ⟨fuel1 - 1, by omega⟩
    unfold skip_array_blocks at h
    unfold skip_array_blocks
    by_cases hc : c = 0
    · simpa only [hc, if_true] using h
    · simp only [hc, if_false] at h ⊢
      rcases hrb : read_block_size enc c reader with ⟨rval0, count, reader1⟩
      rw [hrb] at h
      simp only at h ⊢
      by_cases h0 : rval0 = 0
      · simp only [h0, ne_eq, not_true_eq_false, if_false] at h ⊢
        cases hit : skip_array_items skip_data items count.toNat 0 reader1 md with
        | none => simp [hit] at h
        | some x =>
          obtain ⟨rval, reader2, mapped2⟩ := x
          rw [skip_array_items_mono skip_data skip_data1 items hs _ _ _ _ _ hit]
          simp only [hit] at h ⊢
          by_cases hr : rval = 0
          · simp only [hr, ne_eq, not_true_eq_false, if_false] at h ⊢
            rcases hap : append_position (decide (count.tmod DEFAULT_CHUNK_SIZE ≠ 0)) reader2
              mapped2 with ⟨rval1, mapped3⟩
            rw [hap] at h
            simp only at h ⊢
            by_cases h1 : rval1 = 0
            · simp only [h1, ne_eq, not_true_eq_false, if_false] at h ⊢
              by_cases h3 : (enc.read_long reader2).1 = 0
              · simp only [h3, ne_eq, not_true_eq_false, if_false] at h ⊢
                exact ih _ _ _ _ _ (by omega) h
              · simpa only [h3, ne_eq, not_false_eq_true, if_true] using h
            · simpa only [h1, ne_eq, not_false_eq_true, if_true] using h
          · simpa only [hr, ne_eq, not_false_eq_true, if_true] using h
      · simpa only [h0, ne_eq, not_false_eq_true, if_true] using h

theorem skip_array_mono (enc : avro_encoding_t)
    (skip_data skip_data1 : avro_schema_t → avro_reader_t → Option (Int × avro_reader_t))
    (items : avro_schema_t)
    (hs : ∀ reader res, skip_data items reader = some res → skip_data1 items reader = some res)
    (fuel fuel1 : Nat) (hle : fuel ≤ fuel1) (reader : avro_reader_t) (md : Option avro_datum_t)
    (res : Int × avro_reader_t × Option avro_datum_t)
    (h : skip_array enc skip_data fuel items reader md = some res) :
    skip_array enc skip_data1 fuel1 items reader md = some res := by
  unfold skip_array at h
  unfold skip_array
  rcases hrl : enc.read_long reader with ⟨rval, block_count, reader1⟩
  rw [hrl] at h
  simp only at h ⊢
  by_cases hr : rval = 0
  · simp only [hr, ne_eq, not_true_eq_false, if_false] at h ⊢
    exact skip_array_blocks_mono enc skip_data skip_data1 items hs _ _ _ _ _ _ hle h
  · simpa only [hr, ne_eq, not_false_eq_true, if_true] using h

theorem skip_map_items_mono (enc : avro_encoding_t)
    (skip_data skip_data1 : avro_schema_t → avro_reader_t → Option (Int × avro_reader_t))
    (values : avro_schema_t)
    (hs : ∀ reader res, skip_data values reader = some res →
      skip_data1 values reader = some res) :
    ∀ (n : Nat) (reader : avro_reader_t) (res : Int × avro_reader_t),
      skip_map_items enc skip_data values n reader = some res →
      skip_map_items enc skip_data1 values n reader = some res := by
  intro n
  induction n with
  | zero =>
    intro reader res h
    simpa only [skip_map_items] using h
  | succ n ih =>
    intro reader res h
    unfold skip_map_items at h
    unfold skip_map_items
    rcases hk : enc.skip_string reader with ⟨rval, reader1⟩
    rw [hk] at h
    simp only at h ⊢
    by_cases hr : rval = 0
    · simp only [hr, ne_eq, not_true_eq_false, if_false] at h ⊢
      cases hsk : skip_data values reader1 with
      | none => simp [hsk] at h
      | some x =>
        obtain ⟨rval2, reader2⟩ := x
        rw [hs _ _ hsk]
        simp only [hsk] at h ⊢
        by_cases hr2 : rval2 = 0
        · simp only [hr2, ne_eq, not_true_eq_false, if_false] at h ⊢
          exact ih _ _ h
        · simpa only [hr2, ne_eq, not_false_eq_true, if_true] using h
    · simpa only [hr, ne_eq, not_false_eq_true, if_true] using h

theorem skip_map_blocks_mono (enc : avro_encoding_t)
    (skip_data skip_data1 : avro_schema_t → avro_reader_t → Option (Int × avro_reader_t))
    (values : avro_schema_t)
    (hs : ∀ reader res, skip_data values reader = some res →
      skip_data1 values reader = some res) :
    ∀ (fuel fuel1 : Nat) (c : Int) (reader : avro_reader_t) (res : Int × avro_reader_t),
      fuel ≤ fuel1 →
      skip_map_blocks enc skip_data values fuel c reader = some res →
      skip_map_blocks enc skip_data1 values fuel1 c reader = some res := by
  intro fuel
  induction fuel with
  | zero =>
    intro fuel1 c reader res _ h
    unfold skip_map_blocks at h
    by_cases hc : c = 0
    · simp only [hc, if_true] at h
      cases fuel1 <;> simpa only [skip_map_blocks, hc, if_true] using h
    · simp [hc] at h
  | succ fuel ih =>
    intro fuel1 c reader res hle h
    obtain ⟨fuel1, rfl⟩ : ∃ m, fuel1 = m + 1 := ⟨fuel1 - 1, by omega⟩
    unfold skip_map_blocks at h
    unfold skip_map_blocks
    by_cases hc : c = 0
    · simpa only [hc, if_true] using h
    · simp only [hc, if_false] at h ⊢
      rcases hrb : read_block_size enc c reader with ⟨rval0, count, reader1⟩
      rw [hrb] at h
      simp only at h ⊢
      by_cases h0 : rval0 = 0
      · simp only [h0, ne_eq, not_true_eq_false, if_false] at h ⊢
        cases hit : skip_map_items enc skip_data values count.toNat reader1 with
        | none => simp [hit] at h
        | some x =>
          obtain ⟨rval, reader2⟩ := x
          rw [skip_map_items_mono enc skip_data skip_data1 values hs _ _ _ hit]
          simp only [hit] at h ⊢
          by_cases hr : rval = 0
          · simp only [hr, ne_eq, not_true_eq_false, if_false] at h ⊢
            by_cases h3 : (enc.read_long reader2).1 = 0
            · simp only [h3, ne_eq, not_true_eq_false, if_false] at h ⊢
              exact ih _ _ _ _ (by omega) h
            · simpa only [h3, ne_eq, not_false_eq_true, if_true] using h
          · simpa only [hr, ne_eq, not_false_eq_true, if_true] using h
      · simpa only [h0, ne_eq, not_false_eq_true, if_true] using h

theorem skip_map_mono (enc : avro_encoding_t)
    (skip_data skip_data1 : avro_schema_t → avro_reader_t → Option (Int × avro_reader_t))
    (values : avro_schema_t)
    (hs : ∀ reader res, skip_data values reader = some res →
      skip_data1 values reader = some res)
    (fuel fuel1 : Nat) (hle : fuel ≤ fuel1) (reader : avro_reader_t)
    (res : Int × avro_reader_t)
    (h : skip_map enc skip_data fuel values reader = some res) :
    skip_map enc skip_data1 fuel1 values reader = some res := by
  unfold skip_map at h
  unfold skip_map
  rcases hrl : enc.read_long reader with ⟨rval, block_count, reader1⟩
  rw [hrl] at h
  simp only at h ⊢
  by_cases hr : rval = 0
  · simp only [hr, ne_eq, not_true_eq_false, if_false] at h ⊢
    exact skip_map_blocks_mono enc skip_data skip_data1 values hs _ _ _ _ _ hle h
  · simpa only [hr, ne_eq, not_false_eq_true, if_true] using h

theorem skip_union_mono (enc : avro_encoding_t)
    (skip_data skip_data1 : avro_schema_t → avro_reader_t → Option (Int × avro_reader_t))
    (hs : ∀ s reader res, skip_data s reader = some res → skip_data1 s reader = some res)
    (branches : List avro_schema_t) (reader : avro_reader_t) (res : Int × avro_reader_t)
    (h : skip_union enc skip_data branches reader = some res) :
    skip_union enc skip_data1 branches reader = some res := by
  unfold skip_union at h
  unfold skip_union
  rcases hrl : enc.read_long reader with ⟨rval, index, reader1⟩
  rw [hrl] at h
  simp only at h ⊢
  by_cases hr : rval = 0
  · simp only [hr, ne_eq, not_true_eq_false, if_false] at h ⊢
    cases hb : avro_schema_union_branch branches index with
    | none => simpa only [hb] using h
    | some branch =>
      simp only [hb] at h ⊢
      exact hs _ _ _ h
  · simpa only [hr, ne_eq, not_false_eq_true, if_true] using h

theorem skip_record_mono
    (skip_data skip_data1 : avro_schema_t → avro_reader_t → Option (Int × avro_reader_t))
    (map_data map_data1 : avro_schema_t → avro_reader_t → Option avro_datum_t →
      Option (Int × avro_reader_t × Option avro_datum_t))
    (hs : ∀ s reader res, skip_data s reader = some res → skip_data1 s reader = some res)
    (hm : ∀ s reader md res, map_data s reader md = some res →
      map_data1 s reader md = some res) :
    ∀ (fields : List (String × avro_schema_t)) (reader : avro_reader_t)
      (md : Option avro_datum_t) (res : Int × avro_reader_t × Option avro_datum_t),
      skip_record skip_data map_data fields reader md = some res →
      skip_record skip_data1 map_data1 fields reader md = some res := by
  intro fields
  induction fields with
  | nil =>
    intro reader md res h
    simpa only [skip_record] using h
  | cons f fields ih =>
    intro reader md res h
    obtain ⟨field_name, field_schema⟩ := f
    cases md with
    | none =>
      simp only [skip_record] at h ⊢
      cases hsk : skip_data field_schema reader with
      | none => simp [hsk] at h
      | some x =>
        obtain ⟨rval, reader1⟩ := x
        rw [hs _ _ _ hsk]
        simp only [hsk] at h ⊢
        by_cases hr : rval = 0
        · simp only [hr, ne_eq, not_true_eq_false, if_false] at h ⊢
          exact ih _ _ _ h
        · simpa only [hr, ne_eq, not_false_eq_true, if_true] using h
    | some datum =>
      simp only [skip_record] at h ⊢
      cases hsk : map_data field_schema reader none with
      | none => simp [hsk] at h
      | some x =>
        obtain ⟨rval, reader1, mfd⟩ := x
        rw [hm _ _ _ _ hsk]
        simp only [hsk] at h ⊢
        by_cases hr : rval = 0
        · simp only [hr, ne_eq, not_true_eq_false, if_false] at h ⊢
          cases mfd with
          | none => exact ih _ _ _ h
          | some fd =>
            simp only at h ⊢
            by_cases h1 : (avro_schema_record_field_append datum field_name).1 = 0
            · simp only [h1, not_true_eq_false, if_false] at h ⊢
              by_cases h2 : (avro_record_set (avro_schema_record_field_append datum
                  field_name).2 field_name fd).1 = 0
              · simp only [h2, not_true_eq_false, if_false] at h ⊢
                exact ih _ _ _ h
              · simpa only [h2, not_false_eq_true, if_true] using h
            · simpa only [h1, not_false_eq_true, if_true] using h
        · simpa only [hr, ne_eq, not_false_eq_true, if_true] using h

/-- A result obtained with some fuel is the result with one more unit of fuel. -/
theorem avro_data_mono_succ (env : Nat → avro_schema_t) : ∀ (fuel : Nat),
    (∀ s reader res, avro_skip_data env fuel s reader = some res →
      avro_skip_data env (fuel + 1) s reader = some res) ∧
    (∀ s reader md res, avro_map_data env fuel s reader md = some res →
      avro_map_data env (fuel + 1) s reader md = some res) := by
  intro fuel
  induction fuel with
  | zero =>
    exact ⟨fun s reader res h => by simp [avro_skip_data] at h,
      fun s reader md res h => by simp [avro_map_data] at h⟩
  | succ fuel ih =>
    obtain ⟨ihs, ihm⟩ := ih
    have hskip : ∀ s reader res, avro_skip_data env (fuel + 1) s reader = some res →
        avro_skip_data env (fuel + 1 + 1) s reader = some res := by
      intro s reader res h
      cases s with
      | array items =>
        simp only [avro_skip_data, drop_datum] at h
        show drop_datum (skip_array avro_binary_encoding (avro_skip_data env (fuel + 1))
          (fuel + 1) items reader none) = some res
        cases hx : skip_array avro_binary_encoding (avro_skip_data env fuel) fuel items reader
          none with
        | none => simp [hx] at h
        | some x =>
          rw [skip_array_mono _ _ _ items (fun r res hr => ihs items r res hr) fuel (fuel + 1)
            (Nat.le_succ _) _ _ _ hx]
          simpa only [hx, drop_datum] using h
      | map values =>
        simp only [avro_skip_data] at h
        exact skip_map_mono _ _ _ values (fun r res hr => ihs values r res hr) fuel (fuel + 1)
          (Nat.le_succ _) _ _ h
      | union branches =>
        simp only [avro_skip_data] at h
        exact skip_union_mono _ _ _ ihs branches reader res h
      | record fields =>
        simp only [avro_skip_data, drop_datum] at h
        show drop_datum (skip_record (avro_skip_data env (fuel + 1))
          (avro_map_data env (fuel + 1)) fields reader none) = some res
        cases hx : skip_record (avro_skip_data env fuel) (avro_map_data env fuel) fields reader
          none with
        | none => simp [hx] at h
        | some x =>
          rw [skip_record_mono _ _ _ _ ihs ihm fields reader none x hx]
          simpa only [hx, drop_datum] using h
      | link target =>
        simp only [avro_skip_data] at h
        exact ihs _ _ _ h
      | _ => exact h
    refine ⟨hskip, ?_⟩
    intro s reader md res h
    cases s with
    | array items =>
      simp only [avro_map_data] at h
      exact skip_array_mono _ _ _ items (fun r res hr => ihs items r res hr) fuel (fuel + 1)
        (Nat.le_succ _) _ _ _ h
    | record fields =>
      simp only [avro_map_data, avro_schema_record_field_append, avro_record_set, avro_record,
        ne_eq, not_true_eq_false, if_false] at h
      exact skip_record_mono _ _ _ _ ihs ihm fields reader _ res h
    | _ =>
      simp only [avro_map_data] at h
      split at h
      · exact absurd h (by simp)
      · rename_i rval reader1 hsk
        have e := ihs _ _ _ hsk
        simp only [avro_map_data]
        rw [e]
        exact h

/-- A result obtained with some fuel is the result with any larger fuel. -/
theorem avro_skip_data_mono (env : Nat → avro_schema_t) (s : avro_schema_t)
    (reader : avro_reader_t) (res : Int × avro_reader_t) (fuel fuel1 : Nat) (hle : fuel ≤ fuel1)
    (h : avro_skip_data env fuel s reader = some res) :
    avro_skip_data env fuel1 s reader = some res := by
  induction fuel1, hle using Nat.le_induction with
  | base => exact h
  | succ m _ ih => exact (avro_data_mono_succ env m).1 _ _ _ ih

theorem avro_map_data_mono (env : Nat → avro_schema_t) (s : avro_schema_t)
    (reader : avro_reader_t) (md : Option avro_datum_t)
    (res : Int × avro_reader_t × Option avro_datum_t) (fuel fuel1 : Nat) (hle : fuel ≤ fuel1)
    (h : avro_map_data env fuel s reader md = some res) :
    avro_map_data env fuel1 s reader md = some res := by
  induction fuel1, hle using Nat.le_induction with
  | base => exact h
  | succ m _ ih => exact (avro_data_mono_succ env m).2 _ _ _ _ ih
/-! ## The block loops are repeated skips -/

theorem skip_array_items_eq_spec
    (skip_data : avro_schema_t → avro_reader_t → Option (Int × avro_reader_t))
    (items : avro_schema_t) :
    ∀ (n : Nat) (i : Int) (reader : avro_reader_t),
      skip_array_items skip_data items n i reader none =
        (spec_skips (skip_data items) n reader).map (fun x => (x.1, x.2, none)) := by
  intro n
  induction n with
  | zero =>
    intro i reader
    rfl
  | succ n ih =>
    intro i reader
    unfold skip_array_items spec_skips
    have hap : append_position (decide (i.tmod DEFAULT_CHUNK_SIZE = 0)) reader none =
        (0, none) := rfl
    rw [hap]
    simp only [ne_eq, not_true_eq_false, if_false]
    cases hsk : skip_data items reader with
    | none => rfl
    | some x =>
      obtain ⟨rval, reader1⟩ := x
      simp only
      by_cases hr : rval = 0
      · simp only [hr, ne_eq, not_true_eq_false, if_false]
        exact ih _ _
      · simp only [hr, ne_eq, not_false_eq_true, if_true, Option.map_some']

theorem skip_map_items_eq_spec (enc : avro_encoding_t)
    (skip_data : avro_schema_t → avro_reader_t → Option (Int × avro_reader_t))
    (values : avro_schema_t) :
    ∀ (n : Nat) (reader : avro_reader_t),
      skip_map_items enc skip_data values n reader =
        spec_skips (spec_entry_skip enc skip_data values) n reader := by
  intro n
  induction n with
  | zero =>
    intro reader
    rfl
  | succ n ih =>
    intro reader
    unfold skip_map_items spec_skips spec_entry_skip
    rcases hk : enc.skip_string reader with ⟨rval, reader1⟩
    simp only
    by_cases hr : rval = 0
    · simp only [hr, ne_eq, not_true_eq_false, if_false]
      cases hsk : skip_data values reader1 with
      | none => rfl
      | some x =>
        obtain ⟨rval2, reader2⟩ := x
        simp only
        by_cases hr2 : rval2 = 0
        · simp only [hr2, ne_eq, not_true_eq_false, if_false]
          exact ih _
        · simp only [hr2, ne_eq, not_false_eq_true, if_true]
    · simp only [hr, ne_eq, not_false_eq_true, if_true]

theorem spec_skips_encoded (step : avro_reader_t → Option (Int × avro_reader_t))
    (encs : List (List Nat))
    (hstep : ∀ e ∈ encs, ∀ p R, step ⟨p, e ++ R⟩ = some (0, ⟨p + e.length, R⟩)) :
    ∀ (p : Nat) (R : List Nat),
      spec_skips step encs.length ⟨p, encs.flatten ++ R⟩ =
        some (0, ⟨p + encs.flatten.length, R⟩) := by
  induction encs with
  | nil =>
    intro p R
    rfl
  | cons e encs ih =>
    intro p R
    simp only [List.length_cons, List.flatten_cons, List.append_assoc, List.length_append]
    unfold spec_skips
    rw [hstep e (List.mem_cons_self _ _)]
    simp only [ne_eq, not_true_eq_false, if_false]
    rw [ih (fun e1 he1 => hstep e1 (List.mem_cons_of_mem _ he1))]
    rw [Nat.add_assoc]

/-- After `k` of the skips of a block, exactly its first `k` elements have been
consumed. -/
theorem spec_skips_take (step : avro_reader_t → Option (Int × avro_reader_t))
    (encs : List (List Nat))
    (hstep : ∀ e ∈ encs, ∀ p R, step ⟨p, e ++ R⟩ = some (0, ⟨p + e.length, R⟩))
    (k : Nat) (hk : k ≤ encs.length) (p : Nat) (R : List Nat) :
    spec_skips step k ⟨p, encs.flatten ++ R⟩ =
      some (0, ⟨p + (encs.take k).flatten.length, (encs.drop k).flatten ++ R⟩) := by
  have h := spec_skips_encoded step (encs.take k)
    (fun e he => hstep e (List.mem_of_mem_take he)) p ((encs.drop k).flatten ++ R)
  rw [List.length_take, Nat.min_eq_left hk, ← List.append_assoc, ← List.flatten_append,
    List.take_append_drop] at h
  exact h

theorem spec_entry_skip_encoded
    (skip_data : avro_schema_t → avro_reader_t → Option (Int × avro_reader_t))
    (values : avro_schema_t) (x : List Nat × avro_value × List Nat)
    (hkey : x.1.length < 9223372036854775808)
    (hskip : ∀ p R, skip_data values ⟨p, x.2.2 ++ R⟩ = some (0, ⟨p + x.2.2.length, R⟩))
    (p : Nat) (R : List Nat) :
    spec_entry_skip avro_binary_encoding skip_data values ⟨p, encode_map_entry x ++ R⟩ =
      some (0, ⟨p + (encode_map_entry x).length, R⟩) := by
  unfold spec_entry_skip
  have hb := skip_bytes_encode x.1 hkey p (x.2.2 ++ R)
  simp only [encode_map_entry, List.append_assoc] at hb ⊢
  simp only [skip_string_binary]
  rw [hb]
  simp only [ne_eq, not_true_eq_false, if_false]
  rw [hskip]
  simp only [List.length_append, Nat.add_assoc]
/-! ## The decoder primitives on a truncated stream -/

theorem truncated_nil (P : List Nat) : ¬ truncated [] P := by
  rintro ⟨T, hT, h⟩
  have h1 := congrArg List.length h
  simp only [List.length_nil, List.length_append] at h1
  exact hT (List.length_eq_zero.mp (by omega))

theorem truncated_length {E P : List Nat} (h : truncated E P) : P.length < E.length := by
  obtain ⟨T, hT, rfl⟩ := h
  have := List.length_pos.mpr hT
  simp only [List.length_append]
  omega

/-- A strict prefix of `A ++ B` is a strict prefix of `A`, or `A` followed by a
strict prefix of `B`. -/
theorem truncated_append {A B P : List Nat} (h : truncated (A ++ B) P) :
    truncated A P ∨ ∃ Q, P = A ++ Q ∧ truncated B Q := by
  obtain ⟨T, hT, h⟩ := h
  rcases List.append_eq_append_iff.mp h with ⟨a, ha, hb⟩ | ⟨c, hc, hb⟩
  · right
    exact ⟨a, ha, T, hT, hb⟩
  · by_cases hc0 : c = []
    · subst hc0
      right
      refine ⟨[], ?_, T, hT, ?_⟩
      · rw [List.append_nil] at hc ⊢
        exact hc.symm
      · simpa using hb.symm
    · left
      exact ⟨c, hc0, hc⟩

theorem truncated_cons {a : Nat} {E P : List Nat} (h : truncated (a :: E) P) :
    P = [] ∨ ∃ Q, P = a :: Q ∧ truncated E Q := by
  obtain ⟨T, hT, h⟩ := h
  cases P with
  | nil => exact Or.inl rfl
  | cons b Q =>
    right
    simp only [List.cons_append, List.cons.injEq] at h
    exact ⟨Q, by rw [h.1], T, hT, h.2⟩

theorem truncated_singleton {a : Nat} {P : List Nat} (h : truncated [a] P) : P = [] := by
  rcases truncated_cons h with h1 | ⟨Q, _, hQ⟩
  · exact h1
  · exact absurd hQ (truncated_nil Q)

theorem read_varint_nil (left offset acc p : Nat) :
    (read_varint left offset acc ⟨p, []⟩).1 ≠ 0 := by
  cases left <;> simp [read_varint, EILSEQ, ENOSPC]

/-- Reading a variable-length integer from a strict prefix of its encoding
fails. -/
theorem read_varint_truncated (k : Nat) : ∀ (n left offset acc p : Nat) (P : List Nat),
    truncated (encode_varint k n) P → (read_varint left offset acc ⟨p, P⟩).1 ≠ 0 := by
  induction k with
  | zero =>
    intro n left offset acc p P h
    simp only [encode_varint] at h
    rw [truncated_singleton h]
    exact read_varint_nil _ _ _ _
  | succ k ih =>
    intro n left offset acc p P h
    by_cases hlt : n < 128
    · simp only [encode_varint, hlt, if_true] at h
      rw [truncated_singleton h]
      exact read_varint_nil _ _ _ _
    · simp only [encode_varint, hlt, if_false] at h
      rcases truncated_cons h with h1 | ⟨Q, hQ, hT⟩
      · rw [h1]
        exact read_varint_nil _ _ _ _
      · subst hQ
        cases left with
        | zero => simp [read_varint, EILSEQ]
        | succ left =>
          have h1 : (n % 128 + 128) / 128 % 2 = 1 := by omega
          simp only [read_varint, h1, if_true]
          exact ih _ _ _ _ _ _ hT

theorem read_long_truncated (v : Int) (p : Nat) (P : List Nat)
    (h : truncated (encode_long v) P) : (read_long ⟨p, P⟩).1 ≠ 0 := by
  have h1 := read_varint_truncated 9 (zigzag_encode v) 10 0 0 p P h
  unfold read_long
  exact h1

theorem skip_long_truncated (v : Int) (p : Nat) (P : List Nat)
    (h : truncated (encode_long v) P) : (skip_long ⟨p, P⟩).1 ≠ 0 := by
  have h1 := read_varint_truncated 9 (zigzag_encode v) 10 0 0 p P h
  unfold skip_long
  exact h1

theorem avro_skip_truncated (raw : List Nat) (p : Nat) (P : List Nat)
    (h : truncated raw P) : (avro_skip ⟨p, P⟩ raw.length).1 ≠ 0 := by
  have hl := truncated_length h
  simp [avro_skip, hl, ENOSPC]

theorem skip_bytes_truncated (s : List Nat) (hs : s.length < 9223372036854775808) (p : Nat)
    (P : List Nat) (h : truncated (encode_long (s.length : Int) ++ s) P) :
    (skip_bytes ⟨p, P⟩).1 ≠ 0 := by
  rcases truncated_append h with h1 | ⟨Q, rfl, hQ⟩
  · have h2 := read_long_truncated _ p P h1
    unfold skip_bytes
    rcases hrl : read_long ⟨p, P⟩ with ⟨rval, len, reader1⟩
    rw [hrl] at h2
    simp only at h2 ⊢
    simp only [h2, ne_eq, not_false_eq_true, if_true]
  · have hv : in_int64 (s.length : Int) := by unfold in_int64; omega
    have h0 : ¬ ((s.length : Int) < 0) := by omega
    unfold skip_bytes
    rw [read_long_encode _ hv]
    simp only [ne_eq, not_true_eq_false, if_false, h0, Int.toNat_ofNat]
    exact avro_skip_truncated s _ Q hQ

/-! ## The loops on a truncated stream -/

/-- The `for` loop of `skip_array` fails when the stream ends inside one of the
elements of the block. -/
theorem skip_array_items_truncated
    (skip_data : avro_schema_t → avro_reader_t → Option (Int × avro_reader_t))
    (items : avro_schema_t) (encs : List (List Nat))
    (hgood : ∀ e ∈ encs, ∀ p R, skip_data items ⟨p, e ++ R⟩ = some (0, ⟨p + e.length, R⟩))
    (hbad : ∀ e ∈ encs, ∀ P, truncated e P → ∀ p, ∃ rval reader1,
      skip_data items ⟨p, P⟩ = some (rval, reader1) ∧ rval ≠ 0) :
    ∀ (i : Int) (p : Nat) (P : List Nat) (md : Option avro_datum_t),
      truncated encs.flatten P →
      ∃ rval reader1 md1,
        skip_array_items skip_data items encs.length i ⟨p, P⟩ md = some (rval, reader1, md1) ∧
          rval ≠ 0 := by
  induction encs with
  | nil =>
    intro i p P md h
    exact absurd h (truncated_nil P)
  | cons e encs ih =>
    intro i p P md h
    simp only [List.flatten_cons] at h
    simp only [List.length_cons]
    unfold skip_array_items
    rcases happ : append_position (decide (i.tmod DEFAULT_CHUNK_SIZE = 0)) ⟨p, P⟩ md
      with ⟨rval0, mapped1⟩
    simp only
    by_cases h0 : rval0 = 0
    · simp only [h0, ne_eq, not_true_eq_false, if_false]
      rcases truncated_append h with h1 | ⟨Q, rfl, hQ⟩
      · obtain ⟨rval, reader1, hsk, hne⟩ := hbad e (List.mem_cons_self _ _) P h1 p
        rw [hsk]
        simp only [hne, ne_eq, not_false_eq_true, if_true]
        exact ⟨_, _, _, rfl, hne⟩
      · rw [hgood e (List.mem_cons_self _ _)]
        simp only [ne_eq, not_true_eq_false, if_false]
        exact ih (fun e1 he1 => hgood e1 (List.mem_cons_of_mem _ he1))
          (fun e1 he1 => hbad e1 (List.mem_cons_of_mem _ he1)) _ _ _ _ hQ
    · simp only [h0, ne_eq, not_false_eq_true, if_true]
      exact ⟨_, _, _, rfl, h0⟩

/-- The `for` loop of `skip_map` fails when the stream ends inside one of the
entries of the block. -/
theorem skip_map_items_truncated
    (skip_data : avro_schema_t → avro_reader_t → Option (Int × avro_reader_t))
    (values : avro_schema_t) (entries : List (List Nat × avro_value × List Nat))
    (hkeys : ∀ x ∈ entries, x.1.length < 9223372036854775808)
    (hgood : ∀ x ∈ entries, ∀ p R,
      skip_data values ⟨p, x.2.2 ++ R⟩ = some (0, ⟨p + x.2.2.length, R⟩))
    (hbad : ∀ x ∈ entries, ∀ P, truncated x.2.2 P → ∀ p, ∃ rval reader1,
      skip_data values ⟨p, P⟩ = some (rval, reader1) ∧ rval ≠ 0) :
    ∀ (p : Nat) (P : List Nat),
      truncated (entries.map encode_map_entry).flatten P →
      ∃ rval reader1,
        skip_map_items avro_binary_encoding skip_data values entries.length ⟨p, P⟩ =
          some (rval, reader1) ∧ rval ≠ 0 := by
  induction entries with
  | nil =>
    intro p P h
    exact absurd h (truncated_nil P)
  | cons x entries ih =>
    intro p P h
    simp only [List.map_cons, List.flatten_cons] at h
    simp only [List.length_cons]
    unfold skip_map_items
    simp only [skip_string_binary]
    have hk := hkeys x (List.mem_cons_self _ _)
    rcases truncated_append h with h1 | ⟨Q, rfl, hQ⟩
    · -- the stream ends inside this entry
      unfold encode_map_entry at h1
      rcases truncated_append h1 with h2 | ⟨Q, rfl, hQ⟩
      · have hf := skip_bytes_truncated x.1 hk p P h2
        rcases hsb : skip_bytes ⟨p, P⟩ with ⟨rval, reader1⟩
        rw [hsb] at hf
        simp only at hf ⊢
        simp only [hf, ne_eq, not_false_eq_true, if_true]
        exact ⟨_, _, rfl, hf⟩
      · have hb := skip_bytes_encode x.1 hk p Q
        rw [hb]
        simp only [ne_eq, not_true_eq_false, if_false]
        obtain ⟨rval, reader1, hsk, hne⟩ := hbad x (List.mem_cons_self _ _) Q hQ
          (p + (encode_long (x.1.length : Int) ++ x.1).length)
        rw [hsk]
        simp only [hne, ne_eq, not_false_eq_true, if_true]
        exact ⟨_, _, rfl, hne⟩
    · have hb := skip_bytes_encode x.1 hk p (x.2.2 ++ Q)
      simp only [encode_map_entry, List.append_assoc] at hb ⊢
      rw [hb]
      simp only [ne_eq, not_true_eq_false, if_false]
      rw [hgood x (List.mem_cons_self _ _)]
      simp only [ne_eq, not_true_eq_false, if_false]
      exact ih (fun y hy => hkeys y (List.mem_cons_of_mem _ hy))
        (fun y hy => hgood y (List.mem_cons_of_mem _ hy))
        (fun y hy => hbad y (List.mem_cons_of_mem _ hy)) _ _ hQ

theorem skip_array_fails_of_read
    (skip_data : avro_schema_t → avro_reader_t → Option (Int × avro_reader_t))
    (items : avro_schema_t) (fuel : Nat) (reader : avro_reader_t) (md : Option avro_datum_t)
    (h : (read_long reader).1 ≠ 0) :
    ∃ rval reader1 md1,
      skip_array avro_binary_encoding skip_data fuel items reader md =
        some (rval, reader1, md1) ∧ rval ≠ 0 := by
  unfold skip_array
  simp only [read_long_binary]
  rcases hrl : read_long reader with ⟨rval, c, reader1⟩
  rw [hrl] at h
  simp only at h ⊢
  simp only [h, ne_eq, not_false_eq_true, if_true]
  exact ⟨_, _, _, rfl, h⟩

theorem skip_map_fails_of_read
    (skip_data : avro_schema_t → avro_reader_t → Option (Int × avro_reader_t))
    (values : avro_schema_t) (fuel : Nat) (reader : avro_reader_t)
    (h : (read_long reader).1 ≠ 0) :
    ∃ rval reader1,
      skip_map avro_binary_encoding skip_data fuel values reader = some (rval, reader1) ∧
        rval ≠ 0 := by
  unfold skip_map
  simp only [read_long_binary]
  rcases hrl : read_long reader with ⟨rval, c, reader1⟩
  rw [hrl] at h
  simp only at h ⊢
  simp only [h, ne_eq, not_false_eq_true, if_true]
  exact ⟨_, _, rfl, h⟩

/-- The function `skip_array` fails when the stream ends inside the first
block: in its count, in its size hint or in one of its elements. -/
theorem skip_array_block_truncated
    (skip_data : avro_schema_t → avro_reader_t → Option (Int × avro_reader_t))
    (items : avro_schema_t) (b : array_block)
    (hok : block_ok b.size_hint b.elems.length)
    (hgood : ∀ x ∈ b.elems, ∀ p R,
      skip_data items ⟨p, x.2 ++ R⟩ = some (0, ⟨p + x.2.length, R⟩))
    (hbad : ∀ x ∈ b.elems, ∀ P, truncated x.2 P → ∀ p, ∃ rval reader1,
      skip_data items ⟨p, P⟩ = some (rval, reader1) ∧ rval ≠ 0)
    (fuel p : Nat) (P : List Nat) (md : Option avro_datum_t)
    (h : truncated (block_header b.size_hint b.elems.length ++ array_block_body b) P) :
    ∃ rval reader1 md1,
      skip_array avro_binary_encoding skip_data (fuel + 1) items ⟨p, P⟩ md =
        some (rval, reader1, md1) ∧ rval ≠ 0 := by
  obtain ⟨h1, h2, h3⟩ := hok
  have hitems := skip_array_items_truncated skip_data items (b.elems.map Prod.snd)
    (by
      intro e he p R
      obtain ⟨x, hx, rfl⟩ := List.mem_map.mp he
      exact hgood x hx p R)
    (by
      intro e he P hP p
      obtain ⟨x, hx, rfl⟩ := List.mem_map.mp he
      exact hbad x hx P hP p) 0
  have hlen : (b.elems.map Prod.snd).length = b.elems.length := by simp
  have hbody : (b.elems.map Prod.snd).flatten = array_block_body b := rfl
  rw [hlen, hbody] at hitems
  have hn_ne : ((b.elems.length : Nat) : Int) ≠ 0 := by omega
  have hnn_ne : -((b.elems.length : Nat) : Int) ≠ 0 := by omega
  have hneg : ¬ ((b.elems.length : Int) < 0) := by omega
  have hneg2 : (-(b.elems.length : Int) < 0) := by omega
  cases hsz : b.size_hint with
  | none =>
    have hv : in_int64 (b.elems.length : Int) := by unfold in_int64; omega
    rw [hsz] at h
    simp only [block_header] at h
    rcases truncated_append h with hh | ⟨Q, rfl, hQ⟩
    · exact skip_array_fails_of_read _ _ _ _ _ (read_long_truncated _ p P hh)
    · obtain ⟨rval, reader1, md1, hi, hne⟩ :=
        hitems (p + (encode_long (b.elems.length : Int)).length) Q md hQ
      refine ⟨rval, reader1, md1, ?_, hne⟩
      unfold skip_array
      simp only [read_long_binary, read_long_encode _ hv, ne_eq, not_true_eq_false, if_false]
      rw [skip_array_blocks]
      simp only [hn_ne, if_false, read_block_size, hneg, Int.toNat_ofNat, ne_eq,
        not_true_eq_false]
      rw [hi]
      simp only [hne, ne_eq, not_false_eq_true, if_true]
  | some hint =>
    have hv : in_int64 (-(b.elems.length : Int)) := by unfold in_int64; omega
    have hh := h3 hint hsz
    rw [hsz] at h
    simp only [block_header] at h
    rcases truncated_append h with hhd | ⟨Q, rfl, hQ⟩
    · rcases truncated_append hhd with hc | ⟨Q, rfl, hQ⟩
      · exact skip_array_fails_of_read _ _ _ _ _ (read_long_truncated _ p P hc)
      · have hf := read_long_truncated hint
          (p + (encode_long (-(b.elems.length : Int))).length) Q hQ
        unfold skip_array
        simp only [read_long_binary, read_long_encode _ hv, ne_eq, not_true_eq_false,
          if_false]
        rw [skip_array_blocks]
        simp only [hnn_ne, if_false, read_block_size, hneg2, if_true, read_long_binary]
        rcases hrl : read_long ⟨p + (encode_long (-(b.elems.length : Int))).length, Q⟩
          with ⟨rval, c, reader1⟩
        rw [hrl] at hf
        simp only at hf ⊢
        simp only [hf, ne_eq, not_false_eq_true, if_true]
        exact ⟨_, _, _, rfl, hf⟩
    · obtain ⟨rval, reader1, md1, hi, hne⟩ :=
        hitems (p + (encode_long (-(b.elems.length : Int))).length +
          (encode_long hint).length) Q md hQ
      refine ⟨rval, reader1, md1, ?_, hne⟩
      unfold skip_array
      simp only [List.append_assoc, read_long_binary, read_long_encode _ hv, ne_eq,
        not_true_eq_false, if_false]
      rw [skip_array_blocks]
      simp only [hnn_ne, if_false, read_block_size, hneg2, if_true, read_long_binary,
        read_long_encode hint hh, wrap64_neg_neg _ h2, Int.toNat_ofNat, ne_eq,
        not_true_eq_false]
      rw [hi]
      simp only [hne, ne_eq, not_false_eq_true, if_true]

/-- The function `skip_array` fails on every strict prefix of the encoded blocks
of an array. -/
theorem skip_array_truncated
    (skip_data : avro_schema_t → avro_reader_t → Option (Int × avro_reader_t))
    (items : avro_schema_t) (blocks : List array_block)
    (hok : ∀ b ∈ blocks, block_ok b.size_hint b.elems.length)
    (hgood : ∀ b ∈ blocks, ∀ x ∈ b.elems, ∀ p R,
      skip_data items ⟨p, x.2 ++ R⟩ = some (0, ⟨p + x.2.length, R⟩))
    (hbad : ∀ b ∈ blocks, ∀ x ∈ b.elems, ∀ P, truncated x.2 P → ∀ p, ∃ rval reader1,
      skip_data items ⟨p, P⟩ = some (rval, reader1) ∧ rval ≠ 0) :
    ∀ (fuel p : Nat) (P : List Nat) (md : Option avro_datum_t),
      blocks.length ≤ fuel → null_or_array md → truncated (encode_array_blocks blocks) P →
      ∃ rval reader1 md1,
        skip_array avro_binary_encoding skip_data fuel items ⟨p, P⟩ md =
          some (rval, reader1, md1) ∧ rval ≠ 0 := by
  induction blocks with
  | nil =>
    intro fuel p P md _ _ h
    simp only [encode_array_blocks] at h
    exact skip_array_fails_of_read _ _ _ _ _ (read_long_truncated _ p P h)
  | cons b bs ih =>
    intro fuel p P md hfuel hmd h
    obtain ⟨fuel, rfl⟩ : ∃ m, fuel = m + 1 := ⟨fuel - 1, by simp at hfuel; omega⟩
    have hb := hok b (List.mem_cons_self _ _)
    simp only [encode_array_blocks] at h
    rcases truncated_append h with h1 | ⟨Q, rfl, hQ⟩
    · exact skip_array_block_truncated skip_data items b hb
        (hgood b (List.mem_cons_self _ _)) (hbad b (List.mem_cons_self _ _)) fuel p P md h1
    · rw [skip_array_blocks_block skip_data items b hb (hgood b (List.mem_cons_self _ _))
        fuel p Q md hmd]
      exact ih (fun b2 hb2 => hok b2 (List.mem_cons_of_mem _ hb2))
        (fun b2 hb2 => hgood b2 (List.mem_cons_of_mem _ hb2))
        (fun b2 hb2 => hbad b2 (List.mem_cons_of_mem _ hb2)) fuel _ Q _
        (by simpa using hfuel) (null_or_array_append _ _ hmd) hQ

/-- The function `skip_map` fails when the stream ends inside the first block:
in its count, in its size hint or in one of its entries. -/
theorem skip_map_block_truncated
    (skip_data : avro_schema_t → avro_reader_t → Option (Int × avro_reader_t))
    (values : avro_schema_t) (b : map_block)
    (hok : block_ok b.size_hint b.entries.length)
    (hkeys : ∀ x ∈ b.entries, x.1.length < 9223372036854775808)
    (hgood : ∀ x ∈ b.entries, ∀ p R,
      skip_data values ⟨p, x.2.2 ++ R⟩ = some (0, ⟨p + x.2.2.length, R⟩))
    (hbad : ∀ x ∈ b.entries, ∀ P, truncated x.2.2 P → ∀ p, ∃ rval reader1,
      skip_data values ⟨p, P⟩ = some (rval, reader1) ∧ rval ≠ 0)
    (fuel p : Nat) (P : List Nat)
    (h : truncated (block_header b.size_hint b.entries.length ++ map_block_body b) P) :
    ∃ rval reader1,
      skip_map avro_binary_encoding skip_data (fuel + 1) values ⟨p, P⟩ =
        some (rval, reader1) ∧ rval ≠ 0 := by
  obtain ⟨h1, h2, h3⟩ := hok
  have hitems := skip_map_items_truncated skip_data values b.entries hkeys hgood hbad
  have hbody : (b.entries.map encode_map_entry).flatten = map_block_body b := rfl
  rw [hbody] at hitems
  have hn_ne : ((b.entries.length : Nat) : Int) ≠ 0 := by omega
  have hnn_ne : -((b.entries.length : Nat) : Int) ≠ 0 := by omega
  have hneg : ¬ ((b.entries.length : Int) < 0) := by omega
  have hneg2 : (-(b.entries.length : Int) < 0) := by omega
  cases hsz : b.size_hint with
  | none =>
    have hv : in_int64 (b.entries.length : Int) := by unfold in_int64; omega
    rw [hsz] at h
    simp only [block_header] at h
    rcases truncated_append h with hh | ⟨Q, rfl, hQ⟩
    · exact skip_map_fails_of_read _ _ _ _ (read_long_truncated _ p P hh)
    · obtain ⟨rval, reader1, hi, hne⟩ :=
        hitems (p + (encode_long (b.entries.length : Int)).length) Q hQ
      refine ⟨rval, reader1, ?_, hne⟩
      unfold skip_map
      simp only [read_long_binary, read_long_encode _ hv, ne_eq, not_true_eq_false, if_false]
      rw [skip_map_blocks]
      simp only [hn_ne, if_false, read_block_size, hneg, Int.toNat_ofNat, ne_eq,
        not_true_eq_false]
      rw [hi]
      simp only [hne, ne_eq, not_false_eq_true, if_true]
  | some hint =>
    have hv : in_int64 (-(b.entries.length : Int)) := by unfold in_int64; omega
    have hh := h3 hint hsz
    rw [hsz] at h
    simp only [block_header] at h
    rcases truncated_append h with hhd | ⟨Q, rfl, hQ⟩
    · rcases truncated_append hhd with hc | ⟨Q, rfl, hQ⟩
      · exact skip_map_fails_of_read _ _ _ _ (read_long_truncated _ p P hc)
      · have hf := read_long_truncated hint
          (p + (encode_long (-(b.entries.length : Int))).length) Q hQ
        unfold skip_map
        simp only [read_long_binary, read_long_encode _ hv, ne_eq, not_true_eq_false,
          if_false]
        rw [skip_map_blocks]
        simp only [hnn_ne, if_false, read_block_size, hneg2, if_true, read_long_binary]
        rcases hrl : read_long ⟨p + (encode_long (-(b.entries.length : Int))).length, Q⟩
          with ⟨rval, c, reader1⟩
        rw [hrl] at hf
        simp only at hf ⊢
        simp only [hf, ne_eq, not_false_eq_true, if_true]
        exact ⟨_, _, rfl, hf⟩
    · obtain ⟨rval, reader1, hi, hne⟩ :=
        hitems (p + (encode_long (-(b.entries.length : Int))).length +
          (encode_long hint).length) Q hQ
      refine ⟨rval, reader1, ?_, hne⟩
      unfold skip_map
      simp only [List.append_assoc, read_long_binary, read_long_encode _ hv, ne_eq,
        not_true_eq_false, if_false]
      rw [skip_map_blocks]
      simp only [hnn_ne, if_false, read_block_size, hneg2, if_true, read_long_binary,
        read_long_encode hint hh, wrap64_neg_neg _ h2, Int.toNat_ofNat, ne_eq,
        not_true_eq_false]
      rw [hi]
      simp only [hne, ne_eq, not_false_eq_true, if_true]

/-- The function `skip_map` fails on every strict prefix of the encoded blocks
of a map. -/
theorem skip_map_truncated
    (skip_data : avro_schema_t → avro_reader_t → Option (Int × avro_reader_t))
    (values : avro_schema_t) (blocks : List map_block)
    (hok : ∀ b ∈ blocks, block_ok b.size_hint b.entries.length)
    (hkeys : ∀ b ∈ blocks, ∀ x ∈ b.entries, x.1.length < 9223372036854775808)
    (hgood : ∀ b ∈ blocks, ∀ x ∈ b.entries, ∀ p R,
      skip_data values ⟨p, x.2.2 ++ R⟩ = some (0, ⟨p + x.2.2.length, R⟩))
    (hbad : ∀ b ∈ blocks, ∀ x ∈ b.entries, ∀ P, truncated x.2.2 P → ∀ p, ∃ rval reader1,
      skip_data values ⟨p, P⟩ = some (rval, reader1) ∧ rval ≠ 0) :
    ∀ (fuel p : Nat) (P : List Nat),
      blocks.length ≤ fuel → truncated (encode_map_blocks blocks) P →
      ∃ rval reader1,
        skip_map avro_binary_encoding skip_data fuel values ⟨p, P⟩ = some (rval, reader1) ∧
          rval ≠ 0 := by
  induction blocks with
  | nil =>
    intro fuel p P _ h
    simp only [encode_map_blocks] at h
    exact skip_map_fails_of_read _ _ _ _ (read_long_truncated _ p P h)
  | cons b bs ih =>
    intro fuel p P hfuel h
    obtain ⟨fuel, rfl⟩ : ∃ m, fuel = m + 1 := ⟨fuel - 1, by simp at hfuel; omega⟩
    have hb := hok b (List.mem_cons_self _ _)
    simp only [encode_map_blocks] at h
    rcases truncated_append h with h1 | ⟨Q, rfl, hQ⟩
    · exact skip_map_block_truncated skip_data values b hb
        (hkeys b (List.mem_cons_self _ _))
        (hgood b (List.mem_cons_self _ _)) (hbad b (List.mem_cons_self _ _)) fuel p P h1
    · rw [skip_map_blocks_block skip_data values b hb (hkeys b (List.mem_cons_self _ _))
        (hgood b (List.mem_cons_self _ _)) fuel p Q]
      exact ih (fun b2 hb2 => hok b2 (List.mem_cons_of_mem _ hb2))
        (fun b2 hb2 => hkeys b2 (List.mem_cons_of_mem _ hb2))
        (fun b2 hb2 => hgood b2 (List.mem_cons_of_mem _ hb2))
        (fun b2 hb2 => hbad b2 (List.mem_cons_of_mem _ hb2)) fuel _ Q
        (by simpa using hfuel) hQ

/-- The loop of `skip_record` fails when the stream ends inside one of the
fields, with and without a mapped record. -/
theorem skip_record_truncated
    (skip_data : avro_schema_t → avro_reader_t → Option (Int × avro_reader_t))
    (map_data : avro_schema_t → avro_reader_t → Option avro_datum_t →
      Option (Int × avro_reader_t × Option avro_datum_t))
    (parts : List ((String × avro_schema_t) × avro_value × List Nat))
    (hgood : ∀ x ∈ parts, ∀ p R,
      skip_data x.1.2 ⟨p, x.2.2 ++ R⟩ = some (0, ⟨p + x.2.2.length, R⟩))
    (hgoodm : ∀ x ∈ parts, ∀ p R, ∃ md,
      map_data x.1.2 ⟨p, x.2.2 ++ R⟩ none = some (0, ⟨p + x.2.2.length, R⟩, md))
    (hbad : ∀ x ∈ parts, ∀ P, truncated x.2.2 P → ∀ p, ∃ rval reader1,
      skip_data x.1.2 ⟨p, P⟩ = some (rval, reader1) ∧ rval ≠ 0)
    (hbadm : ∀ x ∈ parts, ∀ P, truncated x.2.2 P → ∀ p, ∃ rval reader1 md,
      map_data x.1.2 ⟨p, P⟩ none = some (rval, reader1, md) ∧ rval ≠ 0) :
    ∀ (p : Nat) (P : List Nat) (md : Option avro_datum_t),
      truncated (parts.map (fun x => x.2.2)).flatten P →
      ∃ rval reader1 md1,
        skip_record skip_data map_data (parts.map (fun x => x.1)) ⟨p, P⟩ md =
          some (rval, reader1, md1) ∧ rval ≠ 0 := by
  induction parts with
  | nil =>
    intro p P md h
    exact absurd h (truncated_nil P)
  | cons x xs ih =>
    intro p P md h
    have ih2 := ih (fun y hy => hgood y (List.mem_cons_of_mem _ hy))
      (fun y hy => hgoodm y (List.mem_cons_of_mem _ hy))
      (fun y hy => hbad y (List.mem_cons_of_mem _ hy))
      (fun y hy => hbadm y (List.mem_cons_of_mem _ hy))
    have hx1 := hgood x (List.mem_cons_self _ _)
    have hx2 := hgoodm x (List.mem_cons_self _ _)
    have hx3 := hbad x (List.mem_cons_self _ _)
    have hx4 := hbadm x (List.mem_cons_self _ _)
    obtain ⟨⟨name, s⟩, v, e⟩ := x
    simp only [List.map_cons, List.flatten_cons] at h hx1 hx2 hx3 hx4 ⊢
    cases md with
    | none =>
      simp only [skip_record]
      rcases truncated_append h with h1 | ⟨Q, rfl, hQ⟩
      · obtain ⟨rval, reader1, hsk, hne⟩ := hx3 P h1 p
        rw [hsk]
        simp only [hne, ne_eq, not_false_eq_true, if_true]
        exact ⟨_, _, _, rfl, hne⟩
      · rw [hx1]
        simp only [ne_eq, not_true_eq_false, if_false]
        exact ih2 _ _ _ hQ
    | some datum =>
      simp only [skip_record]
      rcases truncated_append h with h1 | ⟨Q, rfl, hQ⟩
      · obtain ⟨rval, reader1, md1, hsk, hne⟩ := hx4 P h1 p
        rw [hsk]
        simp only [hne, ne_eq, not_false_eq_true, if_true]
        exact ⟨_, _, _, rfl, hne⟩
      · obtain ⟨mfd, hm⟩ := hx2 p Q
        rw [hm]
        simp only [ne_eq, not_true_eq_false, if_false]
        cases mfd with
        | none => exact ih2 _ _ _ hQ
        | some fd =>
          simp only
          by_cases h1 : (avro_schema_record_field_append datum name).1 = 0
          · simp only [h1, not_true_eq_false, if_false]
            by_cases h2 : (avro_record_set (avro_schema_record_field_append datum
                name).2 name fd).1 = 0
            · simp only [h2, not_true_eq_false, if_false]
              exact ih2 _ _ _ hQ
            · simp only [h2, not_false_eq_true, if_true]
              exact ⟨_, _, _, rfl, h2⟩
          · simp only [h1, not_false_eq_true, if_true]
            exact ⟨_, _, _, rfl, h1⟩

/-! ## Skipping and mapping a truncated encoding -/

theorem rejects_of_skip (env : Nat → avro_schema_t) (s : avro_schema_t) (E : List Nat)
    (hs : ∀ items, s ≠ avro_schema_t.array items) (hr : ∀ fields, s ≠ avro_schema_t.record fields)
    (n : Nat)
    (h : ∀ fuel, n ≤ fuel → ∀ P, truncated E P → ∀ (p : Nat), ∃ rval reader1,
      avro_skip_data env fuel s ⟨p, P⟩ = some (rval, reader1) ∧ rval ≠ 0) :
    ∃ n, ∀ fuel, n ≤ fuel → ∀ P, truncated E P → rejects env s P fuel := by
  refine ⟨n + 1, fun fuel hf P hP p => ⟨h fuel (by omega) P hP p, fun md0 => ?_⟩⟩
  obtain ⟨fuel, rfl⟩ : ∃ m, fuel = m + 1 := ⟨fuel - 1, by omega⟩
  obtain ⟨rval, reader1, h1, hne⟩ := h fuel (by omega) P hP p
  refine ⟨rval, reader1, md0, ?_, hne⟩
  cases s <;> first
    | exact absurd rfl (hs _)
    | exact absurd rfl (hr _)
    | simp only [avro_map_data, h1]

/-- On every strict prefix of a valid encoding both traversals fail. -/
theorem encodes_rejects (env : Nat → avro_schema_t) (s : avro_schema_t) (v : avro_value)
    (E : List Nat) (h : Encodes env s v E) :
    ∃ n, ∀ fuel, n ≤ fuel → ∀ P, truncated E P → rejects env s P fuel := by
  induction h with
  | null =>
    exact ⟨0, fun fuel _ P hP => absurd hP (truncated_nil P)⟩
  | boolean b =>
    refine rejects_of_skip env _ _ (by simp) (by simp) 1 (fun fuel hf P hP p => ?_)
    obtain ⟨fuel, rfl⟩ : ∃ m, fuel = m + 1 := ⟨fuel - 1, by omega⟩
    have hf := avro_skip_truncated _ p P hP
    exact ⟨_, _, rfl, hf⟩
  | int32 v h1 h2 =>
    refine rejects_of_skip env _ _ (by simp) (by simp) 1 (fun fuel hf P hP p => ?_)
    obtain ⟨fuel, rfl⟩ : ∃ m, fuel = m + 1 := ⟨fuel - 1, by omega⟩
    exact ⟨_, _, rfl, skip_long_truncated v p P hP⟩
  | int64 v hv =>
    refine rejects_of_skip env _ _ (by simp) (by simp) 1 (fun fuel hf P hP p => ?_)
    obtain ⟨fuel, rfl⟩ : ∃ m, fuel = m + 1 := ⟨fuel - 1, by omega⟩
    exact ⟨_, _, rfl, skip_long_truncated v p P hP⟩
  | float raw h4 =>
    refine rejects_of_skip env _ _ (by simp) (by simp) 1 (fun fuel hf P hP p => ?_)
    obtain ⟨fuel, rfl⟩ : ∃ m, fuel = m + 1 := ⟨fuel - 1, by omega⟩
    have hf := avro_skip_truncated raw p P hP
    rw [h4] at hf
    exact ⟨_, _, rfl, hf⟩
  | double raw h8 =>
    refine rejects_of_skip env _ _ (by simp) (by simp) 1 (fun fuel hf P hP p => ?_)
    obtain ⟨fuel, rfl⟩ : ∃ m, fuel = m + 1 := ⟨fuel - 1, by omega⟩
    have hf := avro_skip_truncated raw p P hP
    rw [h8] at hf
    exact ⟨_, _, rfl, hf⟩
  | string chars hlen =>
    refine rejects_of_skip env _ _ (by simp) (by simp) 1 (fun fuel hf P hP p => ?_)
    obtain ⟨fuel, rfl⟩ : ∃ m, fuel = m + 1 := ⟨fuel - 1, by omega⟩
    exact ⟨_, _, rfl, skip_bytes_truncated chars hlen p P hP⟩
  | bytes raw hlen =>
    refine rejects_of_skip env _ _ (by simp) (by simp) 1 (fun fuel hf P hP p => ?_)
    obtain ⟨fuel, rfl⟩ : ∃ m, fuel = m + 1 := ⟨fuel - 1, by omega⟩
    exact ⟨_, _, rfl, skip_bytes_truncated raw hlen p P hP⟩
  | fixed size raw hsize =>
    refine rejects_of_skip env _ _ (by simp) (by simp) 1 (fun fuel hf P hP p => ?_)
    obtain ⟨fuel, rfl⟩ : ∃ m, fuel = m + 1 := ⟨fuel - 1, by omega⟩
    have hf := avro_skip_truncated raw p P hP
    rw [hsize] at hf
    exact ⟨_, _, rfl, hf⟩
  | enum symbols ordinal h1 h2 =>
    refine rejects_of_skip env _ _ (by simp) (by simp) 1 (fun fuel hf P hP p => ?_)
    obtain ⟨fuel, rfl⟩ : ∃ m, fuel = m + 1 := ⟨fuel - 1, by omega⟩
    exact ⟨_, _, rfl, skip_long_truncated _ p P hP⟩
  | array items blocks hok hel ih =>
    obtain ⟨N, hN⟩ := exists_uniform_fuel blocks
      (fun b fuel => ∀ x ∈ b.elems, consumes env items x.2 fuel)
      (fun b hb => exists_uniform_fuel b.elems (fun x fuel => consumes env items x.2 fuel)
        (fun x hx => encodes_consumes env items x.1 x.2 (hel b hb x hx)))
    obtain ⟨M, hM⟩ := exists_uniform_fuel blocks
      (fun b fuel => ∀ x ∈ b.elems, ∀ P, truncated x.2 P → rejects env items P fuel)
      (fun b hb => exists_uniform_fuel b.elems
        (fun x fuel => ∀ P, truncated x.2 P → rejects env items P fuel)
        (fun x hx => ih b hb x hx))
    refine ⟨max (max N M) blocks.length + 1, fun fuel hf P hP p => ?_⟩
    obtain ⟨fuel, rfl⟩ : ∃ m, fuel = m + 1 := ⟨fuel - 1, by omega⟩
    have hfN : N ≤ fuel := by
      have := le_max_left (max N M) blocks.length
      have := le_max_left N M
      omega
    have hfM : M ≤ fuel := by
      have := le_max_left (max N M) blocks.length
      have := le_max_right N M
      omega
    have hfl : blocks.length ≤ fuel := by
      have := le_max_right (max N M) blocks.length
      omega
    have hsk := skip_array_truncated (avro_skip_data env fuel) items blocks hok
      (fun b hb x hx p R => (hN fuel hfN b hb x hx p R).1)
      (fun b hb x hx P hP p => (hM fuel hfM b hb x hx P hP p).1) fuel p P
    constructor
    · obtain ⟨rval, reader1, md1, h1, hne⟩ := hsk none hfl trivial hP
      exact ⟨rval, reader1, by simp only [avro_skip_data, h1, drop_datum, Option.map_some'],
        hne⟩
    · intro md0
      obtain ⟨rval, reader1, md1, h1, hne⟩ := hsk (some avro_array) hfl trivial hP
      exact ⟨rval, reader1, md1, by simp only [avro_map_data]; exact h1, hne⟩
  | map values blocks hok hkeys hel ih =>
    obtain ⟨N, hN⟩ := exists_uniform_fuel blocks
      (fun b fuel => ∀ x ∈ b.entries, consumes env values x.2.2 fuel)
      (fun b hb => exists_uniform_fuel b.entries (fun x fuel => consumes env values x.2.2 fuel)
        (fun x hx => encodes_consumes env values x.2.1 x.2.2 (hel b hb x hx)))
    obtain ⟨M, hM⟩ := exists_uniform_fuel blocks
      (fun b fuel => ∀ x ∈ b.entries, ∀ P, truncated x.2.2 P → rejects env values P fuel)
      (fun b hb => exists_uniform_fuel b.entries
        (fun x fuel => ∀ P, truncated x.2.2 P → rejects env values P fuel)
        (fun x hx => ih b hb x hx))
    refine rejects_of_skip env _ _ (by simp) (by simp) (max (max N M) blocks.length + 1)
      (fun fuel hf P hP p => ?_)
    obtain ⟨fuel, rfl⟩ : ∃ m, fuel = m + 1 := ⟨fuel - 1, by omega⟩
    have hfN : N ≤ fuel := by
      have := le_max_left (max N M) blocks.length
      have := le_max_left N M
      omega
    have hfM : M ≤ fuel := by
      have := le_max_left (max N M) blocks.length
      have := le_max_right N M
      omega
    have hfl : blocks.length ≤ fuel := by
      have := le_max_right (max N M) blocks.length
      omega
    obtain ⟨rval, reader1, h1, hne⟩ := skip_map_truncated (avro_skip_data env fuel) values
      blocks hok hkeys
      (fun b hb x hx p R => (hN fuel hfN b hb x hx p R).1)
      (fun b hb x hx P hP p => (hM fuel hfM b hb x hx P hP p).1) fuel p P hfl hP
    exact ⟨rval, reader1, by simp only [avro_skip_data, h1], hne⟩
  | union branches index branch v bytes hbr hidx _ ih =>
    obtain ⟨N, hN⟩ := ih
    refine rejects_of_skip env _ _ (by simp) (by simp) (N + 1) (fun fuel hf P hP p => ?_)
    obtain ⟨fuel, rfl⟩ : ∃ m, fuel = m + 1 := ⟨fuel - 1, by omega⟩
    have hv : in_int64 (index : Int) := by unfold in_int64; omega
    have hneg : ¬ ((index : Int) < 0) := by omega
    rcases truncated_append hP with h1 | ⟨Q, rfl, hQ⟩
    · have hf := read_long_truncated _ p P h1
      simp only [avro_skip_data, skip_union, read_long_binary]
      rcases hrl : read_long ⟨p, P⟩ with ⟨rval, c, reader1⟩
      rw [hrl] at hf
      simp only at hf ⊢
      simp only [hf, ne_eq, not_false_eq_true, if_true]
      exact ⟨_, _, rfl, hf⟩
    · obtain ⟨rval, reader1, h1, hne⟩ :=
        (hN fuel (by omega) Q hQ (p + (encode_long (index : Int)).length)).1
      refine ⟨rval, reader1, ?_, hne⟩
      simp only [avro_skip_data, skip_union, read_long_binary,
        read_long_encode _ hv, ne_eq, not_true_eq_false, if_false, avro_schema_union_branch, hneg,
        Int.toNat_ofNat, hbr, h1]
  | record parts hel ih =>
    obtain ⟨N, hN⟩ := exists_uniform_fuel parts
      (fun x fuel => consumes env x.1.2 x.2.2 fuel)
      (fun x hx => encodes_consumes env x.1.2 x.2.1 x.2.2 (hel x hx))
    obtain ⟨M, hM⟩ := exists_uniform_fuel parts
      (fun x fuel => ∀ P, truncated x.2.2 P → rejects env x.1.2 P fuel) ih
    refine ⟨max N M + 1, fun fuel hf P hP p => ?_⟩
    obtain ⟨fuel, rfl⟩ : ∃ m, fuel = m + 1 := ⟨fuel - 1, by omega⟩
    have hfN : N ≤ fuel := by have := le_max_left N M; omega
    have hfM : M ≤ fuel := by have := le_max_right N M; omega
    have hsk := skip_record_truncated (avro_skip_data env fuel) (avro_map_data env fuel) parts
      (fun x hx p R => (hN fuel hfN x hx p R).1)
      (fun x hx p R => (hN fuel hfN x hx p R).2 none)
      (fun x hx P hP p => (hM fuel hfM x hx P hP p).1)
      (fun x hx P hP p => (hM fuel hfM x hx P hP p).2 none) p P
    constructor
    · obtain ⟨rval, reader1, md1, h1, hne⟩ := hsk none hP
      exact ⟨rval, reader1, by simp only [avro_skip_data, h1, drop_datum, Option.map_some'],
        hne⟩
    · intro md0
      obtain ⟨rval, reader1, md1, h1, hne⟩ := hsk
        (some (avro_datum_t.record ([] ++ ["__offset"])
          (record_put [] "__offset" (avro_int64 (avro_reader_file_ftell ⟨p, P⟩))))) hP
      exact ⟨rval, reader1, md1, by
        simp only [avro_map_data, avro_schema_record_field_append, avro_record_set, avro_record,
          ne_eq, not_true_eq_false, if_false]
        exact h1, hne⟩
  | link target v bytes _ ih =>
    obtain ⟨N, hN⟩ := ih
    refine rejects_of_skip env _ _ (by simp) (by simp) (N + 1) (fun fuel hf P hP p => ?_)
    obtain ⟨fuel, rfl⟩ : ∃ m, fuel = m + 1 := ⟨fuel - 1, by omega⟩
    obtain ⟨rval, reader1, h1, hne⟩ := (hN fuel (by omega) P hP p).1
    exact ⟨rval, reader1, by simp only [avro_skip_data, h1], hne⟩
/-! ## Termination on guarded schemas -/

/-- When the link targets resolve every schema resolves, the link targets by
assumption and the others by their structure. -/
theorem links_resolve_all (env : Nat → avro_schema_t) (hg : links_resolve env) :
    ∀ s, resolves_unguarded env s := by
  intro s
  refine @avro_schema_t.rec (fun s => resolves_unguarded env s) (fun _ => True)
    (fun fields => ∀ f ∈ fields, resolves_unguarded env f.2)
    (fun f => resolves_unguarded env f.2)
    resolves_unguarded.null resolves_unguarded.boolean resolves_unguarded.string
    resolves_unguarded.int32 resolves_unguarded.int64 resolves_unguarded.float
    resolves_unguarded.double resolves_unguarded.bytes
    (fun size => resolves_unguarded.fixed size)
    (fun symbols => resolves_unguarded.enum symbols)
    (fun items _ => resolves_unguarded.array items)
    (fun values _ => resolves_unguarded.map values)
    (fun branches _ => resolves_unguarded.union branches)
    (fun fields h => resolves_unguarded.record fields h)
    (fun target => resolves_unguarded.link target (hg target))
    trivial (fun _ _ _ _ => trivial)
    (fun f hf => absurd hf (List.not_mem_nil f))
    (fun head tail hh ht f hf => by
      rcases List.mem_cons.mp hf with rfl | h
      · exact hh
      · exact ht f h)
    (fun _ _ h => h) s

theorem skip_array_items_halts (env : Nat → avro_schema_t) (items : avro_schema_t) (L : Nat)
    (H : ∀ reader : avro_reader_t, reader.rest.length < L →
      ∃ F res, avro_skip_data env F items reader = some res) :
    ∀ (n : Nat) (i : Int) (reader : avro_reader_t) (md : Option avro_datum_t),
      reader.rest.length < L →
      ∃ F res, skip_array_items (avro_skip_data env F) items n i reader md = some res := by
  intro n
  induction n with
  | zero =>
    intro i reader md _
    exact ⟨0, _, rfl⟩
  | succ n ih =>
    intro i reader md hlen
    rcases happ : append_position (decide (i.tmod DEFAULT_CHUNK_SIZE = 0)) reader md
      with ⟨rval0, mapped1⟩
    by_cases h0 : rval0 = 0
    · obtain ⟨F1, ⟨rval, reader1⟩, hsk⟩ := H reader hlen
      by_cases hr : rval = 0
      · have hadv := (avro_data_advanced env F1).1 _ _ _ hsk
        obtain ⟨F2, res2, h2⟩ := ih (i + 1) reader1 mapped1
          (lt_of_le_of_lt (advanced_length hadv) hlen)
        refine ⟨max F1 F2, res2, ?_⟩
        unfold skip_array_items
        rw [happ]
        simp only [h0, ne_eq, not_true_eq_false, if_false]
        rw [avro_skip_data_mono env _ _ _ F1 (max F1 F2) (le_max_left _ _) hsk]
        simp only [hr, ne_eq, not_true_eq_false, if_false]
        exact skip_array_items_mono _ _ items
          (fun r res h => avro_skip_data_mono env _ _ _ F2 _ (le_max_right _ _) h) _ _ _ _ _ h2
      · refine ⟨F1, (rval, reader1, mapped1), ?_⟩
        unfold skip_array_items
        rw [happ]
        simp only [h0, ne_eq, not_true_eq_false, if_false]
        rw [hsk]
        simp only [hr, ne_eq, not_false_eq_true, if_true]
    · refine ⟨0, (rval0, reader, mapped1), ?_⟩
      unfold skip_array_items
      rw [happ]
      simp only [h0, ne_eq, not_false_eq_true, if_true]

theorem skip_array_blocks_halts (env : Nat → avro_schema_t) (items : avro_schema_t) (L : Nat)
    (H : ∀ reader : avro_reader_t, reader.rest.length < L →
      ∃ F res, avro_skip_data env F items reader = some res) :
    ∀ (m : Nat) (c : Int) (reader : avro_reader_t) (md : Option avro_datum_t),
      reader.rest.length = m → m < L →
      ∃ F G res, skip_array_blocks avro_binary_encoding (avro_skip_data env F) items G c
        reader md = some res := by
  intro m
  induction m using Nat.strong_induction_on with
  | _ m ih =>
    intro c reader md hm hL
    by_cases hc : c = 0
    · refine ⟨0, 0, (0, reader, md), ?_⟩
      unfold skip_array_blocks
      simp only [hc, if_true]
    · rcases hrb : read_block_size avro_binary_encoding c reader with ⟨rval0, count, reader1⟩
      have ha1 := read_block_size_advanced c reader
      rw [hrb] at ha1
      simp only at ha1
      by_cases h0 : rval0 = 0
      · obtain ⟨F1, ⟨rval, reader2, mapped2⟩, hit⟩ :=
          skip_array_items_halts env items L H count.toNat 0 reader1 md
            (lt_of_le_of_lt (advanced_length ha1) (hm ▸ hL))
        have ha2 := (skip_array_items_track (fun _ _ => True) (fun _ _ _ _ => trivial)
          (fun _ _ _ _ _ => trivial) _ items
          (fun r res hr => (avro_data_advanced env F1).1 items r res hr) _ _ _ _ _ trivial
          hit).1
        simp only at ha2
        by_cases hr : rval = 0
        · rcases hap : append_position (decide (count.tmod DEFAULT_CHUNK_SIZE ≠ 0)) reader2
            mapped2 with ⟨rval1, mapped3⟩
          by_cases h1 : rval1 = 0
          · rcases hrl : read_long reader2 with ⟨rval3, next_count, reader3⟩
            have ha3 := read_long_advanced reader2
            rw [hrl] at ha3
            simp only at ha3
            by_cases h3 : rval3 = 0
            · have hlt : reader3.rest.length < m := by
                have e1 := ha3.2 h3
                have e2 := advanced_length ha2
                have e3 := advanced_length ha1
                omega
              obtain ⟨F2, G2, res, hrec⟩ := ih reader3.rest.length hlt next_count reader3
                mapped3 rfl (lt_trans hlt hL)
              refine ⟨max F1 F2, G2 + 1, res, ?_⟩
              unfold skip_array_blocks
              simp only [hc, if_false]
              rw [hrb]
              simp only [h0, ne_eq, not_true_eq_false, if_false]
              rw [skip_array_items_mono _ _ items
                (fun r res h => avro_skip_data_mono env _ _ _ F1 _ (le_max_left _ F2) h)
                _ _ _ _ _ hit]
              simp only [hr, ne_eq, not_true_eq_false, if_false]
              rw [hap]
              simp only [h1, ne_eq, not_true_eq_false, if_false, read_long_binary]
              rw [hrl]
              simp only [h3, ne_eq, not_true_eq_false, if_false]
              exact skip_array_blocks_mono _ _ _ items
                (fun r res h => avro_skip_data_mono env _ _ _ F2 _ (le_max_right F1 _) h)
                _ _ _ _ _ _ (le_refl _) hrec
            · refine ⟨F1, 0 + 1, (rval3, reader3, mapped3), ?_⟩
              unfold skip_array_blocks
              simp only [hc, if_false]
              rw [hrb]
              simp only [h0, ne_eq, not_true_eq_false, if_false]
              rw [hit]
              simp only [hr, ne_eq, not_true_eq_false, if_false]
              rw [hap]
              simp only [h1, ne_eq, not_true_eq_false, if_false, read_long_binary]
              rw [hrl]
              simp only [h3, ne_eq, not_false_eq_true, if_true]
          · refine ⟨F1, 0 + 1, (rval1, reader2, mapped3), ?_⟩
            unfold skip_array_blocks
            simp only [hc, if_false]
            rw [hrb]
            simp only [h0, ne_eq, not_true_eq_false, if_false]
            rw [hit]
            simp only [hr, ne_eq, not_true_eq_false, if_false]
            rw [hap]
            simp only [h1, ne_eq, not_false_eq_true, if_true]
        · refine ⟨F1, 0 + 1, (rval, reader2, mapped2), ?_⟩
          unfold skip_array_blocks
          simp only [hc, if_false]
          rw [hrb]
          simp only [h0, ne_eq, not_true_eq_false, if_false]
          rw [hit]
          simp only [hr, ne_eq, not_false_eq_true, if_true]
      · refine ⟨0, 0 + 1, (rval0, reader1, md), ?_⟩
        unfold skip_array_blocks
        simp only [hc, if_false]
        rw [hrb]
        simp only [h0, ne_eq, not_false_eq_true, if_true]

theorem skip_array_halts (env : Nat → avro_schema_t) (items : avro_schema_t) (L : Nat)
    (H : ∀ reader : avro_reader_t, reader.rest.length < L →
      ∃ F res, avro_skip_data env F items reader = some res)
    (reader : avro_reader_t) (md : Option avro_datum_t) (hlen : reader.rest.length ≤ L) :
    ∃ F res, skip_array avro_binary_encoding (avro_skip_data env F) F items reader md =
      some res := by
  rcases hrl : read_long reader with ⟨rval, c, reader1⟩
  have ha := read_long_advanced reader
  rw [hrl] at ha
  simp only at ha
  by_cases hr : rval = 0
  · have hlt : reader1.rest.length < L := lt_of_lt_of_le (ha.2 hr) hlen
    obtain ⟨F, G, res, h⟩ := skip_array_blocks_halts env items L H _ c reader1 md rfl hlt
    refine ⟨max F G, res, ?_⟩
    unfold skip_array
    simp only [read_long_binary]
    rw [hrl]
    simp only [hr, ne_eq, not_true_eq_false, if_false]
    exact skip_array_blocks_mono _ _ _ items
      (fun r res h => avro_skip_data_mono env _ _ _ F _ (le_max_left _ G) h)
      _ _ _ _ _ _ (le_max_right F _) h
  · refine ⟨0, (rval, reader1, md), ?_⟩
    unfold skip_array
    simp only [read_long_binary]
    rw [hrl]
    simp only [hr, ne_eq, not_false_eq_true, if_true]

theorem skip_map_items_halts (env : Nat → avro_schema_t) (values : avro_schema_t) (L : Nat)
    (H : ∀ reader : avro_reader_t, reader.rest.length < L →
      ∃ F res, avro_skip_data env F values reader = some res) :
    ∀ (n : Nat) (reader : avro_reader_t), reader.rest.length < L →
      ∃ F res, skip_map_items avro_binary_encoding (avro_skip_data env F) values n reader =
        some res := by
  intro n
  induction n with
  | zero =>
    intro reader _
    exact ⟨0, _, rfl⟩
  | succ n ih =>
    intro reader hlen
    rcases hk : skip_bytes reader with ⟨rval, reader1⟩
    have hka := skip_bytes_advanced reader
    rw [hk] at hka
    simp only at hka
    by_cases hr : rval = 0
    · obtain ⟨F1, ⟨rval2, reader2⟩, hsk⟩ := H reader1
        (lt_of_le_of_lt (advanced_length hka) hlen)
      by_cases hr2 : rval2 = 0
      · have hadv := (avro_data_advanced env F1).1 _ _ _ hsk
        obtain ⟨F2, res2, h2⟩ := ih reader2
          (lt_of_le_of_lt (le_trans (advanced_length hadv) (advanced_length hka)) hlen)
        refine ⟨max F1 F2, res2, ?_⟩
        unfold skip_map_items
        simp only [skip_string_binary]
        rw [hk]
        simp only [hr, ne_eq, not_true_eq_false, if_false]
        rw [avro_skip_data_mono env _ _ _ F1 (max F1 F2) (le_max_left _ _) hsk]
        simp only [hr2, ne_eq, not_true_eq_false, if_false]
        exact skip_map_items_mono _ _ _ values
          (fun r res h => avro_skip_data_mono env _ _ _ F2 _ (le_max_right _ _) h) _ _ _ h2
      · refine ⟨F1, (rval2, reader2), ?_⟩
        unfold skip_map_items
        simp only [skip_string_binary]
        rw [hk]
        simp only [hr, ne_eq, not_true_eq_false, if_false]
        rw [hsk]
        simp only [hr2, ne_eq, not_false_eq_true, if_true]
    · refine ⟨0, (rval, reader1), ?_⟩
      unfold skip_map_items
      simp only [skip_string_binary]
      rw [hk]
      simp only [hr, ne_eq, not_false_eq_true, if_true]

theorem skip_map_blocks_halts (env : Nat → avro_schema_t) (values : avro_schema_t) (L : Nat)
    (H : ∀ reader : avro_reader_t, reader.rest.length < L →
      ∃ F res, avro_skip_data env F values reader = some res) :
    ∀ (m : Nat) (c : Int) (reader : avro_reader_t),
      reader.rest.length = m → m < L →
      ∃ F G res, skip_map_blocks avro_binary_encoding (avro_skip_data env F) values G c
        reader = some res := by
  intro m
  induction m using Nat.strong_induction_on with
  | _ m ih =>
    intro c reader hm hL
    by_cases hc : c = 0
    · refine ⟨0, 0, (0, reader), ?_⟩
      unfold skip_map_blocks
      simp only [hc, if_true]
    · rcases hrb : read_block_size avro_binary_encoding c reader with ⟨rval0, count, reader1⟩
      have ha1 := read_block_size_advanced c reader
      rw [hrb] at ha1
      simp only at ha1
      by_cases h0 : rval0 = 0
      · obtain ⟨F1, ⟨rval, reader2⟩, hit⟩ :=
          skip_map_items_halts env values L H count.toNat reader1
            (lt_of_le_of_lt (advanced_length ha1) (hm ▸ hL))
        have ha2 := skip_map_items_advanced _ values
          (fun r res hr => (avro_data_advanced env F1).1 values r res hr) _ _ _ hit
        simp only at ha2
        by_cases hr : rval = 0
        · rcases hrl : read_long reader2 with ⟨rval3, next_count, reader3⟩
          have ha3 := read_long_advanced reader2
          rw [hrl] at ha3
          simp only at ha3
          by_cases h3 : rval3 = 0
          · have hlt : reader3.rest.length < m := by
              have e1 := ha3.2 h3
              have e2 := advanced_length ha2
              have e3 := advanced_length ha1
              omega
            obtain ⟨F2, G2, res, hrec⟩ := ih reader3.rest.length hlt next_count reader3
              rfl (lt_trans hlt hL)
            refine ⟨max F1 F2, G2 + 1, res, ?_⟩
            unfold skip_map_blocks
            simp only [hc, if_false]
            rw [hrb]
            simp only [h0, ne_eq, not_true_eq_false, if_false]
            rw [skip_map_items_mono _ _ _ values
              (fun r res h => avro_skip_data_mono env _ _ _ F1 _ (le_max_left _ F2) h)
              _ _ _ hit]
            simp only [hr, ne_eq, not_true_eq_false, if_false, read_long_binary]
            rw [hrl]
            simp only [h3, ne_eq, not_true_eq_false, if_false]
            exact skip_map_blocks_mono _ _ _ values
              (fun r res h => avro_skip_data_mono env _ _ _ F2 _ (le_max_right F1 _) h)
              _ _ _ _ _ (le_refl _) hrec
          · refine ⟨F1, 0 + 1, (rval3, reader3), ?_⟩
            unfold skip_map_blocks
            simp only [hc, if_false]
            rw [hrb]
            simp only [h0, ne_eq, not_true_eq_false, if_false]
            rw [hit]
            simp only [hr, ne_eq, not_true_eq_false, if_false, read_long_binary]
            rw [hrl]
            simp only [h3, ne_eq, not_false_eq_true, if_true]
        · refine ⟨F1, 0 + 1, (rval, reader2), ?_⟩
          unfold skip_map_blocks
          simp only [hc, if_false]
          rw [hrb]
          simp only [h0, ne_eq, not_true_eq_false, if_false]
          rw [hit]
          simp only [hr, ne_eq, not_false_eq_true, if_true]
      · refine ⟨0, 0 + 1, (rval0, reader1), ?_⟩
        unfold skip_map_blocks
        simp only [hc, if_false]
        rw [hrb]
        simp only [h0, ne_eq, not_false_eq_true, if_true]

theorem skip_map_halts (env : Nat → avro_schema_t) (values : avro_schema_t) (L : Nat)
    (H : ∀ reader : avro_reader_t, reader.rest.length < L →
      ∃ F res, avro_skip_data env F values reader = some res)
    (reader : avro_reader_t) (hlen : reader.rest.length ≤ L) :
    ∃ F res, skip_map avro_binary_encoding (avro_skip_data env F) F values reader =
      some res := by
  rcases hrl : read_long reader with ⟨rval, c, reader1⟩
  have ha := read_long_advanced reader
  rw [hrl] at ha
  simp only at ha
  by_cases hr : rval = 0
  · have hlt : reader1.rest.length < L := lt_of_lt_of_le (ha.2 hr) hlen
    obtain ⟨F, G, res, h⟩ := skip_map_blocks_halts env values L H _ c reader1 rfl hlt
    refine ⟨max F G, res, ?_⟩
    unfold skip_map
    simp only [read_long_binary]
    rw [hrl]
    simp only [hr, ne_eq, not_true_eq_false, if_false]
    exact skip_map_blocks_mono _ _ _ values
      (fun r res h => avro_skip_data_mono env _ _ _ F _ (le_max_left _ G) h)
      _ _ _ _ _ (le_max_right F _) h
  · refine ⟨0, (rval, reader1), ?_⟩
    unfold skip_map
    simp only [read_long_binary]
    rw [hrl]
    simp only [hr, ne_eq, not_false_eq_true, if_true]

theorem union_branch_mem (branches : List avro_schema_t) (index : Int)
    (branch : avro_schema_t) (h : avro_schema_union_branch branches index = some branch) :
    branch ∈ branches := by
  unfold avro_schema_union_branch at h
  split at h
  · exact absurd h (by simp)
  · exact List.getElem?_mem h

theorem skip_union_halts (env : Nat → avro_schema_t) (branches : List avro_schema_t) (L : Nat)
    (H : ∀ s ∈ branches, ∀ reader : avro_reader_t, reader.rest.length < L →
      ∃ F res, avro_skip_data env F s reader = some res)
    (reader : avro_reader_t) (hlen : reader.rest.length ≤ L) :
    ∃ F res, skip_union avro_binary_encoding (avro_skip_data env F) branches reader =
      some res := by
  rcases hrl : read_long reader with ⟨rval, index, reader1⟩
  have ha := read_long_advanced reader
  rw [hrl] at ha
  simp only at ha
  by_cases hr : rval = 0
  · have hlt : reader1.rest.length < L := lt_of_lt_of_le (ha.2 hr) hlen
    cases hb : avro_schema_union_branch branches index with
    | none =>
      refine ⟨0, (EILSEQ, reader1), ?_⟩
      unfold skip_union
      simp only [read_long_binary]
      rw [hrl]
      simp only [hr, ne_eq, not_true_eq_false, if_false, hb]
    | some branch =>
      obtain ⟨F, res, h⟩ := H branch (union_branch_mem branches index branch hb) reader1 hlt
      refine ⟨F, res, ?_⟩
      unfold skip_union
      simp only [read_long_binary]
      rw [hrl]
      simp only [hr, ne_eq, not_true_eq_false, if_false, hb]
      exact h
  · refine ⟨0, (rval, reader1), ?_⟩
    unfold skip_union
    simp only [read_long_binary]
    rw [hrl]
    simp only [hr, ne_eq, not_false_eq_true, if_true]

theorem skip_record_halts (env : Nat → avro_schema_t) (L : Nat) :
    ∀ (fields : List (String × avro_schema_t)),
      (∀ f ∈ fields, ∀ reader : avro_reader_t, reader.rest.length < L →
        (∃ F res, avro_skip_data env F f.2 reader = some res) ∧
        ∃ F res, avro_map_data env F f.2 reader none = some res) →
      ∀ (reader : avro_reader_t) (md : Option avro_datum_t), reader.rest.length < L →
        ∃ F res, skip_record (avro_skip_data env F) (avro_map_data env F) fields reader md =
          some res := by
  intro fields
  induction fields with
  | nil =>
    intro _ reader md _
    exact ⟨0, _, rfl⟩
  | cons f fields ih =>
    intro H reader md hlen
    have ih2 := ih (fun g hg => H g (List.mem_cons_of_mem _ hg))
    have Hf := H f (List.mem_cons_self _ _) reader hlen
    obtain ⟨field_name, field_schema⟩ := f
    have hmono : ∀ (F2 F : Nat), F2 ≤ F → ∀ r m res,
        skip_record (avro_skip_data env F2) (avro_map_data env F2) fields r m = some res →
        skip_record (avro_skip_data env F) (avro_map_data env F) fields r m = some res :=
      fun F2 F hle r m res h => skip_record_mono _ _ _ _
        (fun s r res h => avro_skip_data_mono env _ _ _ F2 F hle h)
        (fun s r md res h => avro_map_data_mono env _ _ _ _ F2 F hle h) fields r m res h
    cases md with
    | none =>
      obtain ⟨F1, ⟨rval, reader1⟩, hsk⟩ := Hf.1
      by_cases hr : rval = 0
      · have hadv := (avro_data_advanced env F1).1 _ _ _ hsk
        obtain ⟨F2, res2, h2⟩ := ih2 reader1 none
          (lt_of_le_of_lt (advanced_length hadv) hlen)
        refine ⟨max F1 F2, res2, ?_⟩
        simp only [skip_record]
        rw [avro_skip_data_mono env _ _ _ F1 (max F1 F2) (le_max_left _ _) hsk]
        simp only [hr, ne_eq, not_true_eq_false, if_false]
        exact hmono F2 _ (le_max_right _ _) _ _ _ h2
      · refine ⟨F1, (rval, reader1, none), ?_⟩
        simp only [skip_record]
        rw [hsk]
        simp only [hr, ne_eq, not_false_eq_true, if_true]
    | some datum =>
      obtain ⟨F1, ⟨rval, reader1, mfd⟩, hsk⟩ := Hf.2
      have hadv := (avro_data_advanced env F1).2 _ _ _ _ hsk
      have hl1 : reader1.rest.length < L := lt_of_le_of_lt (advanced_length hadv) hlen
      by_cases hr : rval = 0
      · cases mfd with
        | none =>
          obtain ⟨F2, res2, h2⟩ := ih2 reader1 (some datum) hl1
          refine ⟨max F1 F2, res2, ?_⟩
          simp only [skip_record]
          rw [avro_map_data_mono env _ _ _ _ F1 (max F1 F2) (le_max_left _ _) hsk]
          simp only [hr, ne_eq, not_true_eq_false, if_false]
          exact hmono F2 _ (le_max_right _ _) _ _ _ h2
        | some fd =>
          by_cases h1 : (avro_schema_record_field_append datum field_name).1 = 0
          · by_cases h2 : (avro_record_set (avro_schema_record_field_append datum
                field_name).2 field_name fd).1 = 0
            · obtain ⟨F2, res2, hrec⟩ := ih2 reader1
                (some (avro_record_set (avro_schema_record_field_append datum
                  field_name).2 field_name fd).2) hl1
              refine ⟨max F1 F2, res2, ?_⟩
              simp only [skip_record]
              rw [avro_map_data_mono env _ _ _ _ F1 (max F1 F2) (le_max_left _ _) hsk]
              simp only [hr, ne_eq, not_true_eq_false, if_false, h1, h2]
              exact hmono F2 _ (le_max_right _ _) _ _ _ hrec
            · refine ⟨F1, ((avro_record_set (avro_schema_record_field_append datum
                field_name).2 field_name fd).1, reader1,
                some (avro_record_set (avro_schema_record_field_append datum
                  field_name).2 field_name fd).2), ?_⟩
              simp only [skip_record]
              rw [hsk]
              simp only [hr, ne_eq, not_true_eq_false, if_false, h1, h2, not_false_eq_true,
                if_true]
          · refine ⟨F1, ((avro_schema_record_field_append datum field_name).1, reader1,
              some (avro_schema_record_field_append datum field_name).2), ?_⟩
            simp only [skip_record]
            rw [hsk]
            simp only [hr, ne_eq, not_true_eq_false, if_false, h1, not_false_eq_true, if_true]
      · refine ⟨F1, (rval, reader1, some datum), ?_⟩
        simp only [skip_record]
        rw [hsk]
        simp only [hr, ne_eq, not_false_eq_true, if_true]

theorem avro_map_data_default (env : Nat → avro_schema_t) (s : avro_schema_t)
    (hs : ∀ items, s ≠ avro_schema_t.array items) (hr : ∀ fields, s ≠ avro_schema_t.record fields)
    (F : Nat) (reader : avro_reader_t) (res : Int × avro_reader_t)
    (h : avro_skip_data env F s reader = some res) (md : Option avro_datum_t) :
    avro_map_data env (F + 1) s reader md = some (res.1, res.2, md) := by
  cases s <;> first
    | exact absurd rfl (hs _)
    | exact absurd rfl (hr _)
    | simp only [avro_map_data, h]

/-- On a guarded schema both traversals return on every finite input, and so
they do on every schema they come to. -/
theorem avro_data_halts (env : Nat → avro_schema_t) (s : avro_schema_t)
    (hg : guarded env s) :
    ∀ (L : Nat) (x : avro_schema_t) (reader : avro_reader_t), reachable env s x →
      reader.rest.length < L →
      (∃ F res, avro_skip_data env F x reader = some res) ∧
      ∃ F, ∀ md, ∃ res, avro_map_data env F x reader md = some res := by
  intro L
  induction L with
  | zero =>
    intro x reader _ hlen
    exact absurd hlen (Nat.not_lt_zero _)
  | succ L ih =>
    intro x reader hx hlen
    have hs := hg x hx
    have prim : ∀ (s : avro_schema_t) (reader : avro_reader_t),
        (∀ items, s ≠ avro_schema_t.array items) →
        (∀ fields, s ≠ avro_schema_t.record fields) →
        (∃ F res, avro_skip_data env F s reader = some res) →
        (∃ F res, avro_skip_data env F s reader = some res) ∧
          ∃ F, ∀ md, ∃ res, avro_map_data env F s reader md = some res := by
      intro s reader h1 h2 h
      obtain ⟨F, res, hsk⟩ := h
      exact ⟨⟨F, res, hsk⟩, F + 1, fun md =>
        ⟨_, avro_map_data_default env s h1 h2 F reader res hsk md⟩⟩
    induction hs generalizing reader with
    | null => exact prim _ _ (by simp) (by simp) ⟨1, _, rfl⟩
    | boolean => exact prim _ _ (by simp) (by simp) ⟨1, _, rfl⟩
    | string => exact prim _ _ (by simp) (by simp) ⟨1, _, rfl⟩
    | int32 => exact prim _ _ (by simp) (by simp) ⟨1, _, rfl⟩
    | int64 => exact prim _ _ (by simp) (by simp) ⟨1, _, rfl⟩
    | float => exact prim _ _ (by simp) (by simp) ⟨1, _, rfl⟩
    | double => exact prim _ _ (by simp) (by simp) ⟨1, _, rfl⟩
    | bytes => exact prim _ _ (by simp) (by simp) ⟨1, _, rfl⟩
    | fixed size => exact prim _ _ (by simp) (by simp) ⟨1, _, rfl⟩
    | enum symbols => exact prim _ _ (by simp) (by simp) ⟨1, _, rfl⟩
    | array items =>
      have H : ∀ r : avro_reader_t, r.rest.length < L →
          ∃ F res, avro_skip_data env F items r = some res :=
        fun r hr => (ih items r (reachable.items items hx) hr).1
      constructor
      · obtain ⟨F, res, h⟩ := skip_array_halts env items L H reader none
          (Nat.lt_succ_iff.mp hlen)
        exact ⟨F + 1, (res.1, res.2.1), by
          simp only [avro_skip_data, h, drop_datum, Option.map_some']⟩
      · obtain ⟨F, res, h⟩ := skip_array_halts env items L H reader (some avro_array)
          (Nat.lt_succ_iff.mp hlen)
        exact ⟨F + 1, fun md => ⟨res, by simp only [avro_map_data]; exact h⟩⟩
    | map values =>
      have H : ∀ r : avro_reader_t, r.rest.length < L →
          ∃ F res, avro_skip_data env F values r = some res :=
        fun r hr => (ih values r (reachable.values values hx) hr).1
      obtain ⟨F, res, h⟩ := skip_map_halts env values L H reader (Nat.lt_succ_iff.mp hlen)
      exact prim _ _ (by simp) (by simp) ⟨F + 1, res, by simp only [avro_skip_data]; exact h⟩
    | union branches =>
      obtain ⟨F, res, h⟩ := skip_union_halts env branches L
        (fun b hb r hr => (ih b r (reachable.branch branches b hx hb) hr).1)
        reader (Nat.lt_succ_iff.mp hlen)
      exact prim _ _ (by simp) (by simp) ⟨F + 1, res, by simp only [avro_skip_data]; exact h⟩
    | record fields _ ihf =>
      have H : ∀ f ∈ fields, ∀ r : avro_reader_t, r.rest.length < L + 1 →
          (∃ F res, avro_skip_data env F f.2 r = some res) ∧
          ∃ F res, avro_map_data env F f.2 r none = some res := by
        intro f hf r hr
        obtain ⟨h1, F, h2⟩ := ihf f hf r (reachable.field fields f hx hf) hr
        exact ⟨h1, F, h2 none⟩
      constructor
      · obtain ⟨F, res, h⟩ := skip_record_halts env (L + 1) fields H reader none hlen
        exact ⟨F + 1, (res.1, res.2.1), by
          simp only [avro_skip_data, h, drop_datum, Option.map_some']⟩
      · obtain ⟨F, res, h⟩ := skip_record_halts env (L + 1) fields H reader
          (some (avro_datum_t.record ([] ++ ["__offset"])
            (record_put [] "__offset" (avro_int64 (avro_reader_file_ftell reader))))) hlen
        exact ⟨F + 1, fun md => ⟨res, by
          simp only [avro_map_data, avro_schema_record_field_append, avro_record_set,
            avro_record, ne_eq, not_true_eq_false, if_false]
          exact h⟩⟩
    | link target _ iht =>
      obtain ⟨⟨F, res, h⟩, _⟩ := iht reader (reachable.target target hx) hlen
      exact prim _ _ (by simp) (by simp) ⟨F + 1, res, by simp only [avro_skip_data]; exact h⟩
/-! ## What `*mapped_datum` holds when mapping a record returns -/

theorem record_put_keeps (key name : String) (value : avro_datum_t) :
    ∀ (fields : List (String × avro_datum_t)),
      (fields.find? (fun kv => kv.1 = key)).isSome = true →
      ((record_put fields name value).find? (fun kv => kv.1 = key)).isSome = true := by
  intro fields
  induction fields with
  | nil =>
    intro h
    exact absurd h Bool.false_ne_true
  | cons kv rest ih =>
    intro h
    obtain ⟨k, v⟩ := kv
    simp only [record_put]
    by_cases hk : k = key
    · by_cases hn : k = name
      · rw [if_pos hn]
        simp only [List.find?_cons, hk, decide_True, Option.isSome_some]
      · rw [if_neg hn]
        simp only [List.find?_cons, hk, decide_True, Option.isSome_some]
    · simp only [List.find?_cons, hk, decide_False] at h
      by_cases hn : k = name
      · rw [if_pos hn]
        simp only [List.find?_cons, hk, decide_False]
        exact h
      · rw [if_neg hn]
        simp only [List.find?_cons, hk, decide_False]
        exact ih h

/-- The loop of `skip_record` with a mapped record leaves, whatever its status,
a record datum, and an entry named `__offset` that was there is still there. -/
theorem skip_record_keeps_offset
    (skip_data : avro_schema_t → avro_reader_t → Option (Int × avro_reader_t))
    (map_data : avro_schema_t → avro_reader_t → Option avro_datum_t →
      Option (Int × avro_reader_t × Option avro_datum_t)) :
    ∀ (fields : List (String × avro_schema_t)) (reader : avro_reader_t)
      (names : List String) (entries : List (String × avro_datum_t))
      (res : Int × avro_reader_t × Option avro_datum_t),
      (avro_record_get (avro_datum_t.record names entries) "__offset").isSome = true →
      skip_record skip_data map_data fields reader
        (some (avro_datum_t.record names entries)) = some res →
      ∃ names1 entries1, res.2.2 = some (avro_datum_t.record names1 entries1) ∧
        (avro_record_get (avro_datum_t.record names1 entries1) "__offset").isSome = true := by
  intro fields
  induction fields with
  | nil =>
    intro reader names entries res hoff h
    simp only [skip_record, Option.some.injEq] at h
    subst h
    exact ⟨names, entries, rfl, hoff⟩
  | cons f fields ih =>
    intro reader names entries res hoff h
    obtain ⟨field_name, field_schema⟩ := f
    simp only [skip_record] at h
    cases hs : map_data field_schema reader none with
    | none => simp [hs] at h
    | some x =>
      obtain ⟨rval, reader1, mfd⟩ := x
      simp only [hs] at h
      by_cases hr : rval = 0
      · simp only [hr, ne_eq, not_true_eq_false, if_false] at h
        cases mfd with
        | none => exact ih _ _ _ _ hoff h
        | some fd =>
          simp only [avro_schema_record_field_append, avro_record_set, ne_eq,
            not_true_eq_false, if_false] at h
          refine ih _ _ _ _ ?_ h
          simp only [avro_record_get, Option.isSome_map'] at hoff ⊢
          exact record_put_keeps "__offset" field_name fd entries hoff
      · simp only [hr, ne_eq, not_false_eq_true, if_true, Option.some.injEq] at h
        subst h
        exact ⟨names, entries, rfl, hoff⟩

/-- Whatever the input and the status, `avro_map_data` on a record schema hands
back a record datum that has an entry named `__offset`. -/
theorem avro_map_data_record_node (env : Nat → avro_schema_t) (fuel : Nat)
    (fields : List (String × avro_schema_t)) (reader : avro_reader_t)
    (md0 : Option avro_datum_t) (res : Int × avro_reader_t × Option avro_datum_t)
    (h : avro_map_data env fuel (avro_schema_t.record fields) reader md0 = some res) :
    ∃ names entries, res.2.2 = some (avro_datum_t.record names entries) ∧
      (avro_record_get (avro_datum_t.record names entries) "__offset").isSome = true := by
  cases fuel with
  | zero => simp [avro_map_data] at h
  | succ fuel =>
    simp only [avro_map_data, avro_schema_record_field_append, avro_record_set, avro_record,
      ne_eq, not_true_eq_false, if_false] at h
    exact skip_record_keeps_offset _ _ fields reader _ _ res (by simp [avro_record_get, record_put]) h

/-! ## The claims -/

/-- C1 (round-trip skip).  For every schema `s`, every value `v` of `s`, every
binary encoding `E` of `v` (arrays and maps split into plain or size-prefixed
blocks in any way) and arbitrary trailing bytes `R`: with enough fuel,
`avro_skip_data` on a reader at position `p` holding `E ++ R` returns 0 and
leaves the reader at position `p + E.length`, holding `R`. -/
theorem skip_round_trip (env : Nat → avro_schema_t) (s : avro_schema_t) (v : avro_value)
    (E : List Nat) (h : Encodes env s v E) :
    ∃ n, ∀ fuel, n ≤ fuel → ∀ (p : Nat) (R : List Nat),
      avro_skip_data env fuel s ⟨p, E ++ R⟩ = some (0, ⟨p + E.length, R⟩) := by
  obtain ⟨n, hn⟩ := encodes_consumes env s v E h
  exact ⟨n, fun fuel hf p R => (hn fuel hf p R).1⟩

theorem skip_round_trip_witness :
    Encodes (fun _ => avro_schema_t.null) (avro_schema_t.array avro_schema_t.int64)
        (avro_value.array [avro_value.long 1, avro_value.long 2]) [3, 4, 2, 4, 0] ∧
      ∃ n, ∀ fuel, n ≤ fuel → ∀ (p : Nat) (R : List Nat),
        avro_skip_data (fun _ => avro_schema_t.null) fuel
            (avro_schema_t.array avro_schema_t.int64) ⟨p, [3, 4, 2, 4, 0] ++ R⟩ =
          some (0, ⟨p + 5, R⟩) :=
  have h : Encodes (fun _ => avro_schema_t.null) (avro_schema_t.array avro_schema_t.int64)
      (avro_value.array [avro_value.long 1, avro_value.long 2]) [3, 4, 2, 4, 0] :=
    Encodes.array avro_schema_t.int64
      [⟨some 2, [(avro_value.long 1, encode_long 1), (avro_value.long 2, encode_long 2)]⟩]
      (by
        intro b hb
        rw [List.mem_singleton] at hb
        subst hb
        refine ⟨by decide, by decide, ?_⟩
        intro h hh
        cases hh
        decide)
      (by
        intro b hb x hx
        rw [List.mem_singleton] at hb
        subst hb
        simp only [List.mem_cons, List.mem_singleton, List.not_mem_nil, or_false] at hx
        rcases hx with rfl | rfl
        · exact Encodes.int64 1 (by decide)
        · exact Encodes.int64 2 (by decide))
  ⟨h, skip_round_trip _ _ _ _ h⟩

/-- C3 (array offsets of one block).  For an array whose encoding is a single
block of `N >= 1` valid items (plain, or size-prefixed with any hint) followed
by the zero count, `avro_map_data` with enough fuel returns 0, consumes the
whole encoding and hands back the array of `block_offsets`: the reader
positions in front of the elements whose index is a multiple of 512, in order,
followed, exactly when `N` is not a multiple of 512, by the position after the
last element. -/
theorem array_single_block_offsets (env : Nat → avro_schema_t) (items : avro_schema_t)
    (size_hint : Option Int) (elems : List (avro_value × List Nat))
    (hok : block_ok size_hint elems.length)
    (henc : ∀ x ∈ elems, Encodes env items x.1 x.2) :
    ∃ n, ∀ fuel, n ≤ fuel → ∀ (p : Nat) (R : List Nat),
      avro_map_data env fuel (avro_schema_t.array items)
          ⟨p, block_header size_hint elems.length ++ (elems.map Prod.snd).flatten ++
            encode_long 0 ++ R⟩ none =
        some (0,
          ⟨p + (block_header size_hint elems.length ++ (elems.map Prod.snd).flatten ++
            encode_long 0).length, R⟩,
          some (avro_datum_t.array
            ((block_offsets (p + (block_header size_hint elems.length).length)
              (elems.map (fun x => x.2.length))).map offset_datum))) := by
  obtain ⟨N, hN⟩ := exists_uniform_fuel elems (fun x fuel => consumes env items x.2 fuel)
    (fun x hx => encodes_consumes env items x.1 x.2 (henc x hx))
  refine ⟨max N 1 + 1, fun fuel hf p R => ?_⟩
  obtain ⟨fuel, rfl⟩ : ∃ m, fuel = m + 1 := ⟨fuel - 1, by omega⟩
  have hfN : N ≤ fuel := by have := le_max_left N 1; omega
  have hf1 : 1 ≤ fuel := by have := le_max_right N 1; omega
  have hsk := skip_array_encoded (avro_skip_data env fuel) items [⟨size_hint, elems⟩]
    (by
      intro b hb
      rw [List.mem_singleton] at hb
      subst hb
      exact hok)
    (by
      intro b hb x hx p R
      rw [List.mem_singleton] at hb
      subst hb
      exact (hN fuel hfN x hx p R).1)
    fuel p R (some avro_array) (by simpa using hf1) trivial
  simp only [encode_array_blocks, array_block_body, blocks_offsets, array_block_lens,
    List.append_nil, append_offsets, avro_array, List.nil_append, List.append_assoc] at hsk
  simp only [avro_map_data, List.append_assoc, avro_array]
  exact hsk

theorem array_single_block_offsets_witness :
    block_ok none [(avro_value.long 1, [2]), (avro_value.long 64, [128, 1])].length ∧
      (∀ x ∈ [(avro_value.long 1, [2]), (avro_value.long 64, [128, 1])],
        Encodes (fun _ => avro_schema_t.null) avro_schema_t.int64 x.1 x.2) ∧
      ∃ n, ∀ fuel, n ≤ fuel → ∀ (p : Nat) (R : List Nat),
        avro_map_data (fun _ => avro_schema_t.null) fuel
            (avro_schema_t.array avro_schema_t.int64) ⟨p, [4, 2, 128, 1, 0] ++ R⟩ none =
          some (0, ⟨p + 5, R⟩,
            some (avro_datum_t.array [offset_datum (p + 1), offset_datum (p + 1 + 3)])) :=
  have hok : block_ok none
      [(avro_value.long 1, [2]), (avro_value.long 64, [128, 1])].length :=
    ⟨by decide, by decide, by intro h hh; cases hh⟩
  have henc : ∀ x ∈ [(avro_value.long 1, [2]), (avro_value.long 64, [128, 1])],
      Encodes (fun _ => avro_schema_t.null) avro_schema_t.int64 x.1 x.2 := by
    intro x hx
    simp only [List.mem_cons, List.mem_singleton, List.not_mem_nil, or_false] at hx
    rcases hx with rfl | rfl
    · exact Encodes.int64 1 (by decide)
    · exact Encodes.int64 64 (by decide)
  ⟨hok, henc, array_single_block_offsets _ _ none _ hok henc⟩

/-- C6 (which schemas yield an index).  Whenever `avro_map_data`, called with
`*mapped_datum == NULL`, returns 0, it has set `*mapped_datum` if and only if
the schema's top-level variant is Array or Record; for every other variant
(Map, Union, Link, Fixed, Enum, the scalars) `*mapped_datum` is still `NULL`,
whatever the map values, the union branches or the link target are. -/
theorem map_index_iff (env : Nat → avro_schema_t) (fuel : Nat) (s : avro_schema_t)
    (reader reader1 : avro_reader_t) (md : Option avro_datum_t)
    (h : avro_map_data env fuel s reader none = some (0, reader1, md)) :
    md.isSome = true ↔
      ((∃ items, s = avro_schema_t.array items) ∨ (∃ fields, s = avro_schema_t.record fields)) := by
  rcases avro_map_data_isSome env fuel s reader none _ h with ⟨hs, hm⟩ | ⟨hs, hm⟩
  · exact ⟨fun _ => hs, fun _ => hm⟩
  · simp only at hm
    subst hm
    exact ⟨fun hh => absurd hh (by simp), fun hh => absurd hh hs⟩

theorem map_index_iff_witness :
    avro_map_data (fun _ => avro_schema_t.array avro_schema_t.int64) 4
        (avro_schema_t.link 0) ⟨0, [4, 2, 2, 0]⟩ none = some (0, ⟨4, []⟩, none) ∧
      ((none : Option avro_datum_t).isSome = true ↔
        ((∃ items, avro_schema_t.link 0 = avro_schema_t.array items) ∨
          (∃ fields, avro_schema_t.link 0 = avro_schema_t.record fields))) :=
  ⟨by decide,
    map_index_iff (fun _ => avro_schema_t.array avro_schema_t.int64) 4 (avro_schema_t.link 0)
      ⟨0, [4, 2, 2, 0]⟩ ⟨4, []⟩ none (by decide)⟩

/-- C7 (union resolution), amended.  Let the first long of the input decode to
`d`, the reader being `reader1` afterwards.  If `d < 0` or
`d >= branches.length`, `avro_skip_data` and `avro_map_data` on a union return
`EILSEQ`; if `0 <= d < branches.length` they do exactly what `avro_skip_data`
does on branch `d` from `reader1` (one level of recursion deeper).  In
particular, for branches `[Null, Long]`, discriminant 1 followed by a long is
consumed up to the end of that long, and discriminant 2 gives `EILSEQ`.  So the
status is `EILSEQ` exactly when `d` is out of range or `d` is in range and
skipping branch `d` itself returns `EILSEQ`. -/
theorem union_resolution (env : Nat → avro_schema_t) (fuel : Nat)
    (branches : List avro_schema_t) (reader reader1 : avro_reader_t) (d : Int)
    (md0 : Option avro_datum_t) (h : read_long reader = (0, d, reader1)) :
    ((d < 0 ∨ (branches.length : Int) ≤ d) →
      avro_skip_data env (fuel + 1) (avro_schema_t.union branches) reader =
          some (EILSEQ, reader1) ∧
        avro_map_data env (fuel + 2) (avro_schema_t.union branches) reader md0 =
          some (EILSEQ, reader1, md0)) ∧
    ((0 ≤ d ∧ d < (branches.length : Int)) →
      ∃ branch, branches[d.toNat]? = some branch ∧
        avro_skip_data env (fuel + 1) (avro_schema_t.union branches) reader =
          avro_skip_data env fuel branch reader1 ∧
        avro_map_data env (fuel + 2) (avro_schema_t.union branches) reader md0 =
          (avro_skip_data env fuel branch reader1).map (fun x => (x.1, x.2, md0))) ∧
    (∀ (v : Int) (p : Nat) (R : List Nat), in_int64 v →
      avro_skip_data env (fuel + 2) (avro_schema_t.union [avro_schema_t.null, avro_schema_t.int64])
          ⟨p, encode_long 1 ++ encode_long v ++ R⟩ =
        some (0, ⟨p + (encode_long 1 ++ encode_long v).length, R⟩)) ∧
    (∀ (p : Nat) (R : List Nat),
      avro_skip_data env (fuel + 1) (avro_schema_t.union [avro_schema_t.null, avro_schema_t.int64])
          ⟨p, encode_long 2 ++ R⟩ =
        some (EILSEQ, ⟨p + (encode_long 2).length, R⟩)) ∧
    ((∃ r, avro_skip_data env (fuel + 1) (avro_schema_t.union branches) reader =
        some (EILSEQ, r)) ↔
      ((d < 0 ∨ (branches.length : Int) ≤ d) ∨
        ∃ branch, 0 ≤ d ∧ branches[d.toNat]? = some branch ∧
          ∃ r, avro_skip_data env fuel branch reader1 = some (EILSEQ, r))) := by
  have hsk : avro_skip_data env (fuel + 1) (avro_schema_t.union branches) reader =
      match avro_schema_union_branch branches d with
      | none => some (EILSEQ, reader1)
      | some branch_schema => avro_skip_data env fuel branch_schema reader1 := by
    simp only [avro_skip_data, skip_union, read_long_binary, h, ne_eq, not_true_eq_false,
      if_false]
  have hmp : avro_map_data env (fuel + 2) (avro_schema_t.union branches) reader md0 =
      (avro_skip_data env (fuel + 1) (avro_schema_t.union branches) reader).map
        (fun x => (x.1, x.2, md0)) := by
    simp only [avro_map_data]
    cases avro_skip_data env (fuel + 1) (avro_schema_t.union branches) reader <;> rfl
  refine ⟨?_, ?_, ?_, ?_, ?_⟩
  · intro hd
    have hb : avro_schema_union_branch branches d = none := by
      unfold avro_schema_union_branch
      rcases hd with hd | hd
      · simp [hd]
      · have : ¬ d < 0 := by omega
        simp only [this, if_false, List.getElem?_eq_none_iff]
        omega
    rw [hmp, hsk, hb]
    exact ⟨rfl, rfl⟩
  · intro hd
    have hlt : d.toNat < branches.length := by omega
    refine ⟨branches[d.toNat], List.getElem?_eq_getElem hlt, ?_⟩
    have hb : avro_schema_union_branch branches d = some branches[d.toNat] := by
      unfold avro_schema_union_branch
      have : ¬ d < 0 := by omega
      simp only [this, if_false, List.getElem?_eq_getElem hlt]
    rw [hmp, hsk, hb]
    exact ⟨rfl, rfl⟩
  · intro v p R hv
    have h1 : in_int64 1 := by decide
    simp only [avro_skip_data, skip_union, read_long_binary, List.append_assoc,
      read_long_encode 1 h1, ne_eq, not_true_eq_false, if_false, avro_binary_encoding]
    have hb : avro_schema_union_branch [avro_schema_t.null, avro_schema_t.int64] 1 =
        some avro_schema_t.int64 := rfl
    simp only [hb, avro_skip_data, avro_binary_encoding, skip_long_encode v hv,
      List.length_append, Nat.add_assoc]
  · intro p R
    have h2 : in_int64 2 := by decide
    simp only [avro_skip_data, skip_union, read_long_binary,
      read_long_encode 2 h2, ne_eq, not_true_eq_false, if_false]
    have hb : avro_schema_union_branch [avro_schema_t.null, avro_schema_t.int64] 2 = none :=
      rfl
    simp only [hb]
  · by_cases hd : d < 0 ∨ (branches.length : Int) ≤ d
    · have hb : avro_schema_union_branch branches d = none := by
        unfold avro_schema_union_branch
        rcases hd with hd | hd
        · simp [hd]
        · have : ¬ d < 0 := by omega
          simp only [this, if_false, List.getElem?_eq_none_iff]
          omega
      rw [hsk, hb]
      exact ⟨fun _ => Or.inl hd, fun _ => ⟨reader1, rfl⟩⟩
    · have hlt : d.toNat < branches.length := by omega
      have h0 : ¬ d < 0 := by omega
      have hb : avro_schema_union_branch branches d = some branches[d.toNat] := by
        unfold avro_schema_union_branch
        simp only [h0, if_false, List.getElem?_eq_getElem hlt]
      rw [hsk, hb]
      constructor
      · intro hr
        exact Or.inr ⟨branches[d.toNat], by omega, List.getElem?_eq_getElem hlt, hr⟩
      · rintro (hout | ⟨branch, _, hbr, hr⟩)
        · exact absurd hout hd
        · rw [List.getElem?_eq_getElem hlt, Option.some.injEq] at hbr
          rw [hbr]
          exact hr

theorem union_resolution_witness :
    read_long ⟨0, [4, 6]⟩ = (0, 2, ⟨1, [6]⟩) ∧
      avro_skip_data (fun _ => avro_schema_t.null) 1
          (avro_schema_t.union [avro_schema_t.null, avro_schema_t.int64]) ⟨0, [4, 6]⟩ =
        some (EILSEQ, ⟨1, [6]⟩) :=
  ⟨by decide,
    ((union_resolution (fun _ => avro_schema_t.null) 0
      [avro_schema_t.null, avro_schema_t.int64] ⟨0, [4, 6]⟩ ⟨1, [6]⟩ 2 none (by decide)).1
      (Or.inr (by decide))).1⟩

/-- C7 (union resolution), refuted as stated.  The schema is a union whose one
branch is a union of one branch, `Null`; the input is `[0, 10]`.  The first long
decodes to `d = 0`, which is in range, and yet `avro_skip_data` and
`avro_map_data` return `EILSEQ`: the inner union reads the discriminant 5, which
is out of its range.  So the status is `EILSEQ` without `d < 0` or `d >= n`. -/
theorem nested_union_fails_in_range :
    read_long ⟨0, [0, 10]⟩ = (0, 0, ⟨1, [10]⟩) ∧
    avro_skip_data (fun _ => avro_schema_t.null) 3
        (avro_schema_t.union [avro_schema_t.union [avro_schema_t.null]]) ⟨0, [0, 10]⟩ =
      some (EILSEQ, ⟨2, []⟩) ∧
    avro_map_data (fun _ => avro_schema_t.null) 4
        (avro_schema_t.union [avro_schema_t.union [avro_schema_t.null]]) ⟨0, [0, 10]⟩ none =
      some (EILSEQ, ⟨2, []⟩, none) ∧
    ¬ ((0 : Int) < 0 ∨
      (([avro_schema_t.union [avro_schema_t.null]] : List avro_schema_t).length : Int) ≤ 0) ∧
    ¬ ((∃ r, avro_skip_data (fun _ => avro_schema_t.null) 3
          (avro_schema_t.union [avro_schema_t.union [avro_schema_t.null]]) ⟨0, [0, 10]⟩ =
        some (EILSEQ, r)) ↔
      ((0 : Int) < 0 ∨
        (([avro_schema_t.union [avro_schema_t.null]] : List avro_schema_t).length : Int) ≤
          0)) := by
  have hev : avro_skip_data (fun _ => avro_schema_t.null) 3
      (avro_schema_t.union [avro_schema_t.union [avro_schema_t.null]]) ⟨0, [0, 10]⟩ =
      some (EILSEQ, ⟨2, []⟩) := by decide
  have hin : ¬ ((0 : Int) < 0 ∨
      (([avro_schema_t.union [avro_schema_t.null]] : List avro_schema_t).length : Int) ≤ 0) := by
    decide
  exact ⟨by decide, hev, by decide, hin, fun hiff => hin (hiff.mp ⟨_, hev⟩)⟩

/-- C8 (size-prefixed block item count), evaluated where the code departs from
it.  When the block count is the minimum `-2^63`, `block_count * -1` is again
`-2^63`: the loop reads the byte-size hint and then, without consuming any
element (or any key and value, in `skip_map`), reads the next block count: it
continues as `skip_array` (`skip_map`) does from the reader after the hint.  On the array-of-long input made of the count
`-2^63`, the hint 0 and the bytes `[2, 0, 0]`, the byte 2 is therefore read as
the count of a block of one item, not as the first of `2^63` elements. -/
theorem min_block_count_consumes_nothing :
    (∀ (enc : avro_encoding_t)
        (skip_data : avro_schema_t → avro_reader_t → Option (Int × avro_reader_t))
        (items : avro_schema_t) (fuel : Nat) (reader : avro_reader_t)
        (md : Option avro_datum_t),
      skip_array_blocks enc skip_data items (fuel + 1) (-9223372036854775808) reader md =
        if (enc.read_long reader).1 ≠ 0 then
          some ((enc.read_long reader).1, (enc.read_long reader).2.2, md)
        else skip_array enc skip_data fuel items (enc.read_long reader).2.2 md) ∧
    (∀ (enc : avro_encoding_t)
        (skip_data : avro_schema_t → avro_reader_t → Option (Int × avro_reader_t))
        (values : avro_schema_t) (fuel : Nat) (reader : avro_reader_t),
      skip_map_blocks enc skip_data values (fuel + 1) (-9223372036854775808) reader =
        if (enc.read_long reader).1 ≠ 0 then
          some ((enc.read_long reader).1, (enc.read_long reader).2.2)
        else skip_map enc skip_data fuel values (enc.read_long reader).2.2) ∧
    read_long ⟨0, [255, 255, 255, 255, 255, 255, 255, 255, 255, 1, 0, 2, 0, 0]⟩ =
      (0, -9223372036854775808, ⟨10, [0, 2, 0, 0]⟩) ∧
    avro_map_data (fun _ => avro_schema_t.null) 3 (avro_schema_t.array avro_schema_t.int64)
        ⟨0, [255, 255, 255, 255, 255, 255, 255, 255, 255, 1, 0, 2, 0, 0]⟩ none =
      some (0, ⟨14, []⟩,
        some (avro_datum_t.array [avro_datum_t.int64 12, avro_datum_t.int64 13])) := by
  have hw : wrap64 (-9223372036854775808 * -1) = -9223372036854775808 := by decide
  have ht : (decide ((-9223372036854775808 : Int).tmod DEFAULT_CHUNK_SIZE ≠ 0)) = false := by
    decide
  have hne : ¬ ((-9223372036854775808 : Int) = 0) := by decide
  have hneg : (-9223372036854775808 : Int) < 0 := by decide
  have hnat : (-9223372036854775808 : Int).toNat = 0 := by decide
  refine ⟨?_, ?_, by decide, by decide⟩
  · intro enc skip_data items fuel reader md
    have hap : ∀ r, append_position false r md = (0, md) := by
      intro r
      cases md <;> rfl
    rcases hrl : enc.read_long reader with ⟨rval, block_size, reader1⟩
    rw [skip_array_blocks]
    simp only [hne, if_false, read_block_size, hneg, if_true, hrl, hw, hnat, skip_array_items,
      ht, hap]
    by_cases h0 : rval = 0
    · simp only [h0, ne_eq, not_true_eq_false, if_false]
      rfl
    · simp only [h0, ne_eq, not_false_eq_true, if_true]
  · intro enc skip_data values fuel reader
    rcases hrl : enc.read_long reader with ⟨rval, block_size, reader1⟩
    rw [skip_map_blocks]
    simp only [hne, if_false, read_block_size, hneg, if_true, hrl, hw, hnat, skip_map_items]
    by_cases h0 : rval = 0
    · simp only [h0, ne_eq, not_true_eq_false, if_false]
      rfl
    · simp only [h0, ne_eq, not_false_eq_true, if_true]

/-- C9 (the block-size hint is not used).  Take a size-prefixed block, that is
a block count `c < 0`, and two inputs that differ only in the hint: reading the
hint as one long succeeds on both (`h1` from `reader`, `h2` from `reader'`) and
leaves the same remaining bytes, `d` positions apart (`d` is the difference of
the lengths of the two hints).  Then the item count is `wrap64 (c * -1)` on
both, and the block loops of `skip_array` (as `avro_skip_data` calls it, and as
`avro_map_data` calls it with a mapped array) and of `skip_map` give the same
outcome on both: the same status or the same lack of fuel, the same remaining
bytes, and for the mapped array the same offsets, those recorded in this run
moved by `d` like the bytes they point at.  When the block is the first of the
array or map, so that the two inputs are the bytes of the count followed by
what the two readers hold, this is a statement about `avro_skip_data` and
`avro_map_data` themselves. -/
theorem block_size_hint_unused (env : Nat → avro_schema_t) (depth fuel : Nat)
    (items values : avro_schema_t) (c : Int) (hc : c < 0)
    (reader reader' reader1 : avro_reader_t) (h1 h2 : Int) (d : Nat)
    (e1 : read_long reader = (0, h1, reader1))
    (e2 : read_long reader' = (0, h2, shift_reader d reader1))
    (offsets : List avro_datum_t) :
    read_block_size avro_binary_encoding c reader = (0, wrap64 (c * -1), reader1) ∧
    read_block_size avro_binary_encoding c reader' =
      (0, wrap64 (c * -1), shift_reader d reader1) ∧
    skip_array_blocks avro_binary_encoding (avro_skip_data env depth) items fuel c reader'
        none =
      (skip_array_blocks avro_binary_encoding (avro_skip_data env depth) items fuel c reader
        none).map (fun x => (x.1, shift_reader d x.2.1, x.2.2)) ∧
    skip_array_blocks avro_binary_encoding (avro_skip_data env depth) items fuel c reader'
        (some (avro_datum_t.array offsets)) =
      (skip_array_blocks avro_binary_encoding (avro_skip_data env depth) items fuel c reader
        (some (avro_datum_t.array offsets))).map
        (fun x => (x.1, shift_reader d x.2.1, shift_offsets_from d offsets.length x.2.2)) ∧
    skip_map_blocks avro_binary_encoding (avro_skip_data env depth) values fuel c reader' =
      (skip_map_blocks avro_binary_encoding (avro_skip_data env depth) values fuel c reader).map
        (fun x => (x.1, shift_reader d x.2)) ∧
    ∀ (p : Nat) (count_bytes : List Nat),
      read_long ⟨p, count_bytes ++ reader.rest⟩ = (0, c, reader) →
      read_long ⟨p, count_bytes ++ reader'.rest⟩ = (0, c, reader') →
      avro_skip_data env (depth + 1) (avro_schema_t.array items)
          ⟨p, count_bytes ++ reader'.rest⟩ =
        (avro_skip_data env (depth + 1) (avro_schema_t.array items)
          ⟨p, count_bytes ++ reader.rest⟩).map (fun x => (x.1, shift_reader d x.2)) ∧
      avro_map_data env (depth + 1) (avro_schema_t.array items)
          ⟨p, count_bytes ++ reader'.rest⟩ none =
        (avro_map_data env (depth + 1) (avro_schema_t.array items)
          ⟨p, count_bytes ++ reader.rest⟩ none).map
          (fun x => (x.1, shift_reader d x.2.1, shift_offsets_from d 0 x.2.2)) ∧
      avro_skip_data env (depth + 1) (avro_schema_t.map values)
          ⟨p, count_bytes ++ reader'.rest⟩ =
        (avro_skip_data env (depth + 1) (avro_schema_t.map values)
          ⟨p, count_bytes ++ reader.rest⟩).map (fun x => (x.1, shift_reader d x.2)) := by
  have hs := avro_skip_data_shift env d depth
  have hrb : read_block_size avro_binary_encoding c reader = (0, wrap64 (c * -1), reader1) := by
    simp only [read_block_size, hc, if_true, read_long_binary, e1]
  have hrb' : read_block_size avro_binary_encoding c reader' =
      (0, wrap64 (c * -1), shift_reader d reader1) := by
    simp only [read_block_size, hc, if_true, read_long_binary, e2]
  have hne : c ≠ 0 := by omega
  have harr_none : ∀ fuel,
      skip_array_blocks avro_binary_encoding (avro_skip_data env depth) items fuel c reader'
          none =
        (skip_array_blocks avro_binary_encoding (avro_skip_data env depth) items fuel c reader
          none).map (fun x => (x.1, shift_reader d x.2.1, x.2.2)) := by
    intro fuel
    cases fuel with
    | zero => simp [skip_array_blocks, hne]
    | succ fuel =>
      have h := skip_array_blocks_step_shift d 0 _ hs items fuel
        (skip_array_blocks_shift d 0 _ hs items fuel) c reader reader' reader1 _ _ none trivial
        hrb hrb'
      rw [shift_offsets_from_none] at h
      rw [h]
      cases hx : skip_array_blocks avro_binary_encoding (avro_skip_data env depth) items
        (fuel + 1) c reader none with
      | none => rfl
      | some x =>
        have hnone := skip_array_blocks_isSome _ _ _ _ _ _ _ _ hx
        have hx2 : x.2.2 = none := by
          cases hm : x.2.2 with
          | none => rfl
          | some y => rw [hm] at hnone; exact absurd hnone (by simp)
        simp only [Option.map_some', hx2, shift_offsets_from_none]
  have harr_some : ∀ fuel (offsets : List avro_datum_t),
      skip_array_blocks avro_binary_encoding (avro_skip_data env depth) items fuel c reader'
          (some (avro_datum_t.array offsets)) =
        (skip_array_blocks avro_binary_encoding (avro_skip_data env depth) items fuel c reader
          (some (avro_datum_t.array offsets))).map
          (fun x => (x.1, shift_reader d x.2.1, shift_offsets_from d offsets.length x.2.2)) := by
    intro fuel offsets
    have hk : offsets_from_ok offsets.length (some (avro_datum_t.array offsets)) :=
      Nat.le_refl _
    have hsh : shift_offsets_from d offsets.length (some (avro_datum_t.array offsets)) =
        some (avro_datum_t.array offsets) := by
      simp [shift_offsets_from]
    cases fuel with
    | zero => simp [skip_array_blocks, hne]
    | succ fuel =>
      have h := skip_array_blocks_step_shift d offsets.length _ hs items fuel
        (skip_array_blocks_shift d offsets.length _ hs items fuel) c reader reader' reader1 _ _
        _ hk hrb hrb'
      rw [hsh] at h
      exact h
  have hmap : ∀ fuel,
      skip_map_blocks avro_binary_encoding (avro_skip_data env depth) values fuel c reader' =
        (skip_map_blocks avro_binary_encoding (avro_skip_data env depth) values fuel c
          reader).map (fun x => (x.1, shift_reader d x.2)) := by
    intro fuel
    cases fuel with
    | zero => simp [skip_map_blocks, hne]
    | succ fuel =>
      exact skip_map_blocks_step_shift d _ hs values fuel
        (skip_map_blocks_shift d _ hs values fuel) c reader reader' reader1 _ _ hrb hrb'
  refine ⟨hrb, hrb', harr_none fuel, harr_some fuel offsets, hmap fuel, ?_⟩
  intro p count_bytes hc1 hc2
  refine ⟨?_, ?_, ?_⟩
  · simp only [avro_skip_data, skip_array, read_long_binary, hc1, hc2, ne_eq,
      not_true_eq_false, if_false, harr_none depth, drop_datum, Option.map_map]
    rfl
  · simp only [avro_map_data, skip_array, read_long_binary, hc1, hc2, ne_eq,
      not_true_eq_false, if_false, avro_array]
    exact harr_some depth []
  · simp only [avro_skip_data, skip_map, read_long_binary, hc1, hc2, ne_eq,
      not_true_eq_false, if_false, hmap depth]

theorem block_size_hint_unused_witness :
    (-1 : Int) < 0 ∧
      read_long ⟨1, [2, 4, 0]⟩ = (0, 1, ⟨2, [4, 0]⟩) ∧
      read_long ⟨1, [128, 1, 4, 0]⟩ = (0, 64, shift_reader 1 ⟨2, [4, 0]⟩) ∧
      skip_array_blocks avro_binary_encoding (avro_skip_data (fun _ => avro_schema_t.null) 1)
          avro_schema_t.int64 2 (-1) ⟨1, [2, 4, 0]⟩ (some (avro_datum_t.array [])) =
        some (0, ⟨4, []⟩, some (avro_datum_t.array [avro_datum_t.int64 2, avro_datum_t.int64 3])) ∧
      skip_array_blocks avro_binary_encoding (avro_skip_data (fun _ => avro_schema_t.null) 1)
          avro_schema_t.int64 2 (-1) ⟨1, [128, 1, 4, 0]⟩ (some (avro_datum_t.array [])) =
        (skip_array_blocks avro_binary_encoding (avro_skip_data (fun _ => avro_schema_t.null) 1)
          avro_schema_t.int64 2 (-1) ⟨1, [2, 4, 0]⟩ (some (avro_datum_t.array []))).map
          (fun x => (x.1, shift_reader 1 x.2.1, shift_offsets_from 1 0 x.2.2)) :=
  ⟨by decide, by decide, by decide, by decide,
    (block_size_hint_unused (fun _ => avro_schema_t.null) 1 2 avro_schema_t.int64
      avro_schema_t.int64 (-1) (by decide) ⟨1, [2, 4, 0]⟩ ⟨1, [128, 1, 4, 0]⟩ ⟨2, [4, 0]⟩ 1 64 1
      (by decide) (by decide) []).2.2.2.1⟩

/-- C11 (no partial index on failure), amended.  `avro_map_data` assigns
`*mapped_datum` before it traverses and never resets it, so what it holds when
the call returns, whatever the status and in particular on every failure, is
decided by the schema alone.  For an array schema it is the array of the
offsets recorded up to that point, in non-decreasing order and between the
position at the call and the position at the return.  For a record schema it is
the record datum built up to that point, which has an entry named `__offset`.
For every other schema it is what the caller passed in: no index node is handed
back. -/
theorem failure_index_node (env : Nat → avro_schema_t) (fuel : Nat) (s : avro_schema_t)
    (reader reader1 : avro_reader_t) (md0 md : Option avro_datum_t) (rval : Int)
    (h : avro_map_data env fuel s reader md0 = some (rval, reader1, md)) :
    ((∃ items, s = avro_schema_t.array items) →
      ∃ ms : List Nat, md = some (avro_datum_t.array (ms.map offset_datum)) ∧
        ms.Pairwise (fun a b => a ≤ b) ∧ ∀ m ∈ ms, reader.pos ≤ m ∧ m ≤ reader1.pos) ∧
    ((∃ fields, s = avro_schema_t.record fields) →
      ∃ names entries, md = some (avro_datum_t.record names entries) ∧
        (avro_record_get (avro_datum_t.record names entries) "__offset").isSome = true) ∧
    (¬ ((∃ items, s = avro_schema_t.array items) ∨
        (∃ fields, s = avro_schema_t.record fields)) → md = md0) := by
  refine ⟨?_, ?_, ?_⟩
  · rintro ⟨items, rfl⟩
    obtain ⟨_, _, ms, hms, hp, hr⟩ :=
      avro_map_data_array_ordered env fuel items reader md0 _ h
    exact ⟨ms, hms, hp, hr⟩
  · rintro ⟨fields, rfl⟩
    exact avro_map_data_record_node env fuel fields reader md0 _ h
  · intro hs
    rcases avro_map_data_isSome env fuel s reader md0 _ h with ⟨hs1, _⟩ | ⟨_, hm⟩
    · exact absurd hs1 hs
    · exact hm

theorem failure_index_node_witness :
    avro_map_data (fun _ => avro_schema_t.null) 3
        (avro_schema_t.record [("a", avro_schema_t.array avro_schema_t.int64),
          ("b", avro_schema_t.union [avro_schema_t.null, avro_schema_t.int64])])
        ⟨0, [0, 4]⟩ none =
      some (EILSEQ, ⟨2, []⟩, some (avro_datum_t.record ["__offset", "a"]
        [("__offset", avro_datum_t.int64 0), ("a", avro_datum_t.array [])])) ∧
    EILSEQ ≠ 0 ∧
    ∃ names entries,
      some (avro_datum_t.record ["__offset", "a"]
        [("__offset", avro_datum_t.int64 0), ("a", avro_datum_t.array [])]) =
        some (avro_datum_t.record names entries) ∧
      (avro_record_get (avro_datum_t.record names entries) "__offset").isSome = true :=
  ⟨by decide, by decide,
    (failure_index_node (fun _ => avro_schema_t.null) 3
      (avro_schema_t.record [("a", avro_schema_t.array avro_schema_t.int64),
        ("b", avro_schema_t.union [avro_schema_t.null, avro_schema_t.int64])])
      ⟨0, [0, 4]⟩ ⟨2, []⟩ none _ EILSEQ (by decide)).2.1 ⟨_, rfl⟩⟩

/-- C11 (no partial index on failure), refuted as stated.  On an array of longs
whose stream `[4, 2]` announces two elements and ends after the first,
`avro_map_data`, called with `*mapped_datum == NULL`, returns `ENOSPC`, which is
not 0, and `*mapped_datum` is not `NULL` afterwards: it points to the array that
holds the offset 1 recorded before the failure. -/
theorem failure_leaves_index :
    avro_map_data (fun _ => avro_schema_t.null) 3 (avro_schema_t.array avro_schema_t.int64)
        ⟨0, [4, 2]⟩ none =
      some (ENOSPC, ⟨2, []⟩, some (avro_datum_t.array [avro_datum_t.int64 1])) ∧
    ENOSPC ≠ 0 ∧
    some (avro_datum_t.array [avro_datum_t.int64 1]) ≠ none := by
  exact ⟨by decide, by decide, by decide⟩

/-- C12 (chunking restarts per block).  For every array schema and every valid
encoding made of the blocks `blocks` followed by the zero count, with enough
fuel `avro_map_data` returns 0, leaves the reader after the encoding and hands
back exactly `blocks_offsets p blocks`: the offsets of each block on its own
(`block_offsets`: the positions in front of its elements at in-block indices 0,
512, 1024, ... and a trailing position iff its count is not a multiple of 512),
one block after the other in block order.  The index that decides the marks is
the index within the block, from 0 in every block. -/
theorem chunking_restarts_per_block (env : Nat → avro_schema_t) (items : avro_schema_t)
    (blocks : List array_block)
    (hok : ∀ b ∈ blocks, block_ok b.size_hint b.elems.length)
    (henc : ∀ b ∈ blocks, ∀ x ∈ b.elems, Encodes env items x.1 x.2) :
    ∃ n, ∀ fuel, n ≤ fuel → ∀ (p : Nat) (R : List Nat) (md0 : Option avro_datum_t),
      avro_map_data env fuel (avro_schema_t.array items)
          ⟨p, encode_array_blocks blocks ++ R⟩ md0 =
        some (0, ⟨p + (encode_array_blocks blocks).length, R⟩,
          some (avro_datum_t.array ((blocks_offsets p blocks).map offset_datum))) :=
  avro_map_data_array_encoded env items blocks hok henc

theorem chunking_restarts_per_block_witness :
    (∀ b ∈ [(⟨none, [(avro_value.long 1, [2])]⟩ : array_block),
        ⟨some 7, [(avro_value.long 64, [128, 1]), (avro_value.long 0, [0])]⟩],
      block_ok b.size_hint b.elems.length) ∧
    (∀ b ∈ [(⟨none, [(avro_value.long 1, [2])]⟩ : array_block),
        ⟨some 7, [(avro_value.long 64, [128, 1]), (avro_value.long 0, [0])]⟩],
      ∀ x ∈ b.elems, Encodes (fun _ => avro_schema_t.null) avro_schema_t.int64 x.1 x.2) ∧
    ∃ n, ∀ fuel, n ≤ fuel → ∀ (p : Nat) (R : List Nat) (md0 : Option avro_datum_t),
      avro_map_data (fun _ => avro_schema_t.null) fuel
          (avro_schema_t.array avro_schema_t.int64)
          ⟨p, [2, 2, 3, 14, 128, 1, 0, 0] ++ R⟩ md0 =
        some (0, ⟨p + 8, R⟩,
          some (avro_datum_t.array [offset_datum (p + 1), offset_datum (p + 1 + 1),
            offset_datum (p + 1 + 1 + 2), offset_datum (p + 1 + 1 + 2 + 3)])) :=
  have hok : ∀ b ∈ [(⟨none, [(avro_value.long 1, [2])]⟩ : array_block),
      ⟨some 7, [(avro_value.long 64, [128, 1]), (avro_value.long 0, [0])]⟩],
      block_ok b.size_hint b.elems.length := by
    intro b hb
    simp only [List.mem_cons, List.mem_singleton, List.not_mem_nil, or_false] at hb
    rcases hb with rfl | rfl
    · exact ⟨by decide, by decide, by intro h hh; cases hh⟩
    · refine ⟨by decide, by decide, ?_⟩
      intro h hh
      cases hh
      decide
  have henc : ∀ b ∈ [(⟨none, [(avro_value.long 1, [2])]⟩ : array_block),
      ⟨some 7, [(avro_value.long 64, [128, 1]), (avro_value.long 0, [0])]⟩],
      ∀ x ∈ b.elems, Encodes (fun _ => avro_schema_t.null) avro_schema_t.int64 x.1 x.2 := by
    intro b hb x hx
    simp only [List.mem_cons, List.mem_singleton, List.not_mem_nil, or_false] at hb
    rcases hb with rfl | rfl
    · rw [List.mem_singleton] at hx
      subst hx
      exact Encodes.int64 1 (by decide)
    · simp only [List.mem_cons, List.mem_singleton, List.not_mem_nil, or_false] at hx
      rcases hx with rfl | rfl
      · exact Encodes.int64 64 (by decide)
      · exact Encodes.int64 0 (by decide)
  ⟨hok, henc, chunking_restarts_per_block _ _ _ hok henc⟩

/-- C13 (every chunk is bounded by recorded offsets), evaluated where the code
departs from it.  The input is a valid encoding of an array of 512 longs in one
block: count bytes `[128, 8]` at positions 0 and 1, 512 one-byte items at
positions 2 to 513, then the zero count at position 514.  The block is one chunk
of 512 elements, whose first byte is at position 2 and whose last byte is at
position 513.  `avro_map_data` returns the offsets `[2]`: the position 514 just
past the chunk is not recorded, because the end offset is appended only when the
block count is not a multiple of 512. -/
theorem full_chunk_has_no_end_offset :
    (∃ v, Encodes (fun _ => avro_schema_t.null) (avro_schema_t.array avro_schema_t.int64) v
      ([128, 8] ++ List.replicate 512 0 ++ [0])) ∧
    avro_map_data (fun _ => avro_schema_t.null) 2 (avro_schema_t.array avro_schema_t.int64)
        ⟨0, [128, 8] ++ List.replicate 512 0 ++ [0]⟩ none =
      some (0, ⟨515, []⟩, some (avro_datum_t.array [avro_datum_t.int64 2])) ∧
    avro_int64 514 ∉ [avro_datum_t.int64 2] ∧
    ([128, 8] ++ List.replicate 512 0 ++ [0]).drop 514 = [0] := by
  have henc : encode_array_blocks
      [⟨none, List.replicate 512 (avro_value.long 0, encode_long 0)⟩] =
      [128, 8] ++ List.replicate 512 0 ++ [0] := by decide!
  have h0 := @Encodes.array (fun _ => avro_schema_t.null) avro_schema_t.int64
    [⟨none, List.replicate 512 (avro_value.long 0, encode_long 0)⟩]
    (by
      intro b hb
      rw [List.mem_singleton] at hb
      subst hb
      exact ⟨by simp only [List.length_replicate]; decide,
        by simp only [List.length_replicate]; decide, by intro h hh; cases hh⟩)
    (by
      intro b hb x hx
      rw [List.mem_singleton] at hb
      subst hb
      rw [List.eq_of_mem_replicate hx]
      exact Encodes.int64 0 (by decide))
  rw [henc] at h0
  exact ⟨⟨_, h0⟩, by decide!, by decide, by decide!⟩

/-- C14 (empty offsets).  Whenever `avro_map_data` returns 0 on an array schema,
`*mapped_datum` points to an array of offsets.  When the input starts with the
zero count, the call returns 0 with an empty array of offsets and the reader is
right behind that one long.  And when the input is a valid encoding of an array
value and the returned array of offsets is empty, the array value has no
elements. -/
theorem array_offsets_node (env : Nat → avro_schema_t) (fuel : Nat) (items : avro_schema_t)
    (reader reader1 : avro_reader_t) (md0 md : Option avro_datum_t)
    (h : avro_map_data env fuel (avro_schema_t.array items) reader md0 =
      some (0, reader1, md)) :
    (∃ ms : List Nat, md = some (avro_datum_t.array (ms.map offset_datum))) ∧
    (∀ (fuel1 p : Nat) (R : List Nat) (md1 : Option avro_datum_t),
      encode_long 0 = [0] ∧
      avro_map_data env (fuel1 + 1) (avro_schema_t.array items) ⟨p, encode_long 0 ++ R⟩ md1 =
        some (0, ⟨p + 1, R⟩, some (avro_datum_t.array []))) ∧
    (∀ (p : Nat) (R : List Nat), reader = ⟨p, encode_long 0 ++ R⟩ →
      reader1 = ⟨p + 1, R⟩ ∧ md = some (avro_datum_t.array [])) ∧
    (∀ (v : avro_value) (E : List Nat) (p : Nat) (R : List Nat),
      Encodes env (avro_schema_t.array items) v E → reader = ⟨p, E ++ R⟩ →
      md = some (avro_datum_t.array []) → v = avro_value.array []) := by
  have hzero : ∀ (fuel1 p : Nat) (R : List Nat) (md1 : Option avro_datum_t),
      avro_map_data env (fuel1 + 1) (avro_schema_t.array items) ⟨p, encode_long 0 ++ R⟩ md1 =
        some (0, ⟨p + 1, R⟩, some (avro_datum_t.array [])) := by
    intro fuel1 p R md1
    have hsk := skip_array_encoded (avro_skip_data env fuel1) items []
      (fun b hb => absurd hb (List.not_mem_nil b))
      (fun b hb => absurd hb (List.not_mem_nil b)) fuel1 p R (some avro_array)
      (Nat.zero_le _) trivial
    simp only [avro_map_data]
    exact hsk
  refine ⟨?_, fun fuel1 p R md1 => ⟨rfl, hzero fuel1 p R md1⟩, ?_, ?_⟩
  · obtain ⟨_, _, ms, hms, _⟩ := avro_map_data_array_ordered env fuel items reader md0 _ h
    exact ⟨ms, hms⟩
  · intro p R hreader
    subst hreader
    have h1 := avro_map_data_mono env _ _ _ _ fuel (fuel + 1) (Nat.le_succ _) h
    rw [hzero fuel p R md0] at h1
    simp only [Option.some.injEq, Prod.mk.injEq, true_and] at h1
    exact ⟨h1.1.symm, h1.2.symm⟩
  · intro v E p R hE hreader hmd
    subst hreader
    cases hE with
    | array _ blocks hok hel =>
      obtain ⟨n, hn⟩ := avro_map_data_array_encoded env items blocks hok hel
      have h1 := avro_map_data_mono env _ _ _ _ fuel (max fuel n) (le_max_left _ _) h
      rw [hn (max fuel n) (le_max_right _ _) p R md0] at h1
      simp only [Option.some.injEq, Prod.mk.injEq, true_and] at h1
      rw [hmd] at h1
      have h2 := h1.2
      simp only [Option.some.injEq, avro_datum_t.array.injEq, List.map_eq_nil_iff] at h2
      rw [blocks_offsets_eq_nil p blocks hok h2]
      rfl

theorem array_offsets_node_witness :
    avro_map_data (fun _ => avro_schema_t.null) 2 (avro_schema_t.array avro_schema_t.int64)
        ⟨5, [0, 9]⟩ none = some (0, ⟨6, [9]⟩, some (avro_datum_t.array [])) ∧
    ((∃ ms : List Nat, some (avro_datum_t.array []) =
        some (avro_datum_t.array (ms.map offset_datum))) ∧
    (∀ (fuel1 p : Nat) (R : List Nat) (md1 : Option avro_datum_t),
      encode_long 0 = [0] ∧
      avro_map_data (fun _ => avro_schema_t.null) (fuel1 + 1)
          (avro_schema_t.array avro_schema_t.int64) ⟨p, encode_long 0 ++ R⟩ md1 =
        some (0, ⟨p + 1, R⟩, some (avro_datum_t.array []))) ∧
    (∀ (p : Nat) (R : List Nat), (⟨5, [0, 9]⟩ : avro_reader_t) = ⟨p, encode_long 0 ++ R⟩ →
      (⟨6, [9]⟩ : avro_reader_t) = ⟨p + 1, R⟩ ∧
        some (avro_datum_t.array []) = some (avro_datum_t.array [])) ∧
    (∀ (v : avro_value) (E : List Nat) (p : Nat) (R : List Nat),
      Encodes (fun _ => avro_schema_t.null) (avro_schema_t.array avro_schema_t.int64) v E →
      (⟨5, [0, 9]⟩ : avro_reader_t) = ⟨p, E ++ R⟩ →
      some (avro_datum_t.array []) = some (avro_datum_t.array []) →
      v = avro_value.array [])) :=
  ⟨by decide,
    array_offsets_node (fun _ => avro_schema_t.null) 2 avro_schema_t.int64 ⟨5, [0, 9]⟩
      ⟨6, [9]⟩ none (some (avro_datum_t.array [])) (by decide)⟩

/-- C15 (block terminator).  Take an array encoded as one block of `N` valid
items (`1 ≤ N < 2^63`, plain or size-prefixed) followed by the zero count.  With
enough fuel `avro_skip_data` returns 0 and leaves the reader right after the
zero count.  Its `for` loop is `N` element skips one after the other
(`spec_skips`), and on this input the first `k` of them, for every `k ≤ N`,
consume exactly the first `k` items, so the `N` of them end right in front of
the zero count.  The same holds of a map encoded as one block of `N` entries
followed by the zero count, where each of the `N` steps of the loop skips a
string key and then a value (`spec_entry_skip`). -/
theorem block_terminator (env : Nat → avro_schema_t) (items values : avro_schema_t)
    (size_hint map_hint : Option Int) (elems : List (avro_value × List Nat))
    (entries : List (List Nat × avro_value × List Nat))
    (hok : block_ok size_hint elems.length)
    (henc : ∀ x ∈ elems, Encodes env items x.1 x.2)
    (hmok : block_ok map_hint entries.length)
    (hkeys : ∀ x ∈ entries, x.1.length < 9223372036854775808)
    (hmenc : ∀ x ∈ entries, Encodes env values x.2.1 x.2.2) :
    ∃ n, ∀ fuel, n ≤ fuel → ∀ (p : Nat) (R : List Nat),
      (avro_skip_data env (fuel + 1) (avro_schema_t.array items)
          ⟨p, block_header size_hint elems.length ++ (elems.map Prod.snd).flatten ++
            encode_long 0 ++ R⟩ =
        some (0, ⟨p + (block_header size_hint elems.length ++ (elems.map Prod.snd).flatten ++
            encode_long 0).length, R⟩) ∧
       (∀ (n : Nat) (i : Int) (reader : avro_reader_t),
          skip_array_items (avro_skip_data env fuel) items n i reader none =
            (spec_skips (avro_skip_data env fuel items) n reader).map
              (fun x => (x.1, x.2, none))) ∧
       (∀ k, k ≤ elems.length →
          spec_skips (avro_skip_data env fuel items) k
              ⟨p + (block_header size_hint elems.length).length,
                (elems.map Prod.snd).flatten ++ (encode_long 0 ++ R)⟩ =
            some (0, ⟨p + (block_header size_hint elems.length).length +
                (((elems.take k).map Prod.snd).flatten).length,
              ((elems.drop k).map Prod.snd).flatten ++ (encode_long 0 ++ R)⟩))) ∧
      (avro_skip_data env (fuel + 1) (avro_schema_t.map values)
          ⟨p, block_header map_hint entries.length ++ (entries.map encode_map_entry).flatten ++
            encode_long 0 ++ R⟩ =
        some (0, ⟨p + (block_header map_hint entries.length ++
            (entries.map encode_map_entry).flatten ++ encode_long 0).length, R⟩) ∧
       (∀ (n : Nat) (reader : avro_reader_t),
          skip_map_items avro_binary_encoding (avro_skip_data env fuel) values n reader =
            spec_skips (spec_entry_skip avro_binary_encoding (avro_skip_data env fuel) values)
              n reader) ∧
       (∀ k, k ≤ entries.length →
          spec_skips (spec_entry_skip avro_binary_encoding (avro_skip_data env fuel) values) k
              ⟨p + (block_header map_hint entries.length).length,
                (entries.map encode_map_entry).flatten ++ (encode_long 0 ++ R)⟩ =
            some (0, ⟨p + (block_header map_hint entries.length).length +
                (((entries.take k).map encode_map_entry).flatten).length,
              ((entries.drop k).map encode_map_entry).flatten ++ (encode_long 0 ++ R)⟩))) := by
  obtain ⟨N1, hN1⟩ := exists_uniform_fuel elems (fun x fuel => consumes env items x.2 fuel)
    (fun x hx => encodes_consumes env items x.1 x.2 (henc x hx))
  obtain ⟨N2, hN2⟩ := exists_uniform_fuel entries
    (fun x fuel => consumes env values x.2.2 fuel)
    (fun x hx => encodes_consumes env values x.2.1 x.2.2 (hmenc x hx))
  refine ⟨max (max N1 N2) 1, fun fuel hf p R => ?_⟩
  have hf1 : N1 ≤ fuel := le_trans (le_trans (le_max_left N1 N2) (le_max_left _ 1)) hf
  have hf2 : N2 ≤ fuel := le_trans (le_trans (le_max_right N1 N2) (le_max_left _ 1)) hf
  have hf3 : 1 ≤ fuel := le_trans (le_max_right _ 1) hf
  have hsk : ∀ x ∈ elems, ∀ p R,
      avro_skip_data env fuel items ⟨p, x.2 ++ R⟩ = some (0, ⟨p + x.2.length, R⟩) :=
    fun x hx p R => (hN1 fuel hf1 x hx p R).1
  have hmsk : ∀ x ∈ entries, ∀ p R,
      avro_skip_data env fuel values ⟨p, x.2.2 ++ R⟩ = some (0, ⟨p + x.2.2.length, R⟩) :=
    fun x hx p R => (hN2 fuel hf2 x hx p R).1
  refine ⟨⟨?_, skip_array_items_eq_spec _ items, ?_⟩, ⟨?_, skip_map_items_eq_spec _ _ values, ?_⟩⟩
  · have h := skip_array_encoded (avro_skip_data env fuel) items [⟨size_hint, elems⟩]
      (by
        intro b hb
        rw [List.mem_singleton] at hb
        subst hb
        exact hok)
      (by
        intro b hb x hx p R
        rw [List.mem_singleton] at hb
        subst hb
        exact hsk x hx p R)
      fuel p R none (by simpa using hf3) trivial
    simp only [encode_array_blocks, array_block_body, List.append_assoc] at h
    simp only [avro_skip_data, drop_datum, List.append_assoc]
    rw [h]
    rfl
  · intro k hk
    have h := spec_skips_take (avro_skip_data env fuel items) (elems.map Prod.snd)
      (by
        intro e he p R
        rw [List.mem_map] at he
        obtain ⟨x, hx, rfl⟩ := he
        exact hsk x hx p R)
      k (by simpa using hk) (p + (block_header size_hint elems.length).length)
      (encode_long 0 ++ R)
    rw [← List.map_take, ← List.map_drop] at h
    exact h
  · have h := skip_map_encoded (avro_skip_data env fuel) values [⟨map_hint, entries⟩]
      (by
        intro b hb
        rw [List.mem_singleton] at hb
        subst hb
        exact hmok)
      (by
        intro b hb x hx
        rw [List.mem_singleton] at hb
        subst hb
        exact hkeys x hx)
      (by
        intro b hb x hx p R
        rw [List.mem_singleton] at hb
        subst hb
        exact hmsk x hx p R)
      fuel p R (by simpa using hf3)
    simp only [encode_map_blocks, map_block_body, List.append_assoc] at h
    simp only [avro_skip_data, List.append_assoc]
    exact h
  · intro k hk
    have h := spec_skips_take
      (spec_entry_skip avro_binary_encoding (avro_skip_data env fuel) values)
      (entries.map encode_map_entry)
      (by
        intro e he p R
        rw [List.mem_map] at he
        obtain ⟨x, hx, rfl⟩ := he
        exact spec_entry_skip_encoded _ values x (hkeys x hx) (hmsk x hx) p R)
      k (by simpa using hk) (p + (block_header map_hint entries.length).length)
      (encode_long 0 ++ R)
    rw [← List.map_take, ← List.map_drop] at h
    exact h

theorem block_terminator_witness :
    block_ok none [(avro_value.long 1, [2]), (avro_value.long 64, [128, 1])].length ∧
    (∀ x ∈ [(avro_value.long 1, [2]), (avro_value.long 64, [128, 1])],
      Encodes (fun _ => avro_schema_t.null) avro_schema_t.int64 x.1 x.2) ∧
    block_ok (some 5) [(([97] : List Nat), avro_value.long 3, ([6] : List Nat))].length ∧
    (∀ x ∈ [(([97] : List Nat), avro_value.long 3, ([6] : List Nat))],
      x.1.length < 9223372036854775808) ∧
    (∀ x ∈ [(([97] : List Nat), avro_value.long 3, ([6] : List Nat))],
      Encodes (fun _ => avro_schema_t.null) avro_schema_t.int64 x.2.1 x.2.2) ∧
    ∃ n, ∀ fuel, n ≤ fuel → ∀ (p : Nat) (R : List Nat),
      avro_skip_data (fun _ => avro_schema_t.null) (fuel + 1)
          (avro_schema_t.array avro_schema_t.int64) ⟨p, [4, 2, 128, 1, 0] ++ R⟩ =
        some (0, ⟨p + 5, R⟩) ∧
      spec_skips (avro_skip_data (fun _ => avro_schema_t.null) fuel avro_schema_t.int64) 2
          ⟨p + 1, [2, 128, 1] ++ ([0] ++ R)⟩ = some (0, ⟨p + 1 + 3, [] ++ ([0] ++ R)⟩) ∧
      avro_skip_data (fun _ => avro_schema_t.null) (fuel + 1)
          (avro_schema_t.map avro_schema_t.int64) ⟨p, [1, 10, 2, 97, 6, 0] ++ R⟩ =
        some (0, ⟨p + 6, R⟩) ∧
      spec_skips (spec_entry_skip avro_binary_encoding
          (avro_skip_data (fun _ => avro_schema_t.null) fuel) avro_schema_t.int64) 1
          ⟨p + 2, [2, 97, 6] ++ ([0] ++ R)⟩ = some (0, ⟨p + 2 + 3, [] ++ ([0] ++ R)⟩) :=
  have hok : block_ok none
      [(avro_value.long 1, [2]), (avro_value.long 64, [128, 1])].length :=
    ⟨by decide, by decide, by intro h hh; cases hh⟩
  have henc : ∀ x ∈ [(avro_value.long 1, [2]), (avro_value.long 64, [128, 1])],
      Encodes (fun _ => avro_schema_t.null) avro_schema_t.int64 x.1 x.2 := by
    intro x hx
    simp only [List.mem_cons, List.mem_singleton, List.not_mem_nil, or_false] at hx
    rcases hx with rfl | rfl
    · exact Encodes.int64 1 (by decide)
    · exact Encodes.int64 64 (by decide)
  have hmok : block_ok (some 5)
      [(([97] : List Nat), avro_value.long 3, ([6] : List Nat))].length := by
    refine ⟨by decide, by decide, ?_⟩
    intro h hh
    cases hh
    decide
  have hkeys : ∀ x ∈ [(([97] : List Nat), avro_value.long 3, ([6] : List Nat))],
      x.1.length < 9223372036854775808 := by
    intro x hx
    rw [List.mem_singleton] at hx
    subst hx
    decide
  have hmenc : ∀ x ∈ [(([97] : List Nat), avro_value.long 3, ([6] : List Nat))],
      Encodes (fun _ => avro_schema_t.null) avro_schema_t.int64 x.2.1 x.2.2 := by
    intro x hx
    rw [List.mem_singleton] at hx
    subst hx
    exact Encodes.int64 3 (by decide)
  ⟨hok, henc, hmok, hkeys, hmenc,
    (block_terminator (fun _ => avro_schema_t.null) avro_schema_t.int64 avro_schema_t.int64
      none (some 5) _ _ hok henc hmok hkeys hmenc).imp
      (fun _ hn fuel hf p R =>
        ⟨(hn fuel hf p R).1.1, (hn fuel hf p R).1.2.2 2 (le_refl _),
          (hn fuel hf p R).2.1, (hn fuel hf p R).2.2.2 1 (le_refl _)⟩)⟩

/-- C16 (truncated stream is rejected).  For every schema `s`, every valid
encoding `E` of a value of `s` and every strict prefix `P` of `E`, on a reader
that holds exactly `P`, so that the stream ends after `P`, both `avro_skip_data`
and `avro_map_data` return, with enough fuel, a status other than 0, from every
start position `p` and whatever `*mapped_datum` held before. -/
theorem truncated_stream_rejected (env : Nat → avro_schema_t) (s : avro_schema_t)
    (v : avro_value) (E P : List Nat) (hE : Encodes env s v E) (hpre : P <+: E)
    (hne : P ≠ E) :
    ∃ n, ∀ fuel, n ≤ fuel → ∀ (p : Nat),
      (∃ rval reader1, avro_skip_data env fuel s ⟨p, P⟩ = some (rval, reader1) ∧ rval ≠ 0) ∧
      ∀ md0, ∃ rval reader1 md,
        avro_map_data env fuel s ⟨p, P⟩ md0 = some (rval, reader1, md) ∧ rval ≠ 0 := by
  obtain ⟨n, hn⟩ := encodes_rejects env s v E hE
  obtain ⟨T, hT⟩ := hpre
  have htr : truncated E P := by
    refine ⟨T, ?_, hT.symm⟩
    intro h0
    rw [h0, List.append_nil] at hT
    exact hne hT
  exact ⟨n, fun fuel hf p => hn fuel hf P htr p⟩

theorem truncated_stream_rejected_witness :
    Encodes (fun _ => avro_schema_t.null) (avro_schema_t.array avro_schema_t.int64)
      (avro_value.array [avro_value.long 1, avro_value.long 64]) [4, 2, 128, 1, 0] ∧
    [4, 2, 128] <+: [4, 2, 128, 1, 0] ∧ ([4, 2, 128] : List Nat) ≠ [4, 2, 128, 1, 0] ∧
    ∃ n, ∀ fuel, n ≤ fuel → ∀ (p : Nat),
      (∃ rval reader1, avro_skip_data (fun _ => avro_schema_t.null) fuel
          (avro_schema_t.array avro_schema_t.int64) ⟨p, [4, 2, 128]⟩ = some (rval, reader1) ∧
        rval ≠ 0) ∧
      ∀ md0, ∃ rval reader1 md,
        avro_map_data (fun _ => avro_schema_t.null) fuel
            (avro_schema_t.array avro_schema_t.int64) ⟨p, [4, 2, 128]⟩ md0 =
          some (rval, reader1, md) ∧ rval ≠ 0 :=
  have hE : Encodes (fun _ => avro_schema_t.null) (avro_schema_t.array avro_schema_t.int64)
      (avro_value.array [avro_value.long 1, avro_value.long 64]) [4, 2, 128, 1, 0] := by
    have h0 := @Encodes.array (fun _ => avro_schema_t.null) avro_schema_t.int64
      [⟨none, [(avro_value.long 1, encode_long 1), (avro_value.long 64, encode_long 64)]⟩]
      (by
        intro b hb
        rw [List.mem_singleton] at hb
        subst hb
        exact ⟨by decide, by decide, by intro h hh; cases hh⟩)
      (by
        intro b hb x hx
        rw [List.mem_singleton] at hb
        subst hb
        simp only [List.mem_cons, List.mem_singleton, List.not_mem_nil, or_false] at hx
        rcases hx with rfl | rfl
        · exact Encodes.int64 1 (by decide)
        · exact Encodes.int64 64 (by decide))
    exact h0
  ⟨hE, ⟨[1, 0], rfl⟩, by decide,
    truncated_stream_rejected _ _ _ _ [4, 2, 128] hE ⟨[1, 0], rfl⟩ (by decide)⟩

/-- C17 (termination on guarded recursion).  Let the schema `s` be `guarded`:
from every schema the traversal of `s` can come to, following links and record
fields without entering an array, a map or a union comes to an end, so that
every cycle through a link reads a long first.  Then on every finite input
`avro_skip_data` and `avro_map_data` return: there is a fuel from which on
both yield a status and a reader.  The `for` loop of a block is
entered with the absolute value of the block count read, for every count other
than `-2^63`.  For the count `-2^63` the claim fails: `block_count * -1` wraps,
the loop is entered with 0 iterations instead of `2^63`, and on the array of
longs `[-2^63 as count, size hint 0, 0]` the call returns 0 at position 12
without having skipped any element. -/
theorem guarded_recursion_terminates (env : Nat → avro_schema_t) (s : avro_schema_t)
    (hg : guarded env s) (reader : avro_reader_t) :
    (∃ n, ∀ fuel, n ≤ fuel →
      (∃ rval reader1, avro_skip_data env fuel s reader = some (rval, reader1)) ∧
      ∀ md0, ∃ rval reader1 md,
        avro_map_data env fuel s reader md0 = some (rval, reader1, md)) ∧
    (∀ (c : Int) (r : avro_reader_t), -9223372036854775808 < c → c < 9223372036854775808 →
      (read_block_size avro_binary_encoding c r).2.1.toNat = c.natAbs) ∧
    (∀ r : avro_reader_t,
      (read_block_size avro_binary_encoding (-9223372036854775808) r).2.1.toNat = 0) ∧
    (-9223372036854775808 : Int).natAbs = 9223372036854775808 ∧
    avro_skip_data (fun _ => avro_schema_t.null) 3 (avro_schema_t.array avro_schema_t.int64)
        ⟨0, [255, 255, 255, 255, 255, 255, 255, 255, 255, 1, 0, 0]⟩ = some (0, ⟨12, []⟩) ∧
    avro_map_data (fun _ => avro_schema_t.null) 3 (avro_schema_t.array avro_schema_t.int64)
        ⟨0, [255, 255, 255, 255, 255, 255, 255, 255, 255, 1, 0, 0]⟩ none =
      some (0, ⟨12, []⟩, some (avro_datum_t.array [])) := by
  refine ⟨?_, ?_, ?_, by decide, by decide, by decide⟩
  · obtain ⟨⟨F1, res1, h1⟩, F2, h2⟩ :=
      avro_data_halts env s hg (reader.rest.length + 1) s reader reachable.start
        (Nat.lt_succ_self _)
    refine ⟨max F1 F2, fun fuel hf => ⟨⟨res1.1, res1.2, ?_⟩, fun md0 => ?_⟩⟩
    · exact avro_skip_data_mono env s reader res1 F1 fuel
        (le_trans (le_max_left _ _) hf) h1
    · obtain ⟨res, h⟩ := h2 md0
      exact ⟨res.1, res.2.1, res.2.2, avro_map_data_mono env s reader md0 res F2 fuel
        (le_trans (le_max_right _ _) hf) h⟩
  · intro c r h1 h2
    unfold read_block_size
    by_cases hc : c < 0
    · simp only [hc, if_true]
      have hw : wrap64 (c * -1) = -c := by
        unfold wrap64
        omega
      rw [hw]
      omega
    · simp only [hc, if_false]
      omega
  · intro r
    have hneg : (-9223372036854775808 : Int) < 0 := by decide
    have hw : wrap64 (-9223372036854775808 * -1) = -9223372036854775808 := by decide
    simp only [read_block_size, hneg, if_true, hw]
    decide

theorem guarded_recursion_terminates_witness :
    guarded (fun _ => avro_schema_t.array (avro_schema_t.link 0)) (avro_schema_t.link 0) ∧
    avro_skip_data (fun _ => avro_schema_t.array (avro_schema_t.link 0)) 5
      (avro_schema_t.link 0) ⟨0, [2, 0, 0]⟩ = some (0, ⟨3, []⟩) ∧
    ∃ n, ∀ fuel, n ≤ fuel →
      (∃ rval reader1, avro_skip_data (fun _ => avro_schema_t.array (avro_schema_t.link 0))
        fuel (avro_schema_t.link 0) ⟨0, [2, 0, 0]⟩ = some (rval, reader1)) ∧
      ∀ md0, ∃ rval reader1 md,
        avro_map_data (fun _ => avro_schema_t.array (avro_schema_t.link 0)) fuel
          (avro_schema_t.link 0) ⟨0, [2, 0, 0]⟩ md0 = some (rval, reader1, md) :=
  have hg : guarded (fun _ => avro_schema_t.array (avro_schema_t.link 0))
      (avro_schema_t.link 0) :=
    fun x _ => links_resolve_all _ (fun _ => resolves_unguarded.array _) x
  ⟨hg, by decide,
    (guarded_recursion_terminates (fun _ => avro_schema_t.array (avro_schema_t.link 0))
      (avro_schema_t.link 0) hg ⟨0, [2, 0, 0]⟩).1⟩

/-- C18 (offsets are ordered and in range).  Whenever `avro_map_data` returns 0
on an array schema, the reader has not moved backwards, and the returned array
holds stream positions in non-decreasing order, every one of them between the
position at which `avro_map_data` was called, where the encoding of the array
starts, and the position at which it returns. -/
theorem offsets_sorted_in_range (env : Nat → avro_schema_t) (fuel : Nat)
    (items : avro_schema_t) (reader reader1 : avro_reader_t) (md0 md : Option avro_datum_t)
    (h : avro_map_data env fuel (avro_schema_t.array items) reader md0 =
      some (0, reader1, md)) :
    reader.pos ≤ reader1.pos ∧
    ∃ ms : List Nat, md = some (avro_datum_t.array (ms.map offset_datum)) ∧
      ms.Pairwise (fun a b => a ≤ b) ∧ ∀ m ∈ ms, reader.pos ≤ m ∧ m ≤ reader1.pos := by
  obtain ⟨ha, _, ms, hms, hp, hr⟩ := avro_map_data_array_ordered env fuel items reader md0 _ h
  exact ⟨advanced_pos ha, ms, hms, hp, hr⟩

theorem offsets_sorted_in_range_witness :
    avro_map_data (fun _ => avro_schema_t.null) 3 (avro_schema_t.array avro_schema_t.int64)
        ⟨7, [4, 2, 128, 1, 3, 0, 6, 0, 0]⟩ none =
      some (0, ⟨16, []⟩, some (avro_datum_t.array [avro_datum_t.int64 8,
        avro_datum_t.int64 11, avro_datum_t.int64 13, avro_datum_t.int64 15])) ∧
    ((⟨7, [4, 2, 128, 1, 3, 0, 6, 0, 0]⟩ : avro_reader_t).pos ≤ (⟨16, []⟩ : avro_reader_t).pos ∧
    ∃ ms : List Nat, some (avro_datum_t.array [avro_datum_t.int64 8,
        avro_datum_t.int64 11, avro_datum_t.int64 13, avro_datum_t.int64 15]) =
        some (avro_datum_t.array (ms.map offset_datum)) ∧
      ms.Pairwise (fun a b => a ≤ b) ∧
      ∀ m ∈ ms, (⟨7, [4, 2, 128, 1, 3, 0, 6, 0, 0]⟩ : avro_reader_t).pos ≤ m ∧
        m ≤ (⟨16, []⟩ : avro_reader_t).pos) :=
  ⟨by decide,
    offsets_sorted_in_range (fun _ => avro_schema_t.null) 3 avro_schema_t.int64
      ⟨7, [4, 2, 128, 1, 3, 0, 6, 0, 0]⟩ ⟨16, []⟩ none _ (by decide)⟩

end Avro
